import Mathlib

/-!
Shallow embedding of the percolation / cluster-growth core of the
`hypergraphs` repository (`src/hypercube_functions.c`), together with proofs
about it.

Conventions of the embedding:
* C `unsigned long` values are modelled as `ℕ`; the one place where wrap-around
  could matter (`distances[u] + 1` in `dijkstra`) takes an explicit `% 2 ^ 64`.
* C arrays indexed by sites are modelled as total maps `ℕ → _` together with
  pointwise update (`updN`, `setM`).
* The global GSL random stream is modelled as a map `r : ℕ → ℚ` from the index
  of the draw to the variate, together with a cursor `k` threaded through every
  state; `gsl_rng_uniform(RNG) < p` becomes `r k < p` followed by `k + 1`.
* Each C `while` loop becomes a structurally recursive function on an explicit
  fuel argument; the drivers run their loops with a fuel that is proved
  sufficient (the loop has reached its exit condition by then).
* The stack and queue primitives (`push`, `pop`, `enqueue`, `dequeue`) are
  declared in `functions.h` but their implementation file is not part of
  `src/`; they are modelled from the spec (bounded array-backed LIFO/FIFO with
  capacity fixed at creation, overflow and underflow signalled as errors,
  duplicate-tolerant entries).
-/

set_option maxHeartbeats 1000000

namespace HG

/-- The value `ULONG_MAX` of the C 64-bit `unsigned long` type, used by the
source as the "unassigned" / "infinite" sentinel. -/
def UMAX : ℕ := Nat.pow 2 64 - 1

/-- Modelled from the spec: `intpower` (declared in `functions.h`, implemented
in a maths-helpers file that is not part of `src/`) computes integer powers;
the drivers use `intpower(2, N)` for the graph order `2^N`. -/
def intpower (base exponent : ℕ) : ℕ := Nat.pow base exponent

/-- Pointwise update of a site-indexed map, modelling a C array write. -/
def updN {α : Type} (f : ℕ → α) (a : ℕ) (x : α) : ℕ → α :=
  fun b => if b = a then x else f b

/-- Write `M[u][v] := x` in a matrix modelled as a curried map. -/
def setM (M : ℕ → ℕ → ℕ) (u v : ℕ) (x : ℕ) : ℕ → ℕ → ℕ :=
  fun a => if a = u then updN (M u) v x else M a

/-- The number of sites among `0, …, NH-1` marked `true` in a visited map. -/
def countVisited (NH : ℕ) (visited : ℕ → Bool) : ℕ :=
  (List.range NH).countP (fun v => visited v)

/-- A uniform-variate stream is valid when every draw lies in `[0, 1)`,
as `gsl_rng_uniform` guarantees. -/
def RngValid (r : ℕ → ℚ) : Prop := ∀ k, 0 ≤ r k ∧ r k < 1

/-! ### Bounded stack and queue (modelled from the spec) -/

/-- Modelled from the spec: the bounded array-backed LIFO `stack` of
`functions.h` (implementation file not in `src/`). `sites` holds the stored
sites, most recently pushed first, and `length` is the fixed capacity set at
creation; the C `top` counter corresponds to `sites.length`. -/
structure stack where
  sites : List ℕ
  length : ℕ

/-- Modelled from the spec: `setup_stack NH` creates an empty stack whose
capacity is the graph order `NH`. -/
def setup_stack (NH : ℕ) : stack := ⟨[], NH⟩

/-- Modelled from the spec: `push` stores a site on top of the stack and
returns `1` (overflow, stack unchanged) when the capacity is exceeded,
`0` on success. -/
def push (s : stack) (site : ℕ) : stack × ℕ :=
  if s.length ≤ s.sites.length then (s, 1) else (⟨site :: s.sites, s.length⟩, 0)

/-- Modelled from the spec: `pop` removes and returns the top site; the third
component is the underflow error flag (set when the stack is empty). -/
def pop (s : stack) : stack × ℕ × Bool :=
  match s.sites with
  | [] => (s, 0, true)
  | u :: rest => (⟨rest, s.length⟩, u, false)

/-- Modelled from the spec: the bounded FIFO `queue` of `functions.h`
(implementation file not in `src/`). `sites` holds the stored sites, front
first; `length` is the fixed capacity. -/
structure queue where
  sites : List ℕ
  length : ℕ

/-- Modelled from the spec: `setup_queue` creates an empty queue of the given
capacity. -/
def setup_queue (length : ℕ) : queue := ⟨[], length⟩

/-- Modelled from the spec: `enqueue` appends a site at the back, signalling
overflow (second component `true`, queue unchanged) when the capacity is
exceeded. -/
def enqueue (q : queue) (item : ℕ) : queue × Bool :=
  if q.length ≤ q.sites.length then (q, true)
  else (⟨q.sites ++ [item], q.length⟩, false)

/-- Modelled from the spec: `dequeue` removes and returns the front site; the
third component is the underflow error flag. -/
def dequeue (q : queue) : queue × ℕ × Bool :=
  match q.sites with
  | [] => (q, 0, true)
  | u :: rest => (⟨rest, q.length⟩, u, false)

/-- Modelled from the spec: `empty` tests whether the queue holds no site. -/
def empty (q : queue) : Bool := q.sites.isEmpty

/-! ### `DFS_hypercube` -/

/-- State of a `DFS_hypercube` run: the stack, the visited array, the cluster
size counter, the random-stream cursor `k`, and the `*error == -1` flag. -/
structure DFSSt where
  s : stack
  visited : ℕ → Bool
  size : ℕ
  k : ℕ
  err : Bool

/-- The neighbour loop of `DFS_hypercube` (lines 811-824): for each bit `i`,
flip it to get `v`; if `v` is unvisited, draw a variate, and when it is below
`p` push `v`, failing the whole call when the push overflows. -/
def DFS_nbrs (p : ℚ) (r : ℕ → ℚ) (u : ℕ) : List ℕ → DFSSt → DFSSt
  | [], st => st
  | i :: rest, st =>
    let v := u ^^^ 1 <<< i
    if st.visited v then DFS_nbrs p r u rest st
    else if r st.k < p then
      let pr := push st.s v
      if pr.2 = 1 then { st with k := st.k + 1, err := true }
      else DFS_nbrs p r u rest { st with s := pr.1, k := st.k + 1 }
    else DFS_nbrs p r u rest { st with k := st.k + 1 }

/-- The `while (s->top > 0)` loop of `DFS_hypercube`: pop a site, discard it if
already visited, otherwise mark it visited, count it and run the neighbour
loop. `fuel` bounds the number of iterations; the drivers use `dfsFuel`, which
is proved sufficient. -/
def DFS_loop (N : ℕ) (p : ℚ) (r : ℕ → ℚ) : ℕ → DFSSt → DFSSt
  | 0, st => st
  | fuel + 1, st =>
    if st.err then st
    else
      match st.s.sites with
      | [] => st
      | _ :: _ =>
        let pr := pop st.s
        let st1 : DFSSt := { st with s := pr.1 }
        if pr.2.2 then { st1 with err := true }
        else if st1.visited pr.2.1 then DFS_loop N p r fuel st1
        else
          DFS_loop N p r fuel (DFS_nbrs p r pr.2.1 (List.range N)
            { st1 with visited := updN st1.visited pr.2.1 true, size := st1.size + 1 })

/-- Fuel sufficient for `DFS_loop` and `grow_loop` to reach their exit
condition (each iteration strictly decreases
`(N+1) * (2^N - countVisited) + stack length + 1`). -/
def dfsFuel (N : ℕ) : ℕ := (N + 1) * Nat.pow 2 N + 2

/-- `DFS_hypercube` (lines 781-827): fail if the stack is non-empty on entry
(`*error = -1`, return `0`); otherwise push the seed (return value unchecked in
the source) and run the loop. Returns the reported cluster size (0 on error)
together with the final state. -/
def DFS_hypercube (N : ℕ) (p : ℚ) (r : ℕ → ℚ) (s : stack) (visited : ℕ → Bool)
    (start_state : ℕ) (k0 : ℕ) : ℕ × DFSSt :=
  if s.sites.length ≠ 0 then (0, ⟨s, visited, 0, k0, true⟩)
  else
    let st := DFS_loop N p r (dfsFuel N) ⟨(push s start_state).1, visited, 0, k0, false⟩
    (if st.err then 0 else st.size, st)

/-- The realisation loop of `hypercube_clusters` (lines 734-745): for each of
`NR` realisations reset the visited array, run `DFS_hypercube` from site 0 on
the shared stack, and record the size; abort (C: `goto error`, returning NULL)
if the error flag is set. -/
def clusters_loop (N : ℕ) (p : ℚ) (r : ℕ → ℚ) : ℕ → stack → ℕ → Option (List ℕ)
  | 0, _, _ => some []
  | nr + 1, s, k =>
    let res := DFS_hypercube N p r s (fun _ => false) 0 k
    if res.2.err then none
    else
      match clusters_loop N p r nr res.2.s res.2.k with
      | none => none
      | some l => some (res.1 :: l)

/-- `hypercube_clusters` (lines 694-764): `NR` cluster sizes from repeated DFS
runs sharing one stack, or `none` when a run failed. -/
def hypercube_clusters (N NR : ℕ) (p : ℚ) (r : ℕ → ℚ) : Option (List ℕ) :=
  clusters_loop N p r NR (setup_stack (intpower 2 N)) 0

/-! ### `grow_H_cluster` and the Hamiltonian drivers -/

/-- State of a `grow_H_cluster` run. `error_flag` models `*error_flag == -1`
(set only on pop underflow); `aborted` records that the `goto error` exit was
taken (reentry with non-empty stack, pop underflow, or push overflow), after
which the falling C code has freed its buffers. -/
structure GrowSt where
  s : stack
  visited : ℕ → Bool
  labels : ℕ → ℕ
  H : ℕ → ℕ → ℕ
  size : ℕ
  k : ℕ
  error_flag : Bool
  aborted : Bool

/-- The neighbour loop of `grow_H_cluster` (lines 349-373): for each unvisited
neighbour `v` draw a variate; when it is below `p`, push `v` (aborting on
overflow) and record the edge as connected in both `H[u][v]` and `H[v][u]`;
otherwise record it as disconnected in both. -/
def grow_nbrs (p : ℚ) (r : ℕ → ℚ) (u : ℕ) : List ℕ → GrowSt → GrowSt
  | [], st => st
  | i :: rest, st =>
    let v := u ^^^ 1 <<< i
    if st.visited v then grow_nbrs p r u rest st
    else if r st.k < p then
      let pr := push st.s v
      if pr.2 = 1 then { st with k := st.k + 1, aborted := true }
      else grow_nbrs p r u rest
        { st with s := pr.1, k := st.k + 1, H := setM (setM st.H u v 1) v u 1 }
    else grow_nbrs p r u rest { st with k := st.k + 1, H := setM (setM st.H u v 0) v u 0 }

/-- The `while (s->top > 0)` loop of `grow_H_cluster`: pop, discard duplicates,
otherwise mark visited, label (when labelling), count, and run the neighbour
loop. -/
def grow_loop (N : ℕ) (p : ℚ) (r : ℕ → ℚ) (lab : Bool) (c : ℕ) : ℕ → GrowSt → GrowSt
  | 0, st => st
  | fuel + 1, st =>
    if st.aborted then st
    else
      match st.s.sites with
      | [] => st
      | _ :: _ =>
        let pr := pop st.s
        let st1 : GrowSt := { st with s := pr.1 }
        if pr.2.2 then { st1 with error_flag := true, aborted := true }
        else if st1.visited pr.2.1 then grow_loop N p r lab c fuel st1
        else
          grow_loop N p r lab c fuel (grow_nbrs p r pr.2.1 (List.range N)
            { st1 with visited := updN st1.visited pr.2.1 true,
                       labels := if lab then updN st1.labels pr.2.1 c else st1.labels,
                       size := st1.size + 1 })

/-- `grow_H_cluster` (lines 319-386): abort (PyErr, `goto error`) if the stack
is non-empty on entry; otherwise push the seed and run the loop. `lab`
is true when a labels array is passed (non-NULL), `c` is the cluster index. -/
def grow_H_cluster (N : ℕ) (p : ℚ) (r : ℕ → ℚ) (lab : Bool) (c : ℕ) (s : stack)
    (visited : ℕ → Bool) (labels : ℕ → ℕ) (H : ℕ → ℕ → ℕ) (start_state k0 : ℕ)
    (errF : Bool) : GrowSt :=
  if s.sites.length ≠ 0 then ⟨s, visited, labels, H, 0, k0, errF, true⟩
  else grow_loop N p r lab c (dfsFuel N)
    ⟨(push s start_state).1, visited, labels, H, 0, k0, errF, false⟩

/-- `hypercube_H_SC` (lines 539-609): one cluster grown from site 0 into a
zero matrix, no labelling. Returns the `(H, size)` pair, or `none` when the
growth took its error exit (in the C source the buffers are freed there and
the continuation is undefined). -/
def hypercube_H_SC (N : ℕ) (p : ℚ) (r : ℕ → ℚ) : Option ((ℕ → ℕ → ℕ) × ℕ) :=
  let NH := intpower 2 N
  let g := grow_H_cluster N p r false 0 (setup_stack NH) (fun _ => false)
    (fun _ => 0) (fun _ _ => 0) 0 0 false
  if g.aborted then none else some (g.H, g.size)

/-- The inner loop of `hypercube_H` (lines 651-672): for each bit `i`, draw a
variate and write connected/disconnected to `H[row][col]` and `H[col][row]`. -/
def H_row (p : ℚ) (r : ℕ → ℚ) (row : ℕ) :
    List ℕ → (ℕ → ℕ → ℕ) × ℕ → (ℕ → ℕ → ℕ) × ℕ
  | [], Hk => Hk
  | i :: rest, (H, k) =>
    let col := row ^^^ 1 <<< i
    let x := if r k < p then 1 else 0
    H_row p r row rest (setM (setM H row col x) col row x, k + 1)

/-- The outer loop of `hypercube_H` over all rows. -/
def H_rows (p : ℚ) (r : ℕ → ℚ) (N : ℕ) :
    List ℕ → (ℕ → ℕ → ℕ) × ℕ → (ℕ → ℕ → ℕ) × ℕ
  | [], Hk => Hk
  | row :: rest, Hk => H_rows p r N rest (H_row p r row (List.range N) Hk)

/-- `hypercube_H` (lines 621-680): the full randomly-thinned adjacency matrix
of the hypercube, built with one draw per `(row, bit)` slot. -/
def hypercube_H (N : ℕ) (p : ℚ) (r : ℕ → ℚ) : ℕ → ℕ → ℕ :=
  (H_rows p r N (List.range (intpower 2 N)) (fun _ _ => 0, 0)).1

/-- Driver state of `hypercube_H_LC` (lines 400-526). `halted` records that
the site loop stopped (early exit `break`, or the undefined continuation after
an aborted growth). -/
structure LCHSt where
  g : GrowSt
  largest_cluster_index : ℕ
  largest_cluster_size : ℕ
  cluster_index : ℕ
  total_size : ℕ
  halted : Bool

/-- One iteration of the site loop of `hypercube_H_LC` (lines 456-474),
parametrised by `ee`: with `ee = true` the early-exit `break` of the source is
executed, with `ee = false` the loop always enumerates every site (the
exhaustive reference behaviour). When a growth takes its error exit the C
code's continuation operates on freed buffers, so the model halts there. -/
def growLC_site (N : ℕ) (p : ℚ) (r : ℕ → ℚ) (NH : ℕ) (ee : Bool)
    (st : LCHSt) (site : ℕ) : LCHSt :=
  if st.halted then st
  else if st.g.visited site then st
  else
    let g1 := grow_H_cluster N p r true st.cluster_index st.g.s st.g.visited
      st.g.labels st.g.H site st.g.k st.g.error_flag
    if g1.aborted then { st with g := g1, halted := true }
    else
      let total_size := st.total_size + g1.size
      let bigger := st.largest_cluster_size < g1.size
      let st' : LCHSt :=
        { st with g := g1, total_size := total_size,
                  largest_cluster_size := if bigger then g1.size else st.largest_cluster_size,
                  largest_cluster_index := if bigger then st.cluster_index else st.largest_cluster_index,
                  cluster_index := st.cluster_index + 1 }
      if ee ∧ NH - total_size ≤ st'.largest_cluster_size then { st' with halted := true }
      else st'

/-- The site loop of `hypercube_H_LC`: initial state (all labels `ULONG_MAX`,
zero matrix, empty stack of capacity `NH`) folded over all sites. -/
def hypercube_H_LC_run (ee : Bool) (N : ℕ) (p : ℚ) (r : ℕ → ℚ) : LCHSt :=
  let NH := intpower 2 N
  (List.range NH).foldl (growLC_site N p r NH ee)
    ⟨⟨setup_stack NH, fun _ => false, fun _ => UMAX, fun _ _ => 0, 0, 0, false, false⟩,
      0, 0, 0, 0, false⟩

/-- The copy-out inner loop of `hypercube_H_LC` (lines 488-496). In the source
`hamiltonian_LC_ptr` aliases `hamiltonian[i][k]` (it is taken from
`hamiltonian`, not `hamiltonian_LC`), so the first store writes `H[i][k]` to
itself and only the transposed store writes into the restricted copy. -/
def H_LC_copy_inner (i : ℕ) : List ℕ → (ℕ → ℕ → ℕ) × (ℕ → ℕ → ℕ) → (ℕ → ℕ → ℕ) × (ℕ → ℕ → ℕ)
  | [], HL => HL
  | kk :: rest, (H, LCm) =>
    let x := H i kk
    H_LC_copy_inner i rest (setM H i kk x, setM LCm kk i x)

/-- The copy-out outer loop of `hypercube_H_LC` (lines 484-499): rows whose
label equals the largest cluster's index are copied. -/
def H_LC_copy (NH L : ℕ) (labels : ℕ → ℕ) :
    List ℕ → (ℕ → ℕ → ℕ) × (ℕ → ℕ → ℕ) → (ℕ → ℕ → ℕ) × (ℕ → ℕ → ℕ)
  | [], HL => HL
  | i :: rest, HL =>
    H_LC_copy NH L labels rest
      (if labels i = L then H_LC_copy_inner i (List.range NH) HL else HL)

/-- `hypercube_H_LC` (lines 400-526): run the site loop (with the early exit,
as in the source), then copy out the largest cluster's rows; `none` when a
growth aborted. -/
def hypercube_H_LC (N : ℕ) (p : ℚ) (r : ℕ → ℚ) : Option ((ℕ → ℕ → ℕ) × ℕ) :=
  let NH := intpower 2 N
  let st := hypercube_H_LC_run true N p r
  if st.g.aborted then none
  else
    some ((H_LC_copy NH st.largest_cluster_index st.g.labels (List.range NH)
      (st.g.H, fun _ _ => 0)).2, st.largest_cluster_size)

/-! ### `dijkstra` and the distance drivers -/

/-- State of a `dijkstra` run: the queue, the visited / distances / labels
arrays, the `number_visited` counter, the stream cursor and the error flag. -/
structure DijSt where
  q : queue
  visited : ℕ → Bool
  distances : ℕ → ℕ
  labels : ℕ → ℕ
  number_visited : ℕ
  k : ℕ
  qerr : Bool

/-- The neighbour loop of `dijkstra` (lines 51-68): for each unvisited
neighbour `v`, draw a variate; when it is below `p` and the candidate distance
`distances[u] + 1` improves on `distances[v]`, enqueue `v` (aborting on
overflow) and relax `distances[v]`. -/
def dij_nbrs (p : ℚ) (r : ℕ → ℚ) (u : ℕ) : List ℕ → DijSt → DijSt
  | [], st => st
  | i :: rest, st =>
    let v := u ^^^ 1 <<< i
    if st.visited v then dij_nbrs p r u rest st
    else if r st.k < p then
      let old_cost := st.distances v
      let new_cost := (st.distances u + 1) % Nat.pow 2 64
      if new_cost < old_cost then
        let pr := enqueue st.q v
        if pr.2 then { st with k := st.k + 1, qerr := true }
        else dij_nbrs p r u rest
          { st with q := pr.1, k := st.k + 1, distances := updN st.distances v new_cost }
      else dij_nbrs p r u rest { st with k := st.k + 1 }
    else dij_nbrs p r u rest { st with k := st.k + 1 }

/-- The `while(!empty(q))` loop of `dijkstra` (lines 37-69): dequeue `u`,
increment `number_visited` (no duplicate check), mark visited, label (when
labelling), and run the neighbour loop. -/
def dij_loop (N : ℕ) (p : ℚ) (r : ℕ → ℚ) (lab : Bool) (c : ℕ) : ℕ → DijSt → DijSt
  | 0, st => st
  | fuel + 1, st =>
    if st.qerr then st
    else
      match st.q.sites with
      | [] => st
      | _ :: _ =>
        let pr := dequeue st.q
        let st1 : DijSt := { st with q := pr.1 }
        if pr.2.2 then { st1 with qerr := true }
        else
          dij_loop N p r lab c fuel (dij_nbrs p r pr.2.1 (List.range N)
            { st1 with number_visited := st1.number_visited + 1,
                       visited := updN st1.visited pr.2.1 true,
                       labels := if lab then updN st1.labels pr.2.1 c else st1.labels })

/-- Fuel sufficient for `dij_loop` (every iteration visits a new site, so at
most `2^N` iterations happen). -/
def dijFuel (N : ℕ) : ℕ := Nat.pow 2 N + 1

/-- `dijkstra` (lines 30-80): enqueue the seed (return unchecked in the
source) and run the loop. The caller presets the seed's distance. -/
def dijkstra (N : ℕ) (p : ℚ) (r : ℕ → ℚ) (lab : Bool) (c : ℕ) (q : queue)
    (visited : ℕ → Bool) (distances labels : ℕ → ℕ) (start_site k0 : ℕ) : DijSt :=
  dij_loop N p r lab c (dijFuel N)
    ⟨(enqueue q start_site).1, visited, distances, labels, 0, k0, false⟩

/-- `hypercube_dijkstra` (lines 219-297): distances all `ULONG_MAX` except
site 0 preset to 0, then one `dijkstra` run from site 0. Returns the final
engine state. -/
def hypercube_dijkstra_run (N : ℕ) (p : ℚ) (r : ℕ → ℚ) : DijSt :=
  let NH := intpower 2 N
  dijkstra N p r false 0 (setup_queue NH) (fun _ => false)
    (updN (fun _ => UMAX) 0 0) (fun _ => UMAX) 0 0

/-- The copy-out of `hypercube_dijkstra` (lines 272-279): the distances of the
visited sites, in site order. -/
def finite_distances (NH : ℕ) (st : DijSt) : List ℕ :=
  ((List.range NH).filter (fun i => st.visited i)).map st.distances

/-- `hypercube_dijkstra`: the returned array (`none` when the engine failed,
which frees the buffers in the source). -/
def hypercube_dijkstra (N : ℕ) (p : ℚ) (r : ℕ → ℚ) : Option (List ℕ) :=
  let st := hypercube_dijkstra_run N p r
  if st.qerr then none else some (finite_distances (intpower 2 N) st)

/-- Driver state of `hypercube_dijkstra_LC` (lines 93-204). -/
structure LCDSt where
  d : DijSt
  largest_cluster_index : ℕ
  largest_cluster_size : ℕ
  cluster_index : ℕ
  total_size : ℕ
  halted : Bool
  aborted : Bool

/-- One iteration of the site loop of `hypercube_dijkstra_LC` (lines 149-168),
parametrised by the early-exit flag `ee` exactly as `growLC_site`. -/
def dijLC_site (N : ℕ) (p : ℚ) (r : ℕ → ℚ) (NH : ℕ) (ee : Bool)
    (st : LCDSt) (site : ℕ) : LCDSt :=
  if st.halted then st
  else if st.d.visited site then st
  else
    let d1 := dijkstra N p r true st.cluster_index st.d.q st.d.visited
      (updN st.d.distances site 0) st.d.labels site st.d.k
    if d1.qerr then { st with d := d1, halted := true, aborted := true }
    else
      let total_size := st.total_size + d1.number_visited
      let bigger := st.largest_cluster_size < d1.number_visited
      let st' : LCDSt :=
        { st with d := d1, total_size := total_size,
                  largest_cluster_size := if bigger then d1.number_visited else st.largest_cluster_size,
                  largest_cluster_index := if bigger then st.cluster_index else st.largest_cluster_index,
                  cluster_index := st.cluster_index + 1 }
      if ee ∧ NH - total_size ≤ st'.largest_cluster_size then { st' with halted := true }
      else st'

/-- The site loop of `hypercube_dijkstra_LC`. -/
def hypercube_dijkstra_LC_run (ee : Bool) (N : ℕ) (p : ℚ) (r : ℕ → ℚ) : LCDSt :=
  let NH := intpower 2 N
  (List.range NH).foldl (dijLC_site N p r NH ee)
    ⟨⟨setup_queue NH, fun _ => false, fun _ => UMAX, fun _ => UMAX, 0, 0, false⟩,
      0, 0, 0, 0, false, false⟩

/-- The copy-out of `hypercube_dijkstra_LC` (lines 177-184): distances of the
sites labelled with the largest cluster's index, in site order. -/
def LC_finite_distances (NH : ℕ) (st : LCDSt) : List ℕ :=
  ((List.range NH).filter (fun i => st.d.labels i == st.largest_cluster_index)).map
    st.d.distances

/-- `hypercube_dijkstra_LC`: the returned array and largest cluster size. -/
def hypercube_dijkstra_LC (N : ℕ) (p : ℚ) (r : ℕ → ℚ) : Option (List ℕ × ℕ) :=
  let st := hypercube_dijkstra_LC_run true N p r
  if st.aborted then none
  else some (LC_finite_distances (intpower 2 N) st, st.largest_cluster_size)

/-! ### Basic lemmas -/

/-- The rational `1/2`, written as an explicit numerator/denominator pair so
that concrete runs evaluate by kernel reduction. -/
def half : ℚ := ⟨1, 2, by decide, by decide⟩

/-- Decision bits of a concrete draw sequence on the 7-dimensional hypercube
(bit `k` set means draw `k` falls below `p`): phase one traces a Hamiltonian
path so the cluster of site 0 has exactly 64 sites, phase two drives a later
growth into a stack overflow. -/
def C1BITS : ℕ := 181709681073901722637330942577830802493077428613907127912927322151767666456923540728400719765119623646771411506206688282324185387638913

/-- The draw stream encoded by `C1BITS` (0 is below `p = 1/2`, `1/2` is not). -/
def c1r : ℕ → ℚ := fun k => if C1BITS.testBit k then 0 else half

theorem updN_same {α : Type} (f : ℕ → α) (a : ℕ) (x : α) : updN f a x a = x := by
  simp [updN]

theorem updN_other {α : Type} (f : ℕ → α) (a b : ℕ) (x : α) (h : b ≠ a) :
    updN f a x b = f b := by
  simp [updN, h]

theorem setM_same (M : ℕ → ℕ → ℕ) (u v : ℕ) (x : ℕ) : setM M u v x u v = x := by
  simp [setM, updN]

theorem setM_other (M : ℕ → ℕ → ℕ) (u v a b : ℕ) (x : ℕ) (h : ¬(a = u ∧ b = v)) :
    setM M u v x a b = M a b := by
  by_cases ha : a = u
  · subst ha
    have hb : b ≠ v := fun hb => h ⟨rfl, hb⟩
    simp [setM, updN, hb]
  · simp [setM, ha]

theorem mem_shiftXor (u i : ℕ) : u ^^^ 1 <<< i ≠ u := by
  intro he
  have h0 : (1 : ℕ) <<< i ≠ 0 := by
    simp [Nat.shiftLeft_eq]
  apply h0
  have h2 := congrArg (fun x => u ^^^ x) he
  simpa [← Nat.xor_assoc, Nat.xor_self, Nat.zero_xor] using h2

theorem shiftXor_lt (u i N : ℕ) (hu : u < Nat.pow 2 N) (hi : i < N) :
    u ^^^ 1 <<< i < Nat.pow 2 N := by
  have h1 : (1 : ℕ) <<< i = 2 ^ i := by simp [Nat.shiftLeft_eq]
  have h2 : (2 : ℕ) ^ i < 2 ^ N := Nat.pow_lt_pow_right (by norm_num) hi
  have hp : Nat.pow 2 N = 2 ^ N := rfl
  rw [h1, hp]
  exact Nat.xor_lt_two_pow (by rw [hp] at hu; exact hu) h2

theorem countVisited_le (NH : ℕ) (f : ℕ → Bool) : countVisited NH f ≤ NH := by
  simpa [countVisited] using List.countP_le_length (l := List.range NH) (fun v => f v)

theorem countVisited_congr (NH : ℕ) (f g : ℕ → Bool) (h : ∀ v < NH, f v = g v) :
    countVisited NH f = countVisited NH g := by
  unfold countVisited
  exact List.countP_congr (fun x hx => by rw [h x (List.mem_range.mp hx)])

theorem countP_updN_true (u : ℕ) (f : ℕ → Bool) (hf : f u = false) :
    ∀ l : List ℕ, l.Nodup → u ∈ l →
      l.countP (fun v => updN f u true v) = l.countP (fun v => f v) + 1 := by
  intro l
  induction l with
  | nil => intro _ hmem; cases hmem
  | cons a t ih =>
    intro hnd hmem
    rcases List.nodup_cons.mp hnd with ⟨hal, hl⟩
    rw [List.countP_cons, List.countP_cons]
    rcases List.mem_cons.mp hmem with ha | hm
    · subst ha
      have h1 : updN f u true u = true := updN_same f u true
      have hcong : t.countP (fun v => updN f u true v) = t.countP (fun v => f v) :=
        List.countP_congr (fun x hx => by
          rw [updN_other f u x true (fun hxa => hal (hxa ▸ hx))])
      rw [h1, hcong, hf]
      simp
    · have ha : a ≠ u := fun hau => hal (hau ▸ hm)
      rw [updN_other f u a true ha, ih hl hm]
      ring

theorem countVisited_updN_true (NH u : ℕ) (f : ℕ → Bool) (hu : u < NH)
    (hf : f u = false) :
    countVisited NH (updN f u true) = countVisited NH f + 1 := by
  unfold countVisited
  exact countP_updN_true u f hf (List.range NH) (List.nodup_range NH)
    (List.mem_range.mpr hu)

theorem countVisited_lt (NH u : ℕ) (f : ℕ → Bool) (hu : u < NH) (hf : f u = false) :
    countVisited NH f < NH := by
  have := countVisited_updN_true NH u f hu hf
  have hle := countVisited_le NH (updN f u true)
  omega

theorem push_length (s : stack) (v : ℕ) : (push s v).1.length = s.length := by
  unfold push
  split <;> rfl

theorem push_sites (s : stack) (v : ℕ) (h : s.sites.length < s.length) :
    (push s v).1.sites = v :: s.sites ∧ (push s v).2 = 0 := by
  unfold push
  rw [if_neg (by omega)]
  exact ⟨rfl, rfl⟩

theorem enqueue_length (q : queue) (v : ℕ) : (enqueue q v).1.length = q.length := by
  unfold enqueue
  split <;> rfl

theorem enqueue_ok (q : queue) (v : ℕ) (h : q.sites.length < q.length) :
    (enqueue q v).1.sites = q.sites ++ [v] ∧ (enqueue q v).2 = false := by
  unfold enqueue
  rw [if_neg (by omega)]
  exact ⟨rfl, rfl⟩

/-! ### Claim C8: reentry guard -/

/-- Claim C8: entered with a non-empty stack, `DFS_hypercube` sets the error
flag and returns 0, and `grow_H_cluster` takes its structural-violation exit,
in both cases without popping, visiting or labelling anything (the state other
than the error indication is returned unchanged); with an empty stack this
error branch is not taken and the loop runs. -/
theorem C8_reentry_guard (N : ℕ) (p : ℚ) (r : ℕ → ℚ) (s : stack)
    (visited : ℕ → Bool) (labels : ℕ → ℕ) (H : ℕ → ℕ → ℕ)
    (lab : Bool) (c start k0 : ℕ) (errF : Bool) :
    (s.sites ≠ [] →
      DFS_hypercube N p r s visited start k0 = (0, ⟨s, visited, 0, k0, true⟩) ∧
      grow_H_cluster N p r lab c s visited labels H start k0 errF =
        ⟨s, visited, labels, H, 0, k0, errF, true⟩) ∧
    (s.sites = [] →
      DFS_hypercube N p r s visited start k0 =
        (let st := DFS_loop N p r (dfsFuel N) ⟨(push s start).1, visited, 0, k0, false⟩
         (if st.err then 0 else st.size, st)) ∧
      grow_H_cluster N p r lab c s visited labels H start k0 errF =
        grow_loop N p r lab c (dfsFuel N)
          ⟨(push s start).1, visited, labels, H, 0, k0, errF, false⟩) := by
  constructor
  · intro hne
    have hlen : s.sites.length ≠ 0 := by
      intro h0
      exact hne (List.length_eq_zero.mp h0)
    constructor
    · unfold DFS_hypercube
      rw [if_pos hlen]
    · unfold grow_H_cluster
      rw [if_pos hlen]
  · intro he
    have hlen : ¬ s.sites.length ≠ 0 := by simp [he]
    constructor
    · unfold DFS_hypercube
      rw [if_neg hlen]
    · unfold grow_H_cluster
      rw [if_neg hlen]

/-- Witness for C8 at a concrete instance. -/
theorem C8_reentry_guard_witness :
    ((⟨[5], 8⟩ : stack).sites ≠ [] ∧
      DFS_hypercube 3 half (fun _ => 0) ⟨[5], 8⟩ (fun _ => false) 0 0 =
        (0, ⟨⟨[5], 8⟩, fun _ => false, 0, 0, true⟩)) ∧
    ((setup_stack 8).sites = [] ∧
      DFS_hypercube 3 half (fun _ => 0) (setup_stack 8) (fun _ => false) 0 0 =
        (let st := DFS_loop 3 half (fun _ => 0) (dfsFuel 3)
          ⟨(push (setup_stack 8) 0).1, fun _ => false, 0, 0, false⟩
         (if st.err then 0 else st.size, st))) := by
  refine ⟨⟨by decide, ?_⟩, ⟨rfl, ?_⟩⟩
  · exact ((C8_reentry_guard 3 half (fun _ => 0) ⟨[5], 8⟩ (fun _ => false)
      (fun _ => 0) (fun _ _ => 0) false 0 0 0 false).1 (by decide)).1
  · exact ((C8_reentry_guard 3 half (fun _ => 0) (setup_stack 8) (fun _ => false)
      (fun _ => 0) (fun _ _ => 0) false 0 0 0 false).2 rfl).1

/-! ### Step lemmas for `DFS_nbrs` and `DFS_loop` -/

theorem DFS_nbrs_nil (p : ℚ) (r : ℕ → ℚ) (u : ℕ) (st : DFSSt) :
    DFS_nbrs p r u [] st = st := rfl

theorem DFS_nbrs_visited (p : ℚ) (r : ℕ → ℚ) (u i : ℕ) (l : List ℕ) (st : DFSSt)
    (h : st.visited (u ^^^ 1 <<< i) = true) :
    DFS_nbrs p r u (i :: l) st = DFS_nbrs p r u l st := by
  simp [DFS_nbrs, h]

theorem DFS_nbrs_nodraw (p : ℚ) (r : ℕ → ℚ) (u i : ℕ) (l : List ℕ) (st : DFSSt)
    (h : st.visited (u ^^^ 1 <<< i) = false) (hd : ¬ r st.k < p) :
    DFS_nbrs p r u (i :: l) st = DFS_nbrs p r u l { st with k := st.k + 1 } := by
  simp [DFS_nbrs, h, hd]

theorem stack_ext (s1 s2 : stack) (h1 : s1.sites = s2.sites)
    (h2 : s1.length = s2.length) : s1 = s2 := by
  cases s1
  cases s2
  simp only at h1 h2
  rw [h1, h2]

theorem DFS_nbrs_push (p : ℚ) (r : ℕ → ℚ) (u i : ℕ) (l : List ℕ) (st : DFSSt)
    (h : st.visited (u ^^^ 1 <<< i) = false) (hd : r st.k < p)
    (hcap : st.s.sites.length < st.s.length) :
    DFS_nbrs p r u (i :: l) st =
      DFS_nbrs p r u l
        { st with s := ⟨(u ^^^ 1 <<< i) :: st.s.sites, st.s.length⟩, k := st.k + 1 } := by
  have hp := push_sites st.s (u ^^^ 1 <<< i) hcap
  have hl := push_length st.s (u ^^^ 1 <<< i)
  have hs1 : (push st.s (u ^^^ 1 <<< i)).1 =
      (⟨(u ^^^ 1 <<< i) :: st.s.sites, st.s.length⟩ : stack) :=
    stack_ext _ _ hp.1 hl
  simp only [DFS_nbrs, h, hd, if_true, if_false, Bool.false_eq_true]
  rw [if_neg (by simp [hp.2]), hs1]

theorem DFS_nbrs_overflow (p : ℚ) (r : ℕ → ℚ) (u i : ℕ) (l : List ℕ) (st : DFSSt)
    (h : st.visited (u ^^^ 1 <<< i) = false) (hd : r st.k < p)
    (hcap : st.s.length ≤ st.s.sites.length) :
    DFS_nbrs p r u (i :: l) st = { st with k := st.k + 1, err := true } := by
  simp only [DFS_nbrs, h, hd, if_true, if_false, Bool.false_eq_true]
  rw [if_pos (by simp [push, hcap])]

theorem DFS_loop_zero (N : ℕ) (p : ℚ) (r : ℕ → ℚ) (st : DFSSt) :
    DFS_loop N p r 0 st = st := rfl

theorem DFS_loop_err (N : ℕ) (p : ℚ) (r : ℕ → ℚ) (fuel : ℕ) (st : DFSSt)
    (h : st.err = true) : DFS_loop N p r fuel st = st := by
  cases fuel with
  | zero => rfl
  | succ n => simp [DFS_loop, h]

theorem DFS_loop_empty_stack (N : ℕ) (p : ℚ) (r : ℕ → ℚ) (fuel : ℕ) (st : DFSSt)
    (h : st.s.sites = []) : DFS_loop N p r fuel st = st := by
  cases fuel with
  | zero => rfl
  | succ n =>
    obtain ⟨⟨sites, len⟩, vis, sz, kk, e⟩ := st
    simp only at h
    subst h
    cases e <;> simp [DFS_loop]

theorem DFS_loop_discard (N : ℕ) (p : ℚ) (r : ℕ → ℚ) (fuel u : ℕ) (t : List ℕ)
    (st : DFSSt) (herr : st.err = false) (hs : st.s.sites = u :: t)
    (hv : st.visited u = true) :
    DFS_loop N p r (fuel + 1) st =
      DFS_loop N p r fuel { st with s := ⟨t, st.s.length⟩ } := by
  obtain ⟨⟨sites, len⟩, vis, sz, kk, e⟩ := st
  simp only at herr hs hv
  subst herr
  subst hs
  simp [DFS_loop, pop, hv]

theorem DFS_loop_fresh (N : ℕ) (p : ℚ) (r : ℕ → ℚ) (fuel u : ℕ) (t : List ℕ)
    (st : DFSSt) (herr : st.err = false) (hs : st.s.sites = u :: t)
    (hv : st.visited u = false) :
    DFS_loop N p r (fuel + 1) st =
      DFS_loop N p r fuel (DFS_nbrs p r u (List.range N)
        { st with s := ⟨t, st.s.length⟩, visited := updN st.visited u true,
                  size := st.size + 1 }) := by
  obtain ⟨⟨sites, len⟩, vis, sz, kk, e⟩ := st
  simp only at herr hs hv
  subst herr
  subst hs
  simp [DFS_loop, pop, hv]

/-! ### Component facts about `DFS_nbrs` and termination of `DFS_loop` -/

theorem DFS_nbrs_spec (p : ℚ) (r : ℕ → ℚ) (u : ℕ) :
    ∀ (l : List ℕ) (st : DFSSt),
      (DFS_nbrs p r u l st).visited = st.visited ∧
      (DFS_nbrs p r u l st).size = st.size ∧
      (DFS_nbrs p r u l st).s.length = st.s.length ∧
      ∃ news : List ℕ, (DFS_nbrs p r u l st).s.sites = news ++ st.s.sites ∧
        news.length ≤ l.length ∧ ∀ v ∈ news, ∃ i ∈ l, v = u ^^^ 1 <<< i := by
  intro l
  induction l with
  | nil =>
    intro st
    exact ⟨rfl, rfl, rfl, [], rfl, by simp, by simp⟩
  | cons i t ih =>
    intro st
    cases hv : st.visited (u ^^^ 1 <<< i) with
    | true =>
      rw [DFS_nbrs_visited p r u i t st hv]
      obtain ⟨h1, h2, h3, news, h4, h5, h6⟩ := ih st
      exact ⟨h1, h2, h3, news, h4, Nat.le_succ_of_le h5,
        fun v hv2 => by obtain ⟨j, hj, he⟩ := h6 v hv2; exact ⟨j, List.mem_cons_of_mem i hj, he⟩⟩
    | false =>
      by_cases hd : r st.k < p
      · by_cases hcap : st.s.sites.length < st.s.length
        · rw [DFS_nbrs_push p r u i t st hv hd hcap]
          obtain ⟨h1, h2, h3, news, h4, h5, h6⟩ :=
            ih { st with s := ⟨(u ^^^ 1 <<< i) :: st.s.sites, st.s.length⟩, k := st.k + 1 }
          refine ⟨h1, h2, h3, news ++ [u ^^^ 1 <<< i], ?_, ?_, ?_⟩
          · rw [h4]
            simp
          · simp only [List.length_append, List.length_cons, List.length_nil]
            omega
          · intro v hv2
            rcases List.mem_append.mp hv2 with hv3 | hv3
            · obtain ⟨j, hj, he⟩ := h6 v hv3
              exact ⟨j, List.mem_cons_of_mem i hj, he⟩
            · rcases List.mem_singleton.mp hv3 with rfl
              exact ⟨i, List.mem_cons_self i t, rfl⟩
        · rw [DFS_nbrs_overflow p r u i t st hv hd (by omega)]
          exact ⟨rfl, rfl, rfl, [], rfl, by simp, by simp⟩
      · rw [DFS_nbrs_nodraw p r u i t st hv hd]
        obtain ⟨h1, h2, h3, news, h4, h5, h6⟩ := ih { st with k := st.k + 1 }
        exact ⟨h1, h2, h3, news, h4, Nat.le_succ_of_le h5,
          fun v hv2 => by obtain ⟨j, hj, he⟩ := h6 v hv2; exact ⟨j, List.mem_cons_of_mem i hj, he⟩⟩

theorem DFS_nbrs_err_mono (p : ℚ) (r : ℕ → ℚ) (u : ℕ) :
    ∀ (l : List ℕ) (st : DFSSt), (DFS_nbrs p r u l st).err = st.err ∨
      (DFS_nbrs p r u l st).err = true := by
  intro l
  induction l with
  | nil => intro st; left; rfl
  | cons i t ih =>
    intro st
    cases hv : st.visited (u ^^^ 1 <<< i) with
    | true => rw [DFS_nbrs_visited p r u i t st hv]; exact ih st
    | false =>
      by_cases hd : r st.k < p
      · by_cases hcap : st.s.sites.length < st.s.length
        · rw [DFS_nbrs_push p r u i t st hv hd hcap]
          have h2 := ih { st with s := ⟨(u ^^^ 1 <<< i) :: st.s.sites, st.s.length⟩, k := st.k + 1 }
          rcases h2 with h1 | h1
          · left
            rw [h1]
          · right
            exact h1
        · rw [DFS_nbrs_overflow p r u i t st hv hd (by omega)]
          right
          rfl
      · rw [DFS_nbrs_nodraw p r u i t st hv hd]
        have h2 := ih { st with k := st.k + 1 }
        rcases h2 with h1 | h1
        · left
          rw [h1]
        · right
          exact h1

theorem DFS_loop_term (N : ℕ) (p : ℚ) (r : ℕ → ℚ) :
    ∀ (fuel : ℕ) (st : DFSSt), (∀ v ∈ st.s.sites, v < Nat.pow 2 N) →
      (N + 1) * (Nat.pow 2 N - countVisited (Nat.pow 2 N) st.visited) +
        st.s.sites.length + 1 ≤ fuel →
      ((DFS_loop N p r fuel st).err = true ∨ (DFS_loop N p r fuel st).s.sites = []) ∧
      (∀ v ∈ (DFS_loop N p r fuel st).s.sites, v < Nat.pow 2 N) := by
  intro fuel
  induction fuel with
  | zero => intro st _ hm; omega
  | succ n ih =>
    intro st hlt hm
    by_cases herr : st.err = true
    · rw [DFS_loop_err N p r (n + 1) st herr]
      exact ⟨Or.inl herr, hlt⟩
    · have herr2 : st.err = false := by
        cases he : st.err
        · rfl
        · exact absurd he herr
      cases hs : st.s.sites with
      | nil =>
        rw [DFS_loop_empty_stack N p r (n + 1) st hs]
        exact ⟨Or.inr hs, hlt⟩
      | cons u t =>
        have hu : u < Nat.pow 2 N := hlt u (by rw [hs]; exact List.mem_cons_self u t)
        have hst : st.s.sites.length = t.length + 1 := by rw [hs]; rfl
        by_cases hv : st.visited u = true
        · rw [DFS_loop_discard N p r n u t st herr2 hs hv]
          apply ih
          · intro v hv2
            exact hlt v (by rw [hs]; exact List.mem_cons_of_mem u hv2)
          · simp only
            omega
        · have hv2 : st.visited u = false := by
            cases he : st.visited u
            · rfl
            · exact absurd he hv
          rw [DFS_loop_fresh N p r n u t st herr2 hs hv2]
          obtain ⟨e1, e2, e3, news, e4, e5, e6⟩ :=
            DFS_nbrs_spec p r u (List.range N)
              { st with s := ⟨t, st.s.length⟩, visited := updN st.visited u true,
                        size := st.size + 1 }
          have hcount : countVisited (Nat.pow 2 N) (updN st.visited u true) =
              countVisited (Nat.pow 2 N) st.visited + 1 :=
            countVisited_updN_true (Nat.pow 2 N) u st.visited hu hv2
          have hcd : countVisited (Nat.pow 2 N) st.visited < Nat.pow 2 N :=
            countVisited_lt (Nat.pow 2 N) u st.visited hu hv2
          apply ih
          · intro v hv3
            rw [e4] at hv3
            rcases List.mem_append.mp hv3 with h5 | h5
            · obtain ⟨j, hj, he⟩ := e6 v h5
              exact he ▸ shiftXor_lt u j N hu (List.mem_range.mp hj)
            · exact hlt v (by rw [hs]; exact List.mem_cons_of_mem u h5)
          · have hlen : (DFS_nbrs p r u (List.range N)
                { st with s := ⟨t, st.s.length⟩, visited := updN st.visited u true,
                          size := st.size + 1 }).s.sites.length ≤ t.length + N := by
              rw [e4]
              rw [List.length_append]
              have := List.length_range N
              simp only
              omega
            rw [e1]
            simp only
            rw [hcount]
            have hkey : (N + 1) * (Nat.pow 2 N - countVisited (Nat.pow 2 N) st.visited) =
                (N + 1) * (Nat.pow 2 N - (countVisited (Nat.pow 2 N) st.visited + 1)) +
                  (N + 1) := by
              have h9 : Nat.pow 2 N - countVisited (Nat.pow 2 N) st.visited =
                  (Nat.pow 2 N - (countVisited (Nat.pow 2 N) st.visited + 1)) + 1 := by
                omega
              rw [h9, Nat.mul_add, Nat.mul_one]
            omega

/-! ### The run depends on the draws only through the comparisons with `p` -/

theorem DFS_nbrs_congr (p p2 : ℚ) (r r2 : ℕ → ℚ) (h : ∀ k, r k < p ↔ r2 k < p2) (u : ℕ) :
    ∀ (l : List ℕ) (st : DFSSt), DFS_nbrs p r u l st = DFS_nbrs p2 r2 u l st := by
  intro l
  induction l with
  | nil => intro st; rfl
  | cons i t ih =>
    intro st
    cases hv : st.visited (u ^^^ 1 <<< i) with
    | true => rw [DFS_nbrs_visited p r u i t st hv, DFS_nbrs_visited p2 r2 u i t st hv, ih]
    | false =>
      by_cases hd : r st.k < p
      · have hd2 : r2 st.k < p2 := (h st.k).mp hd
        by_cases hcap : st.s.sites.length < st.s.length
        · rw [DFS_nbrs_push p r u i t st hv hd hcap, DFS_nbrs_push p2 r2 u i t st hv hd2 hcap,
            ih]
        · rw [DFS_nbrs_overflow p r u i t st hv hd (by omega),
            DFS_nbrs_overflow p2 r2 u i t st hv hd2 (by omega)]
      · have hd2 : ¬ r2 st.k < p2 := fun hc => hd ((h st.k).mpr hc)
        rw [DFS_nbrs_nodraw p r u i t st hv hd, DFS_nbrs_nodraw p2 r2 u i t st hv hd2, ih]

theorem DFS_loop_congr (N : ℕ) (p p2 : ℚ) (r r2 : ℕ → ℚ) (h : ∀ k, r k < p ↔ r2 k < p2) :
    ∀ (fuel : ℕ) (st : DFSSt), DFS_loop N p r fuel st = DFS_loop N p2 r2 fuel st := by
  intro fuel
  induction fuel with
  | zero => intro st; rfl
  | succ n ih =>
    intro st
    by_cases herr : st.err = true
    · rw [DFS_loop_err N p r (n + 1) st herr, DFS_loop_err N p2 r2 (n + 1) st herr]
    · have herr2 : st.err = false := by
        cases he : st.err
        · rfl
        · exact absurd he herr
      cases hs : st.s.sites with
      | nil => rw [DFS_loop_empty_stack N p r (n + 1) st hs,
          DFS_loop_empty_stack N p2 r2 (n + 1) st hs]
      | cons u t =>
        by_cases hv : st.visited u = true
        · rw [DFS_loop_discard N p r n u t st herr2 hs hv,
            DFS_loop_discard N p2 r2 n u t st herr2 hs hv, ih]
        · have hv2 : st.visited u = false := by
            cases he : st.visited u
            · rfl
            · exact absurd he hv
          rw [DFS_loop_fresh N p r n u t st herr2 hs hv2,
            DFS_loop_fresh N p2 r2 n u t st herr2 hs hv2,
            DFS_nbrs_congr p p2 r r2 h u, ih]

theorem DFS_hypercube_congr (N : ℕ) (p p2 : ℚ) (r r2 : ℕ → ℚ)
    (h : ∀ k, r k < p ↔ r2 k < p2) (s : stack) (visited : ℕ → Bool) (start k0 : ℕ) :
    DFS_hypercube N p r s visited start k0 = DFS_hypercube N p2 r2 s visited start k0 := by
  unfold DFS_hypercube
  by_cases hlen : s.sites.length ≠ 0
  · rw [if_pos hlen, if_pos hlen]
  · rw [if_neg hlen, if_neg hlen]
    simp only
    rw [DFS_loop_congr N p p2 r r2 h]

/-! ### Claim C7: `p = 0` gives singleton clusters -/

theorem DFS_nbrs_nopush (p : ℚ) (r : ℕ → ℚ) (hnone : ∀ k, ¬ r k < p) (u : ℕ) :
    ∀ (l : List ℕ) (st : DFSSt),
      (DFS_nbrs p r u l st).s = st.s ∧ (DFS_nbrs p r u l st).visited = st.visited ∧
      (DFS_nbrs p r u l st).size = st.size ∧ (DFS_nbrs p r u l st).err = st.err := by
  intro l
  induction l with
  | nil => intro st; exact ⟨rfl, rfl, rfl, rfl⟩
  | cons i t ih =>
    intro st
    cases hv : st.visited (u ^^^ 1 <<< i) with
    | true =>
      rw [DFS_nbrs_visited p r u i t st hv]
      exact ih st
    | false =>
      rw [DFS_nbrs_nodraw p r u i t st hv (hnone st.k)]
      exact ih { st with k := st.k + 1 }

/-- Claim C7: for `p = 0` the DFS traversal from any seed of any hypercube
reports cluster size exactly 1 and no error, for every valid draw stream (a
uniform variate in `[0,1)` is never below 0, so no neighbour is ever pushed). -/
theorem C7_p_zero_singleton (N : ℕ) (r : ℕ → ℚ) (start_state k0 : ℕ)
    (hr : RngValid r) :
    (DFS_hypercube N 0 r (setup_stack (intpower 2 N)) (fun _ => false)
        start_state k0).1 = 1 ∧
    (DFS_hypercube N 0 r (setup_stack (intpower 2 N)) (fun _ => false)
        start_state k0).2.err = false := by
  have hnone : ∀ k, ¬ r k < 0 := fun k => not_lt.mpr (hr k).1
  have hNH : 0 < intpower 2 N := Nat.pos_pow_of_pos N (by norm_num)
  have hcap : (setup_stack (intpower 2 N)).sites.length <
      (setup_stack (intpower 2 N)).length := by
    simpa [setup_stack] using hNH
  have hpush : (push (setup_stack (intpower 2 N)) start_state).1 =
      (⟨[start_state], intpower 2 N⟩ : stack) :=
    stack_ext _ _ (push_sites _ start_state hcap).1 (push_length _ start_state)
  have hspec := DFS_nbrs_nopush 0 r hnone start_state (List.range N)
    ⟨⟨[], intpower 2 N⟩, updN (fun _ => false) start_state true, 1, k0, false⟩
  have hloop : DFS_loop N 0 r (dfsFuel N)
      ⟨(push (setup_stack (intpower 2 N)) start_state).1, fun _ => false, 0, k0, false⟩ =
      DFS_nbrs 0 r start_state (List.range N)
        ⟨⟨[], intpower 2 N⟩, updN (fun _ => false) start_state true, 1, k0, false⟩ := by
    rw [hpush]
    rw [show dfsFuel N = ((N + 1) * Nat.pow 2 N + 1) + 1 from rfl]
    rw [DFS_loop_fresh N 0 r ((N + 1) * Nat.pow 2 N + 1) start_state []
      ⟨⟨[start_state], intpower 2 N⟩, fun _ => false, 0, k0, false⟩ rfl rfl rfl]
    exact DFS_loop_empty_stack N 0 r _ _ (congrArg stack.sites hspec.1)
  have herr : (DFS_nbrs 0 r start_state (List.range N)
      ⟨⟨[], intpower 2 N⟩, updN (fun _ => false) start_state true, 1, k0, false⟩).err =
      false := hspec.2.2.2
  have hsize : (DFS_nbrs 0 r start_state (List.range N)
      ⟨⟨[], intpower 2 N⟩, updN (fun _ => false) start_state true, 1, k0, false⟩).size =
      1 := hspec.2.2.1
  unfold DFS_hypercube
  rw [if_neg (by simp [setup_stack])]
  simp only [hloop, herr, hsize]
  exact ⟨rfl, trivial⟩

/-- Witness for C7 at `N = 2`, seed 3. -/
theorem C7_p_zero_singleton_witness :
    RngValid (fun _ => half) ∧
    (DFS_hypercube 2 0 (fun _ => half) (setup_stack (intpower 2 2)) (fun _ => false)
        3 5).1 = 1 := by
  have hr : RngValid (fun _ => half) := by
    intro k
    refine ⟨?_, ?_⟩
    · show (0 : ℚ) ≤ half
      decide
    · show half < 1
      decide
  exact ⟨hr, (C7_p_zero_singleton 2 (fun _ => half) 3 5 hr).1⟩

/-! ### The full-graph adjacency matrix `hypercube_H` -/

/-- Hypercube adjacency: two sites are adjacent when they differ in exactly
one of the `N` low bits. -/
def Adj (N a b : ℕ) : Prop := ∃ i, i < N ∧ b = a ^^^ 1 <<< i

theorem xor_left_cancel (a x y : ℕ) (h : a ^^^ x = a ^^^ y) : x = y := by
  have h2 := congrArg (fun z => a ^^^ z) h
  simpa [← Nat.xor_assoc, Nat.xor_self, Nat.zero_xor] using h2

theorem xor_xor_self (a m : ℕ) : (a ^^^ m) ^^^ m = a := by
  rw [Nat.xor_assoc, Nat.xor_self, Nat.xor_zero]

theorem Adj_symm (N a b : ℕ) (h : Adj N a b) : Adj N b a := by
  obtain ⟨i, hi, he⟩ := h
  exact ⟨i, hi, by rw [he, xor_xor_self]⟩

instance Adj_decidable (N a b : ℕ) : Decidable (Adj N a b) := by
  unfold Adj
  infer_instance

theorem setM_read (M : ℕ → ℕ → ℕ) (u v x a b : ℕ) :
    setM M u v x a b = if a = u ∧ b = v then x else M a b := by
  by_cases h : a = u ∧ b = v
  · obtain ⟨rfl, rfl⟩ := h
    rw [if_pos ⟨rfl, rfl⟩, setM_same]
  · rw [if_neg h, setM_other _ _ _ _ _ _ h]

theorem H_row_sound (N : ℕ) (p : ℚ) (r : ℕ → ℚ) (row : ℕ) :
    ∀ (l : List ℕ), (∀ i ∈ l, i < N) → ∀ (H : ℕ → ℕ → ℕ) (k : ℕ),
      (∀ a b, H a b ≠ 0 → Adj N a b) →
      ∀ a b, (H_row p r row l (H, k)).1 a b ≠ 0 → Adj N a b := by
  intro l
  induction l with
  | nil => intro _ H k hH; exact hH
  | cons i t ih =>
    intro hl H k hH a b
    simp only [H_row]
    apply ih (fun j hj => hl j (List.mem_cons_of_mem i hj))
    intro a2 b2 h2
    rw [setM_read, setM_read] at h2
    by_cases hc1 : a2 = row ^^^ 1 <<< i ∧ b2 = row
    · obtain ⟨he1, he2⟩ := hc1
      rw [he1, he2]
      exact Adj_symm N row _ ⟨i, hl i (List.mem_cons_self i t), rfl⟩
    · rw [if_neg hc1] at h2
      by_cases hc2 : a2 = row ∧ b2 = row ^^^ 1 <<< i
      · obtain ⟨he1, he2⟩ := hc2
        rw [he1, he2]
        exact ⟨i, hl i (List.mem_cons_self i t), rfl⟩
      · rw [if_neg hc2] at h2
        exact hH a2 b2 h2

theorem H_row_ones (N : ℕ) (p : ℚ) (r : ℕ → ℚ) (row : ℕ) (hone : ∀ k, r k < p) :
    ∀ (l : List ℕ) (H : ℕ → ℕ → ℕ) (k : ℕ),
      (∀ a b, H a b = 1 → (H_row p r row l (H, k)).1 a b = 1) ∧
      (∀ i ∈ l, (H_row p r row l (H, k)).1 row (row ^^^ 1 <<< i) = 1 ∧
        (H_row p r row l (H, k)).1 (row ^^^ 1 <<< i) row = 1) := by
  intro l
  induction l with
  | nil => intro H k; exact ⟨fun a b h => h, fun i hi => absurd hi (List.not_mem_nil i)⟩
  | cons i t ih =>
    intro H k
    have hx : (if r k < p then 1 else 0) = 1 := if_pos (hone k)
    have hwr : ∀ a b, setM (setM H row (row ^^^ 1 <<< i) (if r k < p then 1 else 0))
        (row ^^^ 1 <<< i) row (if r k < p then 1 else 0) a b = 1 ∨
        setM (setM H row (row ^^^ 1 <<< i) (if r k < p then 1 else 0))
        (row ^^^ 1 <<< i) row (if r k < p then 1 else 0) a b = H a b := by
      intro a b
      rw [setM_read, setM_read]
      by_cases h1 : a = row ^^^ 1 <<< i ∧ b = row
      · rw [if_pos h1, hx]
        exact Or.inl rfl
      · rw [if_neg h1]
        by_cases h2 : a = row ∧ b = row ^^^ 1 <<< i
        · rw [if_pos h2, hx]
          exact Or.inl rfl
        · rw [if_neg h2]
          exact Or.inr rfl
    constructor
    · intro a b hab
      simp only [H_row]
      apply (ih _ _).1
      rcases hwr a b with h | h
      · exact h
      · rw [h]
        exact hab
    · intro j hj
      rcases List.mem_cons.mp hj with rfl | hjt
      · constructor
        · simp only [H_row]
          apply (ih _ _).1
          rw [setM_read]
          have hne : ¬(row = row ^^^ 1 <<< j ∧ row ^^^ 1 <<< j = row) := by
            intro hc
            exact mem_shiftXor row j hc.2
          rw [if_neg hne, setM_read, if_pos ⟨rfl, rfl⟩, hx]
        · simp only [H_row]
          apply (ih _ _).1
          rw [setM_read, if_pos ⟨rfl, rfl⟩, hx]
      · constructor
        · simp only [H_row]
          exact ((ih _ _).2 j hjt).1
        · simp only [H_row]
          exact ((ih _ _).2 j hjt).2

theorem H_rows_sound (N : ℕ) (p : ℚ) (r : ℕ → ℚ) :
    ∀ (L : List ℕ) (Hk : (ℕ → ℕ → ℕ) × ℕ),
      (∀ a b, Hk.1 a b ≠ 0 → Adj N a b) →
      ∀ a b, (H_rows p r N L Hk).1 a b ≠ 0 → Adj N a b := by
  intro L
  induction L with
  | nil => intro Hk hH; exact hH
  | cons w t ih =>
    intro Hk hH
    simp only [H_rows]
    apply ih
    cases Hk with
    | mk H k =>
      exact H_row_sound N p r w (List.range N) (fun i hi => List.mem_range.mp hi) H k hH

theorem H_rows_ones (N : ℕ) (p : ℚ) (r : ℕ → ℚ) (hone : ∀ k, r k < p) :
    ∀ (L : List ℕ) (Hk : (ℕ → ℕ → ℕ) × ℕ),
      (∀ a b, Hk.1 a b = 1 → (H_rows p r N L Hk).1 a b = 1) ∧
      (∀ row ∈ L, ∀ i < N, (H_rows p r N L Hk).1 row (row ^^^ 1 <<< i) = 1 ∧
        (H_rows p r N L Hk).1 (row ^^^ 1 <<< i) row = 1) := by
  intro L
  induction L with
  | nil =>
    intro Hk
    exact ⟨fun a b h => h, fun row hr => absurd hr (List.not_mem_nil row)⟩
  | cons w t ih =>
    intro Hk
    cases Hk with
    | mk H k =>
      constructor
      · intro a b hab
        simp only [H_rows]
        exact (ih _).1 a b ((H_row_ones N p r w hone (List.range N) H k).1 a b hab)
      · intro row hrow i hi
        rcases List.mem_cons.mp hrow with rfl | hrt
        · have hc := (H_row_ones N p r row hone (List.range N) H k).2 i
            (List.mem_range.mpr hi)
          simp only [H_rows]
          exact ⟨(ih _).1 _ _ hc.1, (ih _).1 _ _ hc.2⟩
        · simp only [H_rows]
          exact (ih _).2 row hrt i hi

theorem hypercube_H_p_one (N : ℕ) (r : ℕ → ℚ) (hr : RngValid r) (a b : ℕ)
    (ha : a < intpower 2 N) :
    (Adj N a b → hypercube_H N 1 r a b = 1) ∧
    (¬ Adj N a b → hypercube_H N 1 r a b = 0) := by
  have hone : ∀ k, r k < 1 := fun k => (hr k).2
  constructor
  · intro hadj
    obtain ⟨i, hi, rfl⟩ := hadj
    exact ((H_rows_ones N 1 r hone (List.range (intpower 2 N)) (fun _ _ => 0, 0)).2 a
      (List.mem_range.mpr ha) i hi).1
  · intro hnadj
    by_contra hne
    exact hnadj (H_rows_sound N 1 r (List.range (intpower 2 N)) (fun _ _ => 0, 0)
      (fun a2 b2 h2 => absurd rfl h2) a b hne)

theorem hypercube_H_p_one_row_count (N : ℕ) (r : ℕ → ℚ) (hr : RngValid r) (a : ℕ)
    (ha : a < intpower 2 N) :
    (List.range (intpower 2 N)).countP (fun b => hypercube_H N 1 r a b == 1) = N := by
  have h1 : (List.range (intpower 2 N)).countP (fun b => hypercube_H N 1 r a b == 1) =
      (List.range (intpower 2 N)).countP (fun b => decide (Adj N a b)) := by
    apply List.countP_congr
    intro b hb
    by_cases hadj : Adj N a b
    · rw [(hypercube_H_p_one N r hr a b ha).1 hadj]
      simp [hadj]
    · rw [(hypercube_H_p_one N r hr a b ha).2 hadj]
      simp [hadj]
  rw [h1, List.countP_eq_length_filter]
  have hinj : Function.Injective (fun i => a ^^^ 1 <<< i) := by
    intro i j hij
    simp only at hij
    have h2 : (1 : ℕ) <<< i = 1 <<< j := xor_left_cancel a _ _ hij
    rw [Nat.shiftLeft_eq, Nat.shiftLeft_eq] at h2
    simp only [one_mul] at h2
    exact Nat.pow_right_injective (by norm_num) h2
  have hnd1 : ((List.range (intpower 2 N)).filter (fun b => decide (Adj N a b))).Nodup :=
    (List.nodup_range _).filter _
  have hnd2 : ((List.range N).map (fun i => a ^^^ 1 <<< i)).Nodup :=
    (List.nodup_range N).map hinj
  have hsub1 : (List.range (intpower 2 N)).filter (fun b => decide (Adj N a b)) ⊆
      (List.range N).map (fun i => a ^^^ 1 <<< i) := by
    intro x hx
    obtain ⟨hx1, hx2⟩ := List.mem_filter.mp hx
    obtain ⟨i, hi, rfl⟩ := of_decide_eq_true hx2
    exact List.mem_map.mpr ⟨i, List.mem_range.mpr hi, rfl⟩
  have hsub2 : ((List.range N).map (fun i => a ^^^ 1 <<< i)) ⊆
      (List.range (intpower 2 N)).filter (fun b => decide (Adj N a b)) := by
    intro x hx
    obtain ⟨i, hi, rfl⟩ := List.mem_map.mp hx
    apply List.mem_filter.mpr
    refine ⟨List.mem_range.mpr (shiftXor_lt a i N ha (List.mem_range.mp hi)), ?_⟩
    exact decide_eq_true ⟨i, List.mem_range.mp hi, rfl⟩
  have hle1 := (List.subperm_of_subset hnd1 hsub1).length_le
  have hle2 := (List.subperm_of_subset hnd2 hsub2).length_le
  have hlen : ((List.range N).map (fun i => a ^^^ 1 <<< i)).length = N := by
    rw [List.length_map, List.length_range]
  omega

/-! ### Claim C6: `p = 1` -/

/-- Claim C6 (amended): for `p = 1` and any valid draw stream, `hypercube_H`
is the exact hypercube adjacency matrix — entry 1 exactly on single-bit-flip
pairs, so every row among the `2^N` sites holds exactly `N` ones — for every
`N`; and the single-cluster DFS visits all `2^N` sites from any seed for
`N ≤ 3` (for `N ≥ 4` the capacity-`2^N` stack overflows first; see the
counterexample). -/
theorem C6_p_one_full_adjacency (N : ℕ) (r : ℕ → ℚ) (hr : RngValid r) :
    (∀ a b, a < intpower 2 N →
      (Adj N a b → hypercube_H N 1 r a b = 1) ∧
      (¬ Adj N a b → hypercube_H N 1 r a b = 0)) ∧
    (∀ a, a < intpower 2 N →
      (List.range (intpower 2 N)).countP (fun b => hypercube_H N 1 r a b == 1) = N) ∧
    (∀ N2 seed, N2 ≤ 3 → seed < intpower 2 N2 →
      (DFS_hypercube N2 1 r (setup_stack (intpower 2 N2)) (fun _ => false)
          seed 0).1 = intpower 2 N2) := by
  refine ⟨fun a b ha => hypercube_H_p_one N r hr a b ha,
    fun a ha => hypercube_H_p_one_row_count N r hr a ha, ?_⟩
  intro N2 seed hN2 hseed
  have hiff : ∀ k, r k < 1 ↔ (fun _ => (0 : ℚ)) k < half := by
    intro k
    constructor
    · intro _
      show (0 : ℚ) < half
      decide
    · intro _
      exact (hr k).2
  rw [DFS_hypercube_congr N2 1 half r (fun _ => (0 : ℚ)) hiff]
  revert hseed
  revert seed
  interval_cases N2 <;> decide

/-- Witness for C6 at `N = 3` with the all-pass draw stream. -/
theorem C6_p_one_full_adjacency_witness :
    RngValid (fun _ => 0) ∧
    hypercube_H 3 1 (fun _ => 0) 1 3 = 1 ∧
    hypercube_H 3 1 (fun _ => 0) 1 6 = 0 ∧
    (List.range 8).countP (fun b => hypercube_H 3 1 (fun _ => 0) 5 b == 1) = 3 ∧
    (DFS_hypercube 3 1 (fun _ => 0) (setup_stack 8) (fun _ => false) 5 0).1 = 8 := by
  have hr : RngValid (fun _ => 0) := by
    intro k
    refine ⟨le_refl 0, ?_⟩
    show (0 : ℚ) < 1
    norm_num
  have h := C6_p_one_full_adjacency 3 (fun _ => 0) hr
  refine ⟨hr, ?_, ?_, h.2.1 5 (by decide), h.2.2 3 5 (by decide) (by decide)⟩
  · exact (h.1 1 3 (by decide)).1 ⟨1, by decide, by decide⟩
  · refine (h.1 1 6 (by decide)).2 ?_
    intro hadj
    obtain ⟨i, hi, he⟩ := hadj
    interval_cases i <;> simp_all
  
/-- Counterexample to C6 as stated: at `N = 4`, `p = 1`, with a valid draw
stream the DFS does not visit all 16 sites — the capacity-16 stack overflows
and the call reports size 0 with the error flag set. -/
theorem C6_p_one_counterexample :
    RngValid (fun _ => 0) ∧
    (DFS_hypercube 4 1 (fun _ => 0) (setup_stack (intpower 2 4)) (fun _ => false)
        0 0).1 = 0 ∧
    (DFS_hypercube 4 1 (fun _ => 0) (setup_stack (intpower 2 4)) (fun _ => false)
        0 0).2.err = true := by
  refine ⟨?_, by decide, by decide⟩
  intro k
  refine ⟨le_refl 0, ?_⟩
  show (0 : ℚ) < 1
  norm_num

/-! ### Step lemmas for `grow_nbrs` and `grow_loop` -/

theorem grow_nbrs_nil (p : ℚ) (r : ℕ → ℚ) (u : ℕ) (st : GrowSt) :
    grow_nbrs p r u [] st = st := rfl

theorem grow_nbrs_visited (p : ℚ) (r : ℕ → ℚ) (u i : ℕ) (l : List ℕ) (st : GrowSt)
    (h : st.visited (u ^^^ 1 <<< i) = true) :
    grow_nbrs p r u (i :: l) st = grow_nbrs p r u l st := by
  simp [grow_nbrs, h]

theorem grow_nbrs_nodraw (p : ℚ) (r : ℕ → ℚ) (u i : ℕ) (l : List ℕ) (st : GrowSt)
    (h : st.visited (u ^^^ 1 <<< i) = false) (hd : ¬ r st.k < p) :
    grow_nbrs p r u (i :: l) st = grow_nbrs p r u l
      { st with k := st.k + 1,
                H := setM (setM st.H u (u ^^^ 1 <<< i) 0) (u ^^^ 1 <<< i) u 0 } := by
  simp [grow_nbrs, h, hd]

theorem grow_nbrs_push (p : ℚ) (r : ℕ → ℚ) (u i : ℕ) (l : List ℕ) (st : GrowSt)
    (h : st.visited (u ^^^ 1 <<< i) = false) (hd : r st.k < p)
    (hcap : st.s.sites.length < st.s.length) :
    grow_nbrs p r u (i :: l) st = grow_nbrs p r u l
      { st with s := ⟨(u ^^^ 1 <<< i) :: st.s.sites, st.s.length⟩, k := st.k + 1,
                H := setM (setM st.H u (u ^^^ 1 <<< i) 1) (u ^^^ 1 <<< i) u 1 } := by
  have hp := push_sites st.s (u ^^^ 1 <<< i) hcap
  have hs1 : (push st.s (u ^^^ 1 <<< i)).1 =
      (⟨(u ^^^ 1 <<< i) :: st.s.sites, st.s.length⟩ : stack) :=
    stack_ext _ _ hp.1 (push_length _ _)
  simp only [grow_nbrs, h, hd, if_true, if_false, Bool.false_eq_true]
  rw [if_neg (by simp [hp.2]), hs1]

theorem grow_nbrs_overflow (p : ℚ) (r : ℕ → ℚ) (u i : ℕ) (l : List ℕ) (st : GrowSt)
    (h : st.visited (u ^^^ 1 <<< i) = false) (hd : r st.k < p)
    (hcap : st.s.length ≤ st.s.sites.length) :
    grow_nbrs p r u (i :: l) st = { st with k := st.k + 1, aborted := true } := by
  simp only [grow_nbrs, h, hd, if_true, if_false, Bool.false_eq_true]
  rw [if_pos (by simp [push, hcap])]

theorem grow_loop_zero (N : ℕ) (p : ℚ) (r : ℕ → ℚ) (lab : Bool) (c : ℕ) (st : GrowSt) :
    grow_loop N p r lab c 0 st = st := rfl

theorem grow_loop_aborted (N : ℕ) (p : ℚ) (r : ℕ → ℚ) (lab : Bool) (c fuel : ℕ)
    (st : GrowSt) (h : st.aborted = true) : grow_loop N p r lab c fuel st = st := by
  cases fuel with
  | zero => rfl
  | succ n => simp [grow_loop, h]

theorem grow_loop_empty_stack (N : ℕ) (p : ℚ) (r : ℕ → ℚ) (lab : Bool) (c fuel : ℕ)
    (st : GrowSt) (h : st.s.sites = []) : grow_loop N p r lab c fuel st = st := by
  cases fuel with
  | zero => rfl
  | succ n =>
    obtain ⟨⟨sites, len⟩, vis, labs, H, sz, kk, ef, ab⟩ := st
    simp only at h
    subst h
    cases ab <;> simp [grow_loop]

theorem grow_loop_discard (N : ℕ) (p : ℚ) (r : ℕ → ℚ) (lab : Bool) (c fuel u : ℕ)
    (t : List ℕ) (st : GrowSt) (hab : st.aborted = false) (hs : st.s.sites = u :: t)
    (hv : st.visited u = true) :
    grow_loop N p r lab c (fuel + 1) st =
      grow_loop N p r lab c fuel { st with s := ⟨t, st.s.length⟩ } := by
  obtain ⟨⟨sites, len⟩, vis, labs, H, sz, kk, ef, ab⟩ := st
  simp only at hab hs hv
  subst hab
  subst hs
  simp [grow_loop, pop, hv]

theorem grow_loop_fresh (N : ℕ) (p : ℚ) (r : ℕ → ℚ) (lab : Bool) (c fuel u : ℕ)
    (t : List ℕ) (st : GrowSt) (hab : st.aborted = false) (hs : st.s.sites = u :: t)
    (hv : st.visited u = false) :
    grow_loop N p r lab c (fuel + 1) st =
      grow_loop N p r lab c fuel (grow_nbrs p r u (List.range N)
        { st with s := ⟨t, st.s.length⟩, visited := updN st.visited u true,
                  labels := if lab then updN st.labels u c else st.labels,
                  size := st.size + 1 }) := by
  obtain ⟨⟨sites, len⟩, vis, labs, H, sz, kk, ef, ab⟩ := st
  simp only at hab hs hv
  subst hab
  subst hs
  simp [grow_loop, pop, hv]

theorem grow_nbrs_spec (p : ℚ) (r : ℕ → ℚ) (u : ℕ) :
    ∀ (l : List ℕ) (st : GrowSt),
      (grow_nbrs p r u l st).visited = st.visited ∧
      (grow_nbrs p r u l st).labels = st.labels ∧
      (grow_nbrs p r u l st).size = st.size ∧
      (grow_nbrs p r u l st).error_flag = st.error_flag ∧
      (grow_nbrs p r u l st).s.length = st.s.length ∧
      ∃ news : List ℕ, (grow_nbrs p r u l st).s.sites = news ++ st.s.sites ∧
        news.length ≤ l.length ∧ ∀ v ∈ news, ∃ i ∈ l, v = u ^^^ 1 <<< i := by
  intro l
  induction l with
  | nil =>
    intro st
    exact ⟨rfl, rfl, rfl, rfl, rfl, [], rfl, by simp, by simp⟩
  | cons i t ih =>
    intro st
    cases hv : st.visited (u ^^^ 1 <<< i) with
    | true =>
      rw [grow_nbrs_visited p r u i t st hv]
      obtain ⟨h1, h2, h3, h4, h5, news, h6, h7, h8⟩ := ih st
      exact ⟨h1, h2, h3, h4, h5, news, h6, Nat.le_succ_of_le h7,
        fun v hv2 => by obtain ⟨j, hj, he⟩ := h8 v hv2; exact ⟨j, List.mem_cons_of_mem i hj, he⟩⟩
    | false =>
      by_cases hd : r st.k < p
      · by_cases hcap : st.s.sites.length < st.s.length
        · rw [grow_nbrs_push p r u i t st hv hd hcap]
          have h9 := ih { st with s := ⟨(u ^^^ 1 <<< i) :: st.s.sites, st.s.length⟩, k := st.k + 1, H := setM (setM st.H u (u ^^^ 1 <<< i) 1) (u ^^^ 1 <<< i) u 1 }
          obtain ⟨h1, h2, h3, h4, h5, news, h6, h7, h8⟩ := h9
          refine ⟨h1, h2, h3, h4, h5, news ++ [u ^^^ 1 <<< i], ?_, ?_, ?_⟩
          · rw [h6]
            simp
          · simp only [List.length_append, List.length_cons, List.length_nil]
            omega
          · intro v hv2
            rcases List.mem_append.mp hv2 with hv3 | hv3
            · obtain ⟨j, hj, he⟩ := h8 v hv3
              exact ⟨j, List.mem_cons_of_mem i hj, he⟩
            · rcases List.mem_singleton.mp hv3 with rfl
              exact ⟨i, List.mem_cons_self i t, rfl⟩
        · rw [grow_nbrs_overflow p r u i t st hv hd (by omega)]
          exact ⟨rfl, rfl, rfl, rfl, rfl, [], rfl, by simp, by simp⟩
      · rw [grow_nbrs_nodraw p r u i t st hv hd]
        have h9 := ih { st with k := st.k + 1, H := setM (setM st.H u (u ^^^ 1 <<< i) 0) (u ^^^ 1 <<< i) u 0 }
        obtain ⟨h1, h2, h3, h4, h5, news, h6, h7, h8⟩ := h9
        exact ⟨h1, h2, h3, h4, h5, news, h6, Nat.le_succ_of_le h7,
          fun v hv2 => by obtain ⟨j, hj, he⟩ := h8 v hv2; exact ⟨j, List.mem_cons_of_mem i hj, he⟩⟩

theorem grow_loop_term (N : ℕ) (p : ℚ) (r : ℕ → ℚ) (lab : Bool) (c : ℕ) :
    ∀ (fuel : ℕ) (st : GrowSt), (∀ v ∈ st.s.sites, v < Nat.pow 2 N) →
      (N + 1) * (Nat.pow 2 N - countVisited (Nat.pow 2 N) st.visited) +
        st.s.sites.length + 1 ≤ fuel →
      ((grow_loop N p r lab c fuel st).aborted = true ∨
        (grow_loop N p r lab c fuel st).s.sites = []) := by
  intro fuel
  induction fuel with
  | zero => intro st _ hm; omega
  | succ n ih =>
    intro st hlt hm
    by_cases hab : st.aborted = true
    · rw [grow_loop_aborted N p r lab c (n + 1) st hab]
      exact Or.inl hab
    · have hab2 : st.aborted = false := by
        cases he : st.aborted
        · rfl
        · exact absurd he hab
      cases hs : st.s.sites with
      | nil =>
        rw [grow_loop_empty_stack N p r lab c (n + 1) st hs]
        exact Or.inr hs
      | cons u t =>
        have hu : u < Nat.pow 2 N := hlt u (by rw [hs]; exact List.mem_cons_self u t)
        have hst : st.s.sites.length = t.length + 1 := by rw [hs]; rfl
        by_cases hv : st.visited u = true
        · rw [grow_loop_discard N p r lab c n u t st hab2 hs hv]
          apply ih
          · intro v hv2
            exact hlt v (by rw [hs]; exact List.mem_cons_of_mem u hv2)
          · simp only
            omega
        · have hv2 : st.visited u = false := by
            cases he : st.visited u
            · rfl
            · exact absurd he hv
          rw [grow_loop_fresh N p r lab c n u t st hab2 hs hv2]
          obtain ⟨e1, e2, e3, e4, e5, news, e6, e7, e8⟩ :=
            grow_nbrs_spec p r u (List.range N)
              { st with s := ⟨t, st.s.length⟩, visited := updN st.visited u true,
                        labels := if lab then updN st.labels u c else st.labels,
                        size := st.size + 1 }
          have hcount : countVisited (Nat.pow 2 N) (updN st.visited u true) =
              countVisited (Nat.pow 2 N) st.visited + 1 :=
            countVisited_updN_true (Nat.pow 2 N) u st.visited hu hv2
          have hcd : countVisited (Nat.pow 2 N) st.visited < Nat.pow 2 N :=
            countVisited_lt (Nat.pow 2 N) u st.visited hu hv2
          apply ih
          · intro v hv3
            rw [e6] at hv3
            rcases List.mem_append.mp hv3 with h5 | h5
            · obtain ⟨j, hj, he⟩ := e8 v h5
              exact he ▸ shiftXor_lt u j N hu (List.mem_range.mp hj)
            · exact hlt v (by rw [hs]; exact List.mem_cons_of_mem u h5)
          · have hcount2 : countVisited (Nat.pow 2 N) ((grow_nbrs p r u (List.range N)
                { st with s := ⟨t, st.s.length⟩, visited := updN st.visited u true,
                          labels := if lab then updN st.labels u c else st.labels,
                          size := st.size + 1 }).visited) =
                countVisited (Nat.pow 2 N) st.visited + 1 := by
              rw [e1]
              exact hcount
            have hq1 : (grow_nbrs p r u (List.range N)
                { st with s := ⟨t, st.s.length⟩, visited := updN st.visited u true,
                          labels := if lab then updN st.labels u c else st.labels,
                          size := st.size + 1 }).s.sites.length =
                news.length + t.length := by
              rw [e6, List.length_append]
            have e9 : news.length ≤ N := by
              have := List.length_range N
              omega
            have hkey : (N + 1) * (Nat.pow 2 N - countVisited (Nat.pow 2 N) st.visited) =
                (N + 1) * (Nat.pow 2 N - (countVisited (Nat.pow 2 N) st.visited + 1)) +
                  (N + 1) := by
              have h9 : Nat.pow 2 N - countVisited (Nat.pow 2 N) st.visited =
                  (Nat.pow 2 N - (countVisited (Nat.pow 2 N) st.visited + 1)) + 1 := by
                omega
              rw [h9, Nat.mul_add, Nat.mul_one]
            rw [hcount2, hq1]
            omega

/-! ### Claim C10: successful runs drain the stack -/

/-- Claim C10: every non-error run of `DFS_hypercube` and every non-aborted
run of `grow_H_cluster` ends with the shared stack empty (`top == 0`), so a
following traversal on the same stack (as in `hypercube_clusters` and
`hypercube_H_LC`) finds its empty-stack precondition satisfied without any
explicit reset. -/
theorem C10_stack_empty_after_run (N : ℕ) (p : ℚ) (r : ℕ → ℚ) (s : stack)
    (visited : ℕ → Bool) (labels : ℕ → ℕ) (H : ℕ → ℕ → ℕ) (lab : Bool)
    (c start_state k0 : ℕ) (errF : Bool)
    (hstart : start_state < Nat.pow 2 N)
    (hs : ∀ v ∈ s.sites, v < Nat.pow 2 N) :
    ((DFS_hypercube N p r s visited start_state k0).2.err = false →
      (DFS_hypercube N p r s visited start_state k0).2.s.sites = []) ∧
    ((grow_H_cluster N p r lab c s visited labels H start_state k0 errF).aborted = false →
      (grow_H_cluster N p r lab c s visited labels H start_state k0 errF).s.sites = []) := by
  have hpushlt : ∀ v ∈ (push s start_state).1.sites, v < Nat.pow 2 N := by
    intro v hv
    unfold push at hv
    by_cases hc : s.length ≤ s.sites.length
    · rw [if_pos hc] at hv
      exact hs v hv
    · rw [if_neg hc] at hv
      simp only at hv
      rcases List.mem_cons.mp hv with rfl | hv2
      · exact hstart
      · exact hs v hv2
  have hpushlen : (push s start_state).1.sites.length ≤ s.sites.length + 1 := by
    unfold push
    by_cases hc : s.length ≤ s.sites.length
    · rw [if_pos hc]
      exact Nat.le_succ _
    · rw [if_neg hc]
      exact Nat.le_refl _
  constructor
  · unfold DFS_hypercube
    by_cases hlen : s.sites.length ≠ 0
    · rw [if_pos hlen]
      intro hcontr
      cases hcontr
    · rw [if_neg hlen]
      simp only
      intro herr
      have hterm := DFS_loop_term N p r (dfsFuel N)
        ⟨(push s start_state).1, visited, 0, k0, false⟩ hpushlt ?hm2
      · rcases hterm.1 with h1 | h1
        · rw [herr] at h1
          cases h1
        · exact h1
      case hm2 =>
        show (N + 1) * (Nat.pow 2 N - countVisited (Nat.pow 2 N) visited) +
          (push s start_state).1.sites.length + 1 ≤ dfsFuel N
        have hsub : (N + 1) * (Nat.pow 2 N - countVisited (Nat.pow 2 N) visited) ≤
            (N + 1) * Nat.pow 2 N := Nat.mul_le_mul_left _ (Nat.sub_le _ _)
        have hlen0 : s.sites.length = 0 := by omega
        unfold dfsFuel
        omega
  · unfold grow_H_cluster
    by_cases hlen : s.sites.length ≠ 0
    · rw [if_pos hlen]
      intro hcontr
      cases hcontr
    · rw [if_neg hlen]
      intro hab
      have hterm := grow_loop_term N p r lab c (dfsFuel N)
        ⟨(push s start_state).1, visited, labels, H, 0, k0, errF, false⟩ hpushlt ?hm3
      · rcases hterm with h1 | h1
        · rw [hab] at h1
          cases h1
        · exact h1
      case hm3 =>
        show (N + 1) * (Nat.pow 2 N - countVisited (Nat.pow 2 N) visited) +
          (push s start_state).1.sites.length + 1 ≤ dfsFuel N
        have hsub : (N + 1) * (Nat.pow 2 N - countVisited (Nat.pow 2 N) visited) ≤
            (N + 1) * Nat.pow 2 N := Nat.mul_le_mul_left _ (Nat.sub_le _ _)
        have hlen0 : s.sites.length = 0 := by omega
        unfold dfsFuel
        omega

/-- Witness for C10 at a concrete instance. -/
theorem C10_stack_empty_after_run_witness :
    (3 : ℕ) < Nat.pow 2 2 ∧
    (DFS_hypercube 2 half (fun _ => 0) (setup_stack 4) (fun _ => false) 3 0).2.err =
      false ∧
    (DFS_hypercube 2 half (fun _ => 0) (setup_stack 4) (fun _ => false) 3 0).2.s.sites =
      [] := by
  refine ⟨by decide, by decide, ?_⟩
  exact (C10_stack_empty_after_run 2 half (fun _ => 0) (setup_stack 4) (fun _ => false)
    (fun _ => UMAX) (fun _ _ => 0) false 0 3 0 false (by decide)
    (by intro v hv; cases hv)).1 (by decide)

/-! ### Step lemmas for `dij_nbrs` and `dij_loop` -/

theorem queue_ext (q1 q2 : queue) (h1 : q1.sites = q2.sites)
    (h2 : q1.length = q2.length) : q1 = q2 := by
  cases q1
  cases q2
  simp only at h1 h2
  rw [h1, h2]

theorem dij_nbrs_nil (p : ℚ) (r : ℕ → ℚ) (u : ℕ) (st : DijSt) :
    dij_nbrs p r u [] st = st := rfl

theorem dij_nbrs_visited (p : ℚ) (r : ℕ → ℚ) (u i : ℕ) (l : List ℕ) (st : DijSt)
    (h : st.visited (u ^^^ 1 <<< i) = true) :
    dij_nbrs p r u (i :: l) st = dij_nbrs p r u l st := by
  simp [dij_nbrs, h]

theorem dij_nbrs_nodraw (p : ℚ) (r : ℕ → ℚ) (u i : ℕ) (l : List ℕ) (st : DijSt)
    (h : st.visited (u ^^^ 1 <<< i) = false) (hd : ¬ r st.k < p) :
    dij_nbrs p r u (i :: l) st = dij_nbrs p r u l { st with k := st.k + 1 } := by
  simp [dij_nbrs, h, hd]

theorem dij_nbrs_norelax (p : ℚ) (r : ℕ → ℚ) (u i : ℕ) (l : List ℕ) (st : DijSt)
    (h : st.visited (u ^^^ 1 <<< i) = false) (hd : r st.k < p)
    (hrel : ¬ (st.distances u + 1) % Nat.pow 2 64 < st.distances (u ^^^ 1 <<< i)) :
    dij_nbrs p r u (i :: l) st = dij_nbrs p r u l { st with k := st.k + 1 } := by
  simp [dij_nbrs, h, hd, hrel]

theorem dij_nbrs_relax (p : ℚ) (r : ℕ → ℚ) (u i : ℕ) (l : List ℕ) (st : DijSt)
    (h : st.visited (u ^^^ 1 <<< i) = false) (hd : r st.k < p)
    (hrel : (st.distances u + 1) % Nat.pow 2 64 < st.distances (u ^^^ 1 <<< i))
    (hcap : st.q.sites.length < st.q.length) :
    dij_nbrs p r u (i :: l) st = dij_nbrs p r u l
      { st with q := ⟨st.q.sites ++ [u ^^^ 1 <<< i], st.q.length⟩, k := st.k + 1,
                distances := updN st.distances (u ^^^ 1 <<< i)
                  ((st.distances u + 1) % Nat.pow 2 64) } := by
  have hp := enqueue_ok st.q (u ^^^ 1 <<< i) hcap
  have hq1 : (enqueue st.q (u ^^^ 1 <<< i)).1 =
      (⟨st.q.sites ++ [u ^^^ 1 <<< i], st.q.length⟩ : queue) :=
    queue_ext _ _ hp.1 (enqueue_length _ _)
  simp only [dij_nbrs, h, hd, hrel, if_true, if_false, Bool.false_eq_true]
  rw [if_neg (by simp [hp.2]), hq1]

theorem dij_nbrs_qfull (p : ℚ) (r : ℕ → ℚ) (u i : ℕ) (l : List ℕ) (st : DijSt)
    (h : st.visited (u ^^^ 1 <<< i) = false) (hd : r st.k < p)
    (hrel : (st.distances u + 1) % Nat.pow 2 64 < st.distances (u ^^^ 1 <<< i))
    (hcap : st.q.length ≤ st.q.sites.length) :
    dij_nbrs p r u (i :: l) st = { st with k := st.k + 1, qerr := true } := by
  simp only [dij_nbrs, h, hd, hrel, if_true, if_false, Bool.false_eq_true]
  rw [if_pos (by simp [enqueue, hcap])]

theorem dij_loop_zero (N : ℕ) (p : ℚ) (r : ℕ → ℚ) (lab : Bool) (c : ℕ) (st : DijSt) :
    dij_loop N p r lab c 0 st = st := rfl

theorem dij_loop_qerr (N : ℕ) (p : ℚ) (r : ℕ → ℚ) (lab : Bool) (c fuel : ℕ)
    (st : DijSt) (h : st.qerr = true) : dij_loop N p r lab c fuel st = st := by
  cases fuel with
  | zero => rfl
  | succ n => simp [dij_loop, h]

theorem dij_loop_empty_queue (N : ℕ) (p : ℚ) (r : ℕ → ℚ) (lab : Bool) (c fuel : ℕ)
    (st : DijSt) (h : st.q.sites = []) : dij_loop N p r lab c fuel st = st := by
  cases fuel with
  | zero => rfl
  | succ n =>
    obtain ⟨⟨sites, len⟩, vis, dst, labs, nv, kk, qe⟩ := st
    simp only at h
    subst h
    cases qe <;> simp [dij_loop]

theorem dij_loop_iter (N : ℕ) (p : ℚ) (r : ℕ → ℚ) (lab : Bool) (c fuel u : ℕ)
    (t : List ℕ) (st : DijSt) (hqe : st.qerr = false) (hs : st.q.sites = u :: t) :
    dij_loop N p r lab c (fuel + 1) st =
      dij_loop N p r lab c fuel (dij_nbrs p r u (List.range N)
        { st with q := ⟨t, st.q.length⟩,
                  number_visited := st.number_visited + 1,
                  visited := updN st.visited u true,
                  labels := if lab then updN st.labels u c else st.labels }) := by
  obtain ⟨⟨sites, len⟩, vis, dst, labs, nv, kk, qe⟩ := st
  simp only at hqe hs
  subst hqe
  subst hs
  simp [dij_loop, dequeue]

/-! ### Claim C5: the relaxation invariant -/

theorem dij_nbrs_dist_mono (p : ℚ) (r : ℕ → ℚ) (u : ℕ) :
    ∀ (l : List ℕ) (st : DijSt) (w : ℕ),
      (dij_nbrs p r u l st).distances w ≤ st.distances w ∧
      ((dij_nbrs p r u l st).distances w ≠ st.distances w →
        (dij_nbrs p r u l st).distances w = (st.distances u + 1) % Nat.pow 2 64 ∧
        (dij_nbrs p r u l st).distances w < st.distances w) := by
  intro l
  induction l with
  | nil => intro st w; exact ⟨le_refl _, fun h => absurd rfl h⟩
  | cons i t ih =>
    intro st w
    cases hv : st.visited (u ^^^ 1 <<< i) with
    | true =>
      rw [dij_nbrs_visited p r u i t st hv]
      exact ih st w
    | false =>
      by_cases hd : r st.k < p
      · by_cases hrel : (st.distances u + 1) % Nat.pow 2 64 <
            st.distances (u ^^^ 1 <<< i)
        · by_cases hcap : st.q.sites.length < st.q.length
          · rw [dij_nbrs_relax p r u i t st hv hd hrel hcap]
            have hvne : u ^^^ 1 <<< i ≠ u := mem_shiftXor u i
            have h2 := ih { st with q := ⟨st.q.sites ++ [u ^^^ 1 <<< i], st.q.length⟩, k := st.k + 1, distances := updN st.distances (u ^^^ 1 <<< i) ((st.distances u + 1) % Nat.pow 2 64) } w
            dsimp only at h2
            have hdu : updN st.distances (u ^^^ 1 <<< i)
                ((st.distances u + 1) % Nat.pow 2 64) u = st.distances u :=
              updN_other _ _ _ _ (fun hc => hvne hc.symm)
            by_cases hw : w = u ^^^ 1 <<< i
            · subst hw
              rw [updN_same] at h2
              constructor
              · exact le_trans h2.1 (le_of_lt hrel)
              · intro _
                rcases eq_or_ne ((dij_nbrs p r u t _).distances (u ^^^ 1 <<< i))
                    ((st.distances u + 1) % Nat.pow 2 64) with he | hne2
                · exact ⟨he, lt_of_le_of_lt (le_of_eq he) hrel⟩
                · have h3 := h2.2 hne2
                  rw [hdu] at h3
                  exact ⟨h3.1, by rw [h3.1]; exact hrel⟩
            · rw [updN_other _ _ _ _ hw] at h2
              rw [hdu] at h2
              exact h2
          · rw [dij_nbrs_qfull p r u i t st hv hd hrel (by omega)]
            exact ⟨le_refl _, fun h => absurd rfl h⟩
        · rw [dij_nbrs_norelax p r u i t st hv hd hrel]
          exact ih { st with k := st.k + 1 } w
      · rw [dij_nbrs_nodraw p r u i t st hv hd]
        exact ih { st with k := st.k + 1 } w

theorem dij_loop_dist_mono (N : ℕ) (p : ℚ) (r : ℕ → ℚ) (lab : Bool) (c : ℕ) :
    ∀ (fuel : ℕ) (st : DijSt) (w : ℕ),
      (dij_loop N p r lab c fuel st).distances w ≤ st.distances w := by
  intro fuel
  induction fuel with
  | zero => intro st w; exact le_refl _
  | succ n ih =>
    intro st w
    by_cases hqe : st.qerr = true
    · rw [dij_loop_qerr N p r lab c (n + 1) st hqe]
    · have hqe2 : st.qerr = false := by
        cases he : st.qerr
        · rfl
        · exact absurd he hqe
      cases hs : st.q.sites with
      | nil => rw [dij_loop_empty_queue N p r lab c (n + 1) st hs]
      | cons u t =>
        rw [dij_loop_iter N p r lab c n u t st hqe2 hs]
        refine le_trans (ih _ w) ?_
        have h2 := (dij_nbrs_dist_mono p r u (List.range N)
          { st with q := ⟨t, st.q.length⟩,
                    number_visited := st.number_visited + 1,
                    visited := updN st.visited u true,
                    labels := if lab then updN st.labels u c else st.labels } w).1
        dsimp only at h2
        exact h2

/-- Claim C5: the distance engine obeys the relaxation invariant. The driver
presets the seed's distance to 0 and every other to the `ULONG_MAX` sentinel;
a distance entry is rewritten only with the candidate `distances[u] + 1` of
the dequeued site `u` and only when that candidate is strictly smaller, so
every entry is non-increasing over the whole run. -/
theorem C5_relaxation_invariant (N : ℕ) (p : ℚ) (r : ℕ → ℚ) :
    (updN (fun _ => UMAX) 0 0 0 = 0 ∧ (∀ v, v ≠ 0 → updN (fun _ => UMAX) 0 0 v = UMAX) ∧
      hypercube_dijkstra_run N p r = dijkstra N p r false 0 (setup_queue (intpower 2 N))
        (fun _ => false) (updN (fun _ => UMAX) 0 0) (fun _ => UMAX) 0 0) ∧
    (∀ (lab : Bool) (c fuel : ℕ) (st : DijSt) (w : ℕ),
      (dij_loop N p r lab c fuel st).distances w ≤ st.distances w) ∧
    (∀ (u : ℕ) (l : List ℕ) (st : DijSt) (w : ℕ),
      (dij_nbrs p r u l st).distances w ≠ st.distances w →
        (dij_nbrs p r u l st).distances w = (st.distances u + 1) % Nat.pow 2 64 ∧
        (dij_nbrs p r u l st).distances w < st.distances w) := by
  refine ⟨⟨updN_same _ _ _, fun v hv => updN_other _ _ _ _ hv, rfl⟩, ?_, ?_⟩
  · intro lab c fuel st w
    exact dij_loop_dist_mono N p r lab c fuel st w
  · intro u l st w
    exact (dij_nbrs_dist_mono p r u l st w).2

/-- Witness for C5: a concrete relaxation that strictly lowers an entry. -/
theorem C5_relaxation_invariant_witness :
    (dij_nbrs half (fun _ => 0) 0 [0]
        ⟨⟨[], 4⟩, fun _ => false, updN (fun _ => UMAX) 0 0, fun _ => UMAX, 0, 0,
          false⟩).distances 1 ≠
      updN (fun _ => UMAX) 0 0 1 ∧
    (dij_nbrs half (fun _ => 0) 0 [0]
        ⟨⟨[], 4⟩, fun _ => false, updN (fun _ => UMAX) 0 0, fun _ => UMAX, 0, 0,
          false⟩).distances 1 =
      (updN (fun _ => UMAX) 0 0 0 + 1) % Nat.pow 2 64 ∧
    (dij_nbrs half (fun _ => 0) 0 [0]
        ⟨⟨[], 4⟩, fun _ => false, updN (fun _ => UMAX) 0 0, fun _ => UMAX, 0, 0,
          false⟩).distances 1 <
      updN (fun _ => UMAX) 0 0 1 := by
  have hne : (dij_nbrs half (fun _ => 0) 0 [0]
      ⟨⟨[], 4⟩, fun _ => false, updN (fun _ => UMAX) 0 0, fun _ => UMAX, 0, 0,
        false⟩).distances 1 ≠ updN (fun _ => UMAX) 0 0 1 := by decide
  have h2 := (C5_relaxation_invariant 2 half (fun _ => 0)).2.2 0 [0]
    ⟨⟨[], 4⟩, fun _ => false, updN (fun _ => UMAX) 0 0, fun _ => UMAX, 0, 0, false⟩ 1 hne
  exact ⟨hne, h2.1, h2.2⟩

/-! ### The queue invariant of the distance engine -/

/-- Invariant of the `dijkstra` neighbour loop while the dequeued site `u` is
being processed: the queue holds distinct unvisited sites below the graph
order, with nondecreasing distances squeezed between `distances[u]` and
`distances[u] + 1`, all bounded by the visited count. -/
structure DNI (N u : ℕ) (st : DijSt) : Prop where
  nodup : st.q.sites.Nodup
  unvis : ∀ v ∈ st.q.sites, st.visited v = false
  ltNH : ∀ v ∈ st.q.sites, v < Nat.pow 2 N
  lecount : ∀ v ∈ st.q.sites, st.distances v ≤ countVisited (Nat.pow 2 N) st.visited
  ub : ∀ v ∈ st.q.sites, st.distances v ≤ st.distances u + 1
  lb : ∀ v ∈ st.q.sites, st.distances u ≤ st.distances v
  sorted : st.q.sites.Pairwise (fun a b => st.distances a ≤ st.distances b)
  cap : st.q.length = Nat.pow 2 N
  visu : st.visited u = true
  ducnt : st.distances u + 1 ≤ countVisited (Nat.pow 2 N) st.visited
  qe : st.qerr = false

theorem pow2_lt_pow64 (N : ℕ) (hN : N < 64) : Nat.pow 2 N < Nat.pow 2 64 :=
  Nat.pow_lt_pow_right (by norm_num) hN

theorem nodup_length_lt (NH : ℕ) (l : List ℕ) (v : ℕ) (hnd : l.Nodup)
    (hv : v ∉ l) (hlt : ∀ w ∈ v :: l, w < NH) : l.length < NH := by
  have hnd2 : (v :: l).Nodup := List.nodup_cons.mpr ⟨hv, hnd⟩
  have hsub : (v :: l) ⊆ List.range NH := by
    intro w hw
    exact List.mem_range.mpr (hlt w hw)
  have hle := (List.subperm_of_subset hnd2 hsub).length_le
  rw [List.length_cons, List.length_range] at hle
  omega

theorem dij_nbrs_main (N : ℕ) (p : ℚ) (r : ℕ → ℚ) (u : ℕ) (hN : N < 64)
    (hu : u < Nat.pow 2 N) :
    ∀ (l : List ℕ) (st : DijSt), (∀ i ∈ l, i < N) → DNI N u st →
      DNI N u (dij_nbrs p r u l st) ∧
      (dij_nbrs p r u l st).visited = st.visited ∧
      (dij_nbrs p r u l st).number_visited = st.number_visited ∧
      (dij_nbrs p r u l st).labels = st.labels ∧
      (dij_nbrs p r u l st).distances u = st.distances u ∧
      (∀ w, st.visited w = true → (dij_nbrs p r u l st).distances w = st.distances w) ∧
      (∃ news, (dij_nbrs p r u l st).q.sites = st.q.sites ++ news) := by
  intro l
  induction l with
  | nil =>
    intro st _ hI
    exact ⟨hI, rfl, rfl, rfl, rfl, fun w _ => rfl, [], by rw [dij_nbrs_nil]; simp⟩
  | cons i t ih =>
    intro st hl hI
    have hiN : i < N := hl i (List.mem_cons_self i t)
    have htN : ∀ j ∈ t, j < N := fun j hj => hl j (List.mem_cons_of_mem i hj)
    cases hv : st.visited (u ^^^ 1 <<< i) with
    | true =>
      rw [dij_nbrs_visited p r u i t st hv]
      exact ih st htN hI
    | false =>
      by_cases hd : r st.k < p
      · have hnc : (st.distances u + 1) % Nat.pow 2 64 = st.distances u + 1 := by
          apply Nat.mod_eq_of_lt
          have h1 := hI.ducnt
          have h2 := countVisited_le (Nat.pow 2 N) st.visited
          have h3 := pow2_lt_pow64 N hN
          omega
        by_cases hrel : (st.distances u + 1) % Nat.pow 2 64 <
            st.distances (u ^^^ 1 <<< i)
        · -- relaxation succeeds; the target is not in the queue, so the
          -- enqueue cannot overflow
          have hvny : u ^^^ 1 <<< i ∉ st.q.sites := by
            intro hmem
            have h4 := hI.ub _ hmem
            rw [hnc] at hrel
            omega
          have hvnu : u ^^^ 1 <<< i ≠ u := mem_shiftXor u i
          have hltv : u ^^^ 1 <<< i < Nat.pow 2 N := shiftXor_lt u i N hu hiN
          have hcap : st.q.sites.length < st.q.length := by
            rw [hI.cap]
            apply nodup_length_lt (Nat.pow 2 N) st.q.sites (u ^^^ 1 <<< i) hI.nodup hvny
            intro w hw
            rcases List.mem_cons.mp hw with rfl | hw2
            · exact hltv
            · exact hI.ltNH w hw2
          rw [dij_nbrs_relax p r u i t st hv hd hrel hcap]
          have hI2 : DNI N u { st with q := ⟨st.q.sites ++ [u ^^^ 1 <<< i], st.q.length⟩, k := st.k + 1, distances := updN st.distances (u ^^^ 1 <<< i) ((st.distances u + 1) % Nat.pow 2 64) } := by
            have hdu2 : updN st.distances (u ^^^ 1 <<< i)
                ((st.distances u + 1) % Nat.pow 2 64) u = st.distances u :=
              updN_other _ _ _ _ (fun hc => hvnu hc.symm)
            have hdold : ∀ w ∈ st.q.sites, updN st.distances (u ^^^ 1 <<< i)
                ((st.distances u + 1) % Nat.pow 2 64) w = st.distances w := by
              intro w hw
              exact updN_other _ _ _ _ (fun hc => hvny (hc ▸ hw))
            refine ⟨?_, ?_, ?_, ?_, ?_, ?_, ?_, ?_, ?_, ?_, ?_⟩
            · exact List.Nodup.append hI.nodup (List.nodup_singleton _)
                (fun a ha hb => hvny ((List.mem_singleton.mp hb) ▸ ha))
            · intro v hv2
              rcases List.mem_append.mp hv2 with h5 | h5
              · exact hI.unvis v h5
              · rw [List.mem_singleton.mp h5]
                exact hv
            · intro v hv2
              rcases List.mem_append.mp hv2 with h5 | h5
              · exact hI.ltNH v h5
              · rw [List.mem_singleton.mp h5]
                exact hltv
            · intro v hv2
              dsimp only
              rcases List.mem_append.mp hv2 with h5 | h5
              · rw [hdold v h5]
                exact hI.lecount v h5
              · rw [List.mem_singleton.mp h5, updN_same, hnc]
                exact hI.ducnt
            · intro v hv2
              dsimp only
              rw [hdu2]
              rcases List.mem_append.mp hv2 with h5 | h5
              · rw [hdold v h5]
                exact hI.ub v h5
              · rw [List.mem_singleton.mp h5, updN_same, hnc]
            · intro v hv2
              dsimp only
              rw [hdu2]
              rcases List.mem_append.mp hv2 with h5 | h5
              · rw [hdold v h5]
                exact hI.lb v h5
              · rw [List.mem_singleton.mp h5, updN_same, hnc]
                omega
            · dsimp only
              apply List.pairwise_append.mpr
              refine ⟨?_, List.pairwise_singleton _ _, ?_⟩
              · apply hI.sorted.imp_of_mem
                intro a b ha hb hab
                rw [hdold a ha, hdold b hb]
                exact hab
              · intro a ha b hb
                rw [List.mem_singleton.mp hb, hdold a ha, updN_same, hnc]
                exact hI.ub a ha
            · exact hI.cap
            · exact hI.visu
            · dsimp only
              rw [hdu2]
              exact hI.ducnt
            · exact hI.qe
          obtain ⟨hJ, e1, e2, e3, e4, e5, news, e6⟩ := ih _ htN hI2
          refine ⟨hJ, e1, e2, e3, ?_, ?_, ?_⟩
          · rw [e4]
            dsimp only
            exact updN_other _ _ _ _ (fun hc => hvnu hc.symm)
          · intro w hw
            have hwot : w ≠ u ^^^ 1 <<< i := by
              intro hc
              rw [hc] at hw
              rw [hw] at hv
              cases hv
            rw [e5 w (by exact hw)]
            dsimp only
            exact updN_other _ _ _ _ hwot
          · refine ⟨(u ^^^ 1 <<< i) :: news, ?_⟩
            rw [e6]
            dsimp only
            rw [List.append_assoc]
            rfl
        · rw [dij_nbrs_norelax p r u i t st hv hd hrel]
          have hI2 : DNI N u { st with k := st.k + 1 } :=
            ⟨hI.nodup, hI.unvis, hI.ltNH, hI.lecount, hI.ub, hI.lb, hI.sorted,
              hI.cap, hI.visu, hI.ducnt, hI.qe⟩
          exact ih _ htN hI2
      · rw [dij_nbrs_nodraw p r u i t st hv hd]
        have hI2 : DNI N u { st with k := st.k + 1 } :=
          ⟨hI.nodup, hI.unvis, hI.ltNH, hI.lecount, hI.ub, hI.lb, hI.sorted,
            hI.cap, hI.visu, hI.ducnt, hI.qe⟩
        exact ih _ htN hI2

/-- Invariant of the `dijkstra` while loop between iterations. -/
structure QInv (N : ℕ) (st : DijSt) : Prop where
  nodup : st.q.sites.Nodup
  unvis : ∀ v ∈ st.q.sites, st.visited v = false
  ltNH : ∀ v ∈ st.q.sites, v < Nat.pow 2 N
  lecount : ∀ v ∈ st.q.sites, st.distances v ≤ countVisited (Nat.pow 2 N) st.visited
  sorted : st.q.sites.Pairwise (fun a b => st.distances a ≤ st.distances b)
  headUb : ∀ x t, st.q.sites = x :: t → ∀ v ∈ st.q.sites,
    st.distances v ≤ st.distances x + 1
  cap : st.q.length = Nat.pow 2 N
  qe : st.qerr = false

/-- What one (or several) iterations of the `dijkstra` loop preserve and
how they act on the per-site arrays. -/
structure LFacts (N : ℕ) (lab : Bool) (c : ℕ) (st st2 : DijSt) : Prop where
  vmono : ∀ w, st.visited w = true → st2.visited w = true
  dfro : ∀ w, st.visited w = true → st2.distances w = st.distances w
  lfro : ∀ w, st.visited w = true → st2.labels w = st.labels w
  dmono : ∀ w, st2.distances w ≤ st.distances w
  lnew : ∀ w, st2.labels w ≠ st.labels w → lab = true ∧ st2.labels w = c
  vnew : ∀ w, st2.visited w = true → st.visited w = false → lab = true →
    st2.labels w = c
  lvis : ∀ w, st2.labels w ≠ st.labels w → st2.visited w = true
  cnt : st2.number_visited + countVisited (Nat.pow 2 N) st.visited =
    st.number_visited + countVisited (Nat.pow 2 N) st2.visited
  cap2 : st2.q.length = st.q.length

theorem LFacts.rfl2 (N : ℕ) (lab : Bool) (c : ℕ) (st : DijSt) : LFacts N lab c st st :=
  ⟨fun _ h => h, fun _ _ => rfl, fun _ _ => rfl, fun _ => le_refl _,
    fun _ h => absurd rfl h, fun w h1 h2 _ => (by rw [h1] at h2; cases h2),
    fun _ h => absurd rfl h, (by omega), rfl⟩

theorem LFacts.trans2 (N : ℕ) (lab : Bool) (c : ℕ) (st1 st2 st3 : DijSt)
    (h1 : LFacts N lab c st1 st2) (h2 : LFacts N lab c st2 st3) :
    LFacts N lab c st1 st3 := by
  refine ⟨?_, ?_, ?_, ?_, ?_, ?_, ?_, ?_, ?_⟩
  · intro w hw
    exact h2.vmono w (h1.vmono w hw)
  · intro w hw
    rw [h2.dfro w (h1.vmono w hw), h1.dfro w hw]
  · intro w hw
    rw [h2.lfro w (h1.vmono w hw), h1.lfro w hw]
  · intro w
    exact le_trans (h2.dmono w) (h1.dmono w)
  · intro w hw
    by_cases hmid : st3.labels w = st2.labels w
    · rw [hmid] at hw ⊢
      exact h1.lnew w hw
    · exact h2.lnew w hmid
  · intro w hw3 hw1 hlab
    by_cases hmid : st2.visited w = true
    · have hlb := h1.vnew w hmid hw1 hlab
      rw [h2.lfro w hmid]
      exact hlb
    · have hmid2 : st2.visited w = false := by
        cases he : st2.visited w
        · rfl
        · exact absurd he hmid
      exact h2.vnew w hw3 hmid2 hlab
  · intro w hw
    by_cases hmid : st3.labels w = st2.labels w
    · rw [hmid] at hw
      exact h2.vmono w (h1.lvis w hw)
    · exact h2.lvis w hmid
  · have e1 := h1.cnt
    have e2 := h2.cnt
    omega
  · rw [h2.cap2, h1.cap2]

theorem dij_iter_main (N : ℕ) (p : ℚ) (r : ℕ → ℚ) (lab : Bool) (c : ℕ)
    (hN : N < 64) (st : DijSt) (u : ℕ) (t : List ℕ) (hq : QInv N st)
    (hs : st.q.sites = u :: t) :
    QInv N (dij_nbrs p r u (List.range N)
      { st with q := ⟨t, st.q.length⟩,
                number_visited := st.number_visited + 1,
                visited := updN st.visited u true,
                labels := if lab then updN st.labels u c else st.labels }) ∧
    LFacts N lab c st (dij_nbrs p r u (List.range N)
      { st with q := ⟨t, st.q.length⟩,
                number_visited := st.number_visited + 1,
                visited := updN st.visited u true,
                labels := if lab then updN st.labels u c else st.labels }) ∧
    countVisited (Nat.pow 2 N) (dij_nbrs p r u (List.range N)
      { st with q := ⟨t, st.q.length⟩,
                number_visited := st.number_visited + 1,
                visited := updN st.visited u true,
                labels := if lab then updN st.labels u c else st.labels }).visited =
      countVisited (Nat.pow 2 N) st.visited + 1 := by
  have humem : u ∈ st.q.sites := by rw [hs]; exact List.mem_cons_self u t
  have hvu : st.visited u = false := hq.unvis u humem
  have huN : u < Nat.pow 2 N := hq.ltNH u humem
  have hnt : u ∉ t := by
    have := hq.nodup
    rw [hs] at this
    exact (List.nodup_cons.mp this).1
  have hcnt : countVisited (Nat.pow 2 N) (updN st.visited u true) =
      countVisited (Nat.pow 2 N) st.visited + 1 :=
    countVisited_updN_true _ u st.visited huN hvu
  have hducnt : st.distances u ≤ countVisited (Nat.pow 2 N) st.visited :=
    hq.lecount u humem
  have hI : DNI N u
      { st with q := ⟨t, st.q.length⟩,
                number_visited := st.number_visited + 1,
                visited := updN st.visited u true,
                labels := if lab then updN st.labels u c else st.labels } := by
    refine ⟨?_, ?_, ?_, ?_, ?_, ?_, ?_, ?_, ?_, ?_, ?_⟩
    · dsimp only
      have := hq.nodup
      rw [hs] at this
      exact (List.nodup_cons.mp this).2
    · intro v hv
      dsimp only at hv ⊢
      have hvne : v ≠ u := by
        intro hc
        rw [hc] at hv
        exact hnt hv
      rw [updN_other _ _ _ _ hvne]
      exact hq.unvis v (by rw [hs]; exact List.mem_cons_of_mem u hv)
    · intro v hv
      dsimp only at hv ⊢
      exact hq.ltNH v (by rw [hs]; exact List.mem_cons_of_mem u hv)
    · intro v hv
      dsimp only at hv ⊢
      rw [hcnt]
      exact le_trans (hq.lecount v (by rw [hs]; exact List.mem_cons_of_mem u hv))
        (Nat.le_succ _)
    · intro v hv
      dsimp only at hv ⊢
      exact hq.headUb u t hs v (by rw [hs]; exact List.mem_cons_of_mem u hv)
    · intro v hv
      dsimp only at hv ⊢
      have hsor := hq.sorted
      rw [hs] at hsor
      exact (List.pairwise_cons.mp hsor).1 v hv
    · dsimp only
      have hsor := hq.sorted
      rw [hs] at hsor
      exact (List.pairwise_cons.mp hsor).2
    · dsimp only
      exact hq.cap
    · dsimp only
      exact updN_same _ _ _
    · dsimp only
      rw [hcnt]
      omega
    · exact hq.qe
  have hmain := dij_nbrs_main N p r u hN huN (List.range N) { st with q := ⟨t, st.q.length⟩, number_visited := st.number_visited + 1, visited := updN st.visited u true, labels := if lab then updN st.labels u c else st.labels } (fun i hi => List.mem_range.mp hi) hI
  obtain ⟨hJ, e1, e2, e3, e4, e5, news, e6⟩ := hmain
  have hcnt2 : countVisited (Nat.pow 2 N) (dij_nbrs p r u (List.range N) { st with q := ⟨t, st.q.length⟩, number_visited := st.number_visited + 1, visited := updN st.visited u true, labels := if lab then updN st.labels u c else st.labels }).visited = countVisited (Nat.pow 2 N) st.visited + 1 := by
    rw [e1]
    dsimp only
    exact hcnt
  refine ⟨?_, ?_, hcnt2⟩
  · -- the loop invariant holds again after the iteration
    refine ⟨hJ.nodup, hJ.unvis, hJ.ltNH, hJ.lecount, hJ.sorted, ?_, ?_, hJ.qe⟩
    · intro x t2 hx v hv
      have hxub := hJ.ub x (by rw [hx]; exact List.mem_cons_self x t2)
      have hxlb := hJ.lb x (by rw [hx]; exact List.mem_cons_self x t2)
      have hvub := hJ.ub v hv
      have hvlb := hJ.lb v hv
      omega
    · rw [hJ.cap]
  · -- the frame facts for this iteration
    have hlb2 : (if lab then updN st.labels u c else st.labels) =
        (fun w => if lab ∧ w = u then c else st.labels w) := by
      cases lab
      · simp
      · funext w
        simp only [if_true, true_and]
        by_cases hw : w = u
        · rw [hw, updN_same, if_pos rfl]
        · rw [updN_other _ _ _ _ hw, if_neg hw]
    refine ⟨?_, ?_, ?_, ?_, ?_, ?_, ?_, ?_, ?_⟩
    · intro w hw
      rw [e1]
      dsimp only
      by_cases hwu : w = u
      · rw [hwu, updN_same]
      · rw [updN_other _ _ _ _ hwu]
        exact hw
    · intro w hw
      have hwu : w ≠ u := fun hc => by rw [hc, hvu] at hw; cases hw
      have h7 : (updN st.visited u true) w = true := by
        rw [updN_other _ _ _ _ hwu]
        exact hw
      have := e5 w (by dsimp only; exact h7)
      rw [this]
    · intro w hw
      have hwu : w ≠ u := fun hc => by rw [hc, hvu] at hw; cases hw
      rw [e3]
      dsimp only
      cases lab
      · rfl
      · rw [if_pos rfl]
        exact updN_other _ _ _ _ hwu
    · intro w
      have h8 := (dij_nbrs_dist_mono p r u (List.range N) { st with q := ⟨t, st.q.length⟩, number_visited := st.number_visited + 1, visited := updN st.visited u true, labels := if lab then updN st.labels u c else st.labels } w).1
      dsimp only at h8
      exact h8
    · intro w hw
      rw [e3] at hw ⊢
      dsimp only at hw ⊢
      cases lab
      · simp only [Bool.false_eq_true, if_false] at hw
        exact absurd rfl hw
      · simp only [if_true] at hw ⊢
        by_cases hwu : w = u
        · rw [hwu, updN_same]
          exact ⟨trivial, rfl⟩
        · rw [updN_other _ _ _ _ hwu] at hw
          exact absurd rfl hw
    · intro w hw3 hw1 hlab
      rw [e3]
      dsimp only
      rw [hlab]
      simp only [if_true]
      rw [e1] at hw3
      dsimp only at hw3
      by_cases hwu : w = u
      · rw [hwu, updN_same]
      · rw [updN_other _ _ _ _ hwu] at hw3
        rw [hw3] at hw1
        cases hw1
    · intro w hw
      rw [e3] at hw
      rw [e1]
      dsimp only at hw ⊢
      by_cases hwu : w = u
      · rw [hwu, updN_same]
      · exfalso
        apply hw
        cases lab
        · rfl
        · simp only [if_true]
          exact updN_other _ _ _ _ hwu
    · rw [e2, hcnt2]
      dsimp only
      omega
    · rw [hJ.cap, hq.cap]

/-- The `dijkstra` loop preserves the queue invariant, acts on the arrays as
described by `LFacts`, and drains the queue once the fuel exceeds the number
of never-visited sites. -/
theorem dij_loop_main (N : ℕ) (p : ℚ) (r : ℕ → ℚ) (lab : Bool) (c : ℕ)
    (hN : N < 64) :
    ∀ fuel st, QInv N st →
      QInv N (dij_loop N p r lab c fuel st) ∧
      LFacts N lab c st (dij_loop N p r lab c fuel st) ∧
      (Nat.pow 2 N < countVisited (Nat.pow 2 N) st.visited + fuel →
        (dij_loop N p r lab c fuel st).q.sites = []) := by
  intro fuel
  induction fuel with
  | zero =>
    intro st hq
    rw [dij_loop_zero]
    refine ⟨hq, LFacts.rfl2 N lab c st, ?_⟩
    intro h
    have := countVisited_le (Nat.pow 2 N) st.visited
    omega
  | succ fuel ih =>
    intro st hq
    cases hqs : st.q.sites with
    | nil =>
      rw [dij_loop_empty_queue N p r lab c (fuel + 1) st hqs]
      exact ⟨hq, LFacts.rfl2 N lab c st, fun _ => hqs⟩
    | cons u t =>
      rw [dij_loop_iter N p r lab c fuel u t st hq.qe hqs]
      obtain ⟨hq2, hlf, hcv⟩ := dij_iter_main N p r lab c hN st u t hq hqs
      obtain ⟨hq3, hlf2, hdr⟩ := ih _ hq2
      refine ⟨hq3, LFacts.trans2 N lab c _ _ _ hlf hlf2, ?_⟩
      intro h
      apply hdr
      rw [hcv]
      omega

theorem countVisited_false (NH : ℕ) : countVisited NH (fun _ => false) = 0 := by
  simp [countVisited]

theorem pow2_pos (N : ℕ) : 0 < Nat.pow 2 N := Nat.pos_pow_of_pos N (by omega)

theorem enqueue_seed (NH s : ℕ) (h : 0 < NH) :
    enqueue (setup_queue NH) s = (⟨[s], NH⟩, false) := by
  simp only [enqueue, setup_queue, List.length_nil]
  rw [if_neg (by omega)]
  rfl

theorem dij_seed_QInv (N s : ℕ) (vis : ℕ → Bool) (dst lbs : ℕ → ℕ) (nv0 k0 : ℕ)
    (hs : s < Nat.pow 2 N) (hd : dst s = 0) (hv : vis s = false) :
    QInv N ⟨⟨[s], Nat.pow 2 N⟩, vis, dst, lbs, nv0, k0, false⟩ := by
  refine ⟨List.nodup_singleton s, ?_, ?_, ?_, ?_, ?_, rfl, rfl⟩
  · intro v hv2
    have hv0 : v = s := List.mem_singleton.mp hv2
    rw [hv0]
    exact hv
  · intro v hv
    have hv0 : v = s := List.mem_singleton.mp hv
    rw [hv0]
    exact hs
  · intro v hv
    have hv0 : v = s := List.mem_singleton.mp hv
    rw [hv0]
    show dst s ≤ _
    rw [hd]
    exact Nat.zero_le _
  · exact List.pairwise_singleton _ s
  · intro x t hx v hv
    have hv0 : v = s := List.mem_singleton.mp hv
    have hx0 : x = s := by
      have h2 : s = x ∧ [] = t := by
        rw [List.cons.injEq] at hx
        exact hx
      rw [h2.1]
    rw [hv0, hx0]
    exact Nat.le_succ _

theorem hypercube_dijkstra_run_eq (N : ℕ) (p : ℚ) (r : ℕ → ℚ) :
    hypercube_dijkstra_run N p r = dij_loop N p r false 0 (dijFuel N)
      ⟨⟨[0], Nat.pow 2 N⟩, (fun _ => false), updN (fun _ => UMAX) 0 0,
        (fun _ => UMAX), 0, 0, false⟩ := by
  show dij_loop N p r false 0 (dijFuel N)
    ⟨(enqueue (setup_queue (intpower 2 N)) 0).1, (fun _ => false),
      updN (fun _ => UMAX) 0 0, (fun _ => UMAX), 0, 0, false⟩ = _
  rw [enqueue_seed (intpower 2 N) 0 (pow2_pos N)]
  rfl

/-- Claim C2: for every dimension `N < 64` and every edge probability and draw
sequence, `hypercube_dijkstra` succeeds and returns exactly one distance per
distinct visited site: the engine never errors, the `number_visited` counter
(incremented on every dequeue with no duplicate check) equals the number of
distinct sites marked visited when the queue empties, and the returned array
`finite_distances` has exactly that length. -/
theorem C2_dijkstra_output_length (N : ℕ) (p : ℚ) (r : ℕ → ℚ) (hN : N < 64) :
    (hypercube_dijkstra_run N p r).qerr = false ∧
    hypercube_dijkstra N p r =
      some (finite_distances (intpower 2 N) (hypercube_dijkstra_run N p r)) ∧
    (finite_distances (intpower 2 N) (hypercube_dijkstra_run N p r)).length =
      (hypercube_dijkstra_run N p r).number_visited ∧
    (hypercube_dijkstra_run N p r).number_visited =
      countVisited (intpower 2 N) (hypercube_dijkstra_run N p r).visited := by
  have hq0 := dij_seed_QInv N 0 (fun _ => false) (updN (fun _ => UMAX) 0 0)
    (fun _ => UMAX) 0 0 (pow2_pos N) (updN_same _ _ _) rfl
  obtain ⟨hqf, hlf, hdr⟩ := dij_loop_main N p r false 0 hN (dijFuel N) _ hq0
  have hrun := hypercube_dijkstra_run_eq N p r
  have hqe : (hypercube_dijkstra_run N p r).qerr = false := by
    rw [hrun]
    exact hqf.qe
  have hcnt := hlf.cnt
  dsimp only at hcnt
  rw [countVisited_false] at hcnt
  have hnv : (hypercube_dijkstra_run N p r).number_visited =
      countVisited (intpower 2 N) (hypercube_dijkstra_run N p r).visited := by
    rw [hrun]
    show _ = countVisited (Nat.pow 2 N) _
    omega
  have hlen : (finite_distances (intpower 2 N) (hypercube_dijkstra_run N p r)).length =
      (hypercube_dijkstra_run N p r).number_visited := by
    rw [hnv]
    show (((List.range (intpower 2 N)).filter _).map _).length = _
    rw [List.length_map]
    show _ = (List.range (intpower 2 N)).countP
      (fun v => (hypercube_dijkstra_run N p r).visited v)
    rw [List.countP_eq_length_filter]
  refine ⟨hqe, ?_, hlen, hnv⟩
  show (if (hypercube_dijkstra_run N p r).qerr then none else _) = _
  rw [hqe]
  simp

theorem C2_dijkstra_output_length_witness : 2 < 64 ∧
    ((hypercube_dijkstra_run 2 half (fun _ => half)).qerr = false ∧
    hypercube_dijkstra 2 half (fun _ => half) =
      some (finite_distances (intpower 2 2) (hypercube_dijkstra_run 2 half (fun _ => half))) ∧
    (finite_distances (intpower 2 2) (hypercube_dijkstra_run 2 half (fun _ => half))).length =
      (hypercube_dijkstra_run 2 half (fun _ => half)).number_visited ∧
    (hypercube_dijkstra_run 2 half (fun _ => half)).number_visited =
      countVisited (intpower 2 2) (hypercube_dijkstra_run 2 half (fun _ => half)).visited) :=
  ⟨by decide, C2_dijkstra_output_length 2 half (fun _ => half) (by decide)⟩

/-! ### Claim C4: container overflow reachability -/

/-- Claim C4, queue half (amended): a `dijkstra` traversal entered with an
empty queue of capacity `2^N` and a fresh seed of distance 0 never takes the
enqueue-failure branch (`qerr` stays `false`), and it drains the queue. -/
theorem C4_no_queue_overflow (N : ℕ) (p : ℚ) (r : ℕ → ℚ) (lab : Bool) (c : ℕ)
    (q : queue) (vis : ℕ → Bool) (dst lbs : ℕ → ℕ) (s k0 : ℕ)
    (hN : N < 64) (hqs : q.sites = []) (hlen : q.length = Nat.pow 2 N)
    (hs : s < Nat.pow 2 N) (hd : dst s = 0) (hv : vis s = false) :
    (dijkstra N p r lab c q vis dst lbs s k0).qerr = false ∧
    (dijkstra N p r lab c q vis dst lbs s k0).q.sites = [] := by
  obtain ⟨sites, len⟩ := q
  simp only at hqs hlen
  subst hqs
  subst hlen
  have hrun : dijkstra N p r lab c ⟨[], Nat.pow 2 N⟩ vis dst lbs s k0 =
      dij_loop N p r lab c (dijFuel N)
        ⟨⟨[s], Nat.pow 2 N⟩, vis, dst, lbs, 0, k0, false⟩ := by
    show dij_loop N p r lab c (dijFuel N)
      ⟨(enqueue (setup_queue (Nat.pow 2 N)) s).1, vis, dst, lbs, 0, k0, false⟩ = _
    rw [enqueue_seed (Nat.pow 2 N) s (pow2_pos N)]
  obtain ⟨hqf, hlf, hdr⟩ := dij_loop_main N p r lab c hN (dijFuel N) _
    (dij_seed_QInv N s vis dst lbs 0 k0 hs hd hv)
  rw [hrun]
  refine ⟨hqf.qe, ?_⟩
  apply hdr
  show Nat.pow 2 N < countVisited (Nat.pow 2 N) vis + (Nat.pow 2 N + 1)
  omega

theorem C4_no_queue_overflow_witness :
    (2 < 64 ∧ (setup_queue 4).sites = [] ∧ (setup_queue 4).length = Nat.pow 2 2 ∧
      0 < Nat.pow 2 2 ∧ updN (fun _ => UMAX) 0 0 0 = 0 ∧
      (fun _ => false) 0 = false) ∧
    ((dijkstra 2 half (fun _ => half) false 0 (setup_queue 4) (fun _ => false)
        (updN (fun _ => UMAX) 0 0) (fun _ => UMAX) 0 0).qerr = false ∧
      (dijkstra 2 half (fun _ => half) false 0 (setup_queue 4) (fun _ => false)
        (updN (fun _ => UMAX) 0 0) (fun _ => UMAX) 0 0).q.sites = []) :=
  ⟨⟨by decide, rfl, by decide, by decide, by decide, rfl⟩,
    C4_no_queue_overflow 2 half (fun _ => half) false 0 (setup_queue 4)
      (fun _ => false) (updN (fun _ => UMAX) 0 0) (fun _ => UMAX) 0 0
      (by decide) rfl (by decide) (by decide) (by decide) rfl⟩

/-- Claim C4, stack half, refuted: with every draw connecting (`p = 1`, valid
draws), the capacity-`2^4` stack of `grow_H_cluster` overflows on the
16-site hypercube, so the push-failure branch is reachable and
`hypercube_H_SC` returns its error value. -/
theorem C4_stack_overflow_counterexample :
    RngValid (fun _ => 0) ∧
    (grow_H_cluster 4 1 (fun _ => 0) false 0 (setup_stack (intpower 2 4))
      (fun _ => false) (fun _ => 0) (fun _ _ => 0) 0 0 false).aborted = true ∧
    hypercube_H_SC 4 1 (fun _ => 0) = none := by
  refine ⟨?_, by decide, ?_⟩
  · intro k
    refine ⟨le_refl 0, ?_⟩
    show (0 : ℚ) < 1
    norm_num
  · exact Option.isNone_iff_eq_none.mp (by decide)

theorem countVisited_mono (NH : ℕ) (f g : ℕ → Bool)
    (h : ∀ v, f v = true → g v = true) :
    countVisited NH f ≤ countVisited NH g := by
  unfold countVisited
  apply List.countP_mono_left
  intro a _ ha
  exact h a ha

theorem countVisited_mono_strict (NH : ℕ) (f g : ℕ → Bool) (u : ℕ)
    (h : ∀ v, f v = true → g v = true) (hu : u < NH) (hf : f u = false)
    (hg : g u = true) :
    countVisited NH f + 1 ≤ countVisited NH g := by
  have h1 : countVisited NH (updN f u true) ≤ countVisited NH g := by
    apply countVisited_mono
    intro v hv
    by_cases hvu : v = u
    · rw [hvu]
      exact hg
    · rw [updN_other _ _ _ _ hvu] at hv
      exact h v hv
  rw [countVisited_updN_true NH u f hu hf] at h1
  exact h1

theorem dij_nbrs_frames (p : ℚ) (r : ℕ → ℚ) (u : ℕ) :
    ∀ (l : List ℕ) (st : DijSt),
      (dij_nbrs p r u l st).visited = st.visited ∧
      (dij_nbrs p r u l st).number_visited = st.number_visited ∧
      (dij_nbrs p r u l st).labels = st.labels := by
  intro l
  induction l with
  | nil =>
    intro st
    exact ⟨rfl, rfl, rfl⟩
  | cons i t ih =>
    intro st
    cases hv : st.visited (u ^^^ 1 <<< i) with
    | true =>
      rw [dij_nbrs_visited p r u i t st hv]
      exact ih st
    | false =>
      by_cases hd : r st.k < p
      · by_cases hrel : (st.distances u + 1) % Nat.pow 2 64 <
            st.distances (u ^^^ 1 <<< i)
        · by_cases hcap : st.q.sites.length < st.q.length
          · rw [dij_nbrs_relax p r u i t st hv hd hrel hcap]
            exact ih _
          · rw [dij_nbrs_qfull p r u i t st hv hd hrel (by omega)]
            exact ⟨rfl, rfl, rfl⟩
        · rw [dij_nbrs_norelax p r u i t st hv hd hrel]
          exact ih _
      · rw [dij_nbrs_nodraw p r u i t st hv hd]
        exact ih _

/-- Everything the LC driver needs to know about one `dijkstra` call entered
with an empty queue of capacity `2^N` and a fresh seed of distance 0. -/
theorem dijkstra_seed_run (N : ℕ) (p : ℚ) (r : ℕ → ℚ) (lab : Bool) (c : ℕ)
    (q : queue) (vis : ℕ → Bool) (dst lbs : ℕ → ℕ) (s k0 : ℕ) (hN : N < 64)
    (hqs : q.sites = []) (hlen : q.length = Nat.pow 2 N) (hs : s < Nat.pow 2 N)
    (hd : dst s = 0) (hv : vis s = false) :
    (dijkstra N p r lab c q vis dst lbs s k0).qerr = false ∧
    (dijkstra N p r lab c q vis dst lbs s k0).q.sites = [] ∧
    (dijkstra N p r lab c q vis dst lbs s k0).q.length = Nat.pow 2 N ∧
    (∀ w, vis w = true → (dijkstra N p r lab c q vis dst lbs s k0).visited w = true) ∧
    (∀ w, (dijkstra N p r lab c q vis dst lbs s k0).labels w ≠ lbs w →
      lab = true ∧ (dijkstra N p r lab c q vis dst lbs s k0).labels w = c ∧
      (dijkstra N p r lab c q vis dst lbs s k0).visited w = true) ∧
    (∀ w, (dijkstra N p r lab c q vis dst lbs s k0).visited w = true →
      vis w = false → lab = true →
      (dijkstra N p r lab c q vis dst lbs s k0).labels w = c) ∧
    (∀ w, vis w = true →
      (dijkstra N p r lab c q vis dst lbs s k0).labels w = lbs w) ∧
    countVisited (Nat.pow 2 N) vis + 1 ≤
      countVisited (Nat.pow 2 N) (dijkstra N p r lab c q vis dst lbs s k0).visited ∧
    (dijkstra N p r lab c q vis dst lbs s k0).number_visited +
      countVisited (Nat.pow 2 N) vis =
      countVisited (Nat.pow 2 N) (dijkstra N p r lab c q vis dst lbs s k0).visited ∧
    (∀ w, vis w = true →
      (dijkstra N p r lab c q vis dst lbs s k0).distances w = dst w) ∧
    (∀ w, (dijkstra N p r lab c q vis dst lbs s k0).distances w ≤ dst w) := by
  obtain ⟨sites, len⟩ := q
  simp only at hqs hlen
  subst hqs
  subst hlen
  have hrun : dijkstra N p r lab c ⟨[], Nat.pow 2 N⟩ vis dst lbs s k0 =
      dij_loop N p r lab c (dijFuel N)
        ⟨⟨[s], Nat.pow 2 N⟩, vis, dst, lbs, 0, k0, false⟩ := by
    show dij_loop N p r lab c (dijFuel N)
      ⟨(enqueue (setup_queue (Nat.pow 2 N)) s).1, vis, dst, lbs, 0, k0, false⟩ = _
    rw [enqueue_seed (Nat.pow 2 N) s (pow2_pos N)]
  have hq0 := dij_seed_QInv N s vis dst lbs 0 k0 hs hd hv
  obtain ⟨hitq, hitl, hitc⟩ := dij_iter_main N p r lab c hN
    (⟨⟨[s], Nat.pow 2 N⟩, vis, dst, lbs, 0, k0, false⟩ : DijSt) s [] hq0 rfl
  obtain ⟨hqf, hlfB, hdrB⟩ := dij_loop_main N p r lab c hN (Nat.pow 2 N) _ hitq
  have hiter := dij_loop_iter N p r lab c (Nat.pow 2 N) s []
    (⟨⟨[s], Nat.pow 2 N⟩, vis, dst, lbs, 0, k0, false⟩ : DijSt) rfl rfl
  have hfeq : dijFuel N = Nat.pow 2 N + 1 := rfl
  rw [hrun, hfeq, hiter]
  have hlft := LFacts.trans2 N lab c _ _ _ hitl hlfB
  have e0 : countVisited (Nat.pow 2 N)
      ((⟨⟨[s], Nat.pow 2 N⟩, vis, dst, lbs, 0, k0, false⟩ : DijSt)).visited =
      countVisited (Nat.pow 2 N) vis := rfl
  have e1 : ((⟨⟨[s], Nat.pow 2 N⟩, vis, dst, lbs, 0, k0, false⟩ : DijSt)).number_visited
      = 0 := rfl
  have h2 := countVisited_mono (Nat.pow 2 N) _ _ (fun v hv2 => hlfB.vmono v hv2)
  refine ⟨hqf.qe, ?_, hqf.cap, ?_, ?_, ?_, ?_, ?_, ?_, ?_, ?_⟩
  · apply hdrB
    omega
  · intro w hw
    exact hlft.vmono w hw
  · intro w hw
    have h1 := hlft.lnew w hw
    exact ⟨h1.1, h1.2, hlft.lvis w hw⟩
  · intro w hw1 hw2 hlab
    exact hlft.vnew w hw1 hw2 hlab
  · intro w hw
    exact hlft.lfro w hw
  · omega
  · have h3 := hlft.cnt
    omega
  · intro w hw
    exact hlft.dfro w hw
  · intro w
    exact hlft.dmono w

/-- Invariant of the `hypercube_dijkstra_LC` site loop. -/
structure DijDrv (N : ℕ) (st : LCDSt) : Prop where
  qs : st.d.q.sites = []
  qlen : st.d.q.length = Nat.pow 2 N
  qe : st.d.qerr = false
  labs : ∀ v, st.d.labels v ≠ UMAX → st.d.visited v = true
  licx : st.largest_cluster_index ≤ st.cluster_index
  cxcnt : st.cluster_index ≤ countVisited (Nat.pow 2 N) st.d.visited
  tot : st.total_size = countVisited (Nat.pow 2 N) st.d.visited
  nab : st.aborted = false

/-- Composable frame facts of the `hypercube_dijkstra_LC` site loop. -/
structure DStep (st st2 : LCDSt) : Prop where
  vmono : ∀ w, st.d.visited w = true → st2.d.visited w = true
  lfro : ∀ w, st.d.visited w = true → st2.d.labels w = st.d.labels w
  dfro : ∀ w, st.d.visited w = true → st2.d.distances w = st.d.distances w
  cxmono : st.cluster_index ≤ st2.cluster_index

theorem DStep.reflD (st : LCDSt) : DStep st st :=
  ⟨fun _ h => h, fun _ _ => rfl, fun _ _ => rfl, le_refl _⟩

theorem DStep.transD (st1 st2 st3 : LCDSt) (h1 : DStep st1 st2)
    (h2 : DStep st2 st3) : DStep st1 st3 := by
  refine ⟨?_, ?_, ?_, le_trans h1.cxmono h2.cxmono⟩
  · intro w hw
    exact h2.vmono w (h1.vmono w hw)
  · intro w hw
    rw [h2.lfro w (h1.vmono w hw), h1.lfro w hw]
  · intro w hw
    rw [h2.dfro w (h1.vmono w hw), h1.dfro w hw]

theorem dijLC_site_main (N : ℕ) (p : ℚ) (r : ℕ → ℚ) (NH : ℕ) (ee : Bool)
    (st : LCDSt) (site : ℕ) (hN : N < 64) (hsite : site < Nat.pow 2 N)
    (h : DijDrv N st) :
    DijDrv N (dijLC_site N p r NH ee st site) ∧
    DStep st (dijLC_site N p r NH ee st site) := by
  by_cases hh : st.halted = true
  · simp only [dijLC_site, hh, if_true]
    exact ⟨h, DStep.reflD st⟩
  · by_cases hv : st.d.visited site = true
    · simp only [dijLC_site, hh, if_false, hv, if_true]
      exact ⟨h, DStep.reflD st⟩
    · have hv2 : st.d.visited site = false := by
        cases he : st.d.visited site
        · rfl
        · exact absurd he hv
      obtain ⟨f1, f2, f3, f4, f5, f6, f6b, f7, f8, f9, f10⟩ :=
        dijkstra_seed_run N p r true st.cluster_index st.d.q st.d.visited
          (updN st.d.distances site 0) st.d.labels site st.d.k hN h.qs h.qlen
          hsite (updN_same _ _ _) hv2
      have hlabs : ∀ v, (dijkstra N p r true st.cluster_index st.d.q st.d.visited (updN st.d.distances site 0) st.d.labels site st.d.k).labels v ≠ UMAX → (dijkstra N p r true st.cluster_index st.d.q st.d.visited (updN st.d.distances site 0) st.d.labels site st.d.k).visited v = true := by
        intro v hlv
        by_cases hch : (dijkstra N p r true st.cluster_index st.d.q st.d.visited (updN st.d.distances site 0) st.d.labels site st.d.k).labels v = st.d.labels v
        · rw [hch] at hlv
          exact f4 v (h.labs v hlv)
        · exact (f5 v hch).2.2
      have hdfro : ∀ w, st.d.visited w = true →
          (dijkstra N p r true st.cluster_index st.d.q st.d.visited (updN st.d.distances site 0) st.d.labels site st.d.k).distances w = st.d.distances w := by
        intro w hw
        rw [f9 w hw]
        have hws : w ≠ site := by
          intro he
          rw [he, hv2] at hw
          cases hw
        exact updN_other _ _ _ _ hws
      have hlicx : (if st.largest_cluster_size < (dijkstra N p r true st.cluster_index st.d.q st.d.visited (updN st.d.distances site 0) st.d.labels site st.d.k).number_visited
          then st.cluster_index else st.largest_cluster_index) ≤
          st.cluster_index + 1 := by
        have h9 := h.licx
        split
        · omega
        · omega
      have hcxcnt : st.cluster_index + 1 ≤
          countVisited (Nat.pow 2 N) (dijkstra N p r true st.cluster_index st.d.q st.d.visited (updN st.d.distances site 0) st.d.labels site st.d.k).visited := by
        have h9 := h.cxcnt
        omega
      have htot : st.total_size + (dijkstra N p r true st.cluster_index st.d.q st.d.visited (updN st.d.distances site 0) st.d.labels site st.d.k).number_visited =
          countVisited (Nat.pow 2 N) (dijkstra N p r true st.cluster_index st.d.q st.d.visited (updN st.d.distances site 0) st.d.labels site st.d.k).visited := by
        have h9 := h.tot
        omega
      unfold dijLC_site
      rw [if_neg hh, if_neg hv]
      dsimp only
      rw [f1]
      rw [if_neg Bool.false_ne_true]
      constructor
      · split
        · split
          · exact ⟨f2, f3, f1, hlabs, Nat.le_succ _, hcxcnt, htot, h.nab⟩
          · exact ⟨f2, f3, f1, hlabs, Nat.le_succ _, hcxcnt, htot, h.nab⟩
        · split
          · exact ⟨f2, f3, f1, hlabs, le_trans h.licx (Nat.le_succ _), hcxcnt,
              htot, h.nab⟩
          · exact ⟨f2, f3, f1, hlabs, le_trans h.licx (Nat.le_succ _), hcxcnt,
              htot, h.nab⟩
      · split
        · split
          · exact ⟨f4, f6b, hdfro, Nat.le_succ _⟩
          · exact ⟨f4, f6b, hdfro, Nat.le_succ _⟩
        · split
          · exact ⟨f4, f6b, hdfro, Nat.le_succ _⟩
          · exact ⟨f4, f6b, hdfro, Nat.le_succ _⟩

theorem dijLC_fold_main (N : ℕ) (p : ℚ) (r : ℕ → ℚ) (NH : ℕ) (ee : Bool)
    (hN : N < 64) :
    ∀ (l : List ℕ) (st : LCDSt), (∀ x ∈ l, x < Nat.pow 2 N) → DijDrv N st →
      DijDrv N (l.foldl (dijLC_site N p r NH ee) st) ∧
      DStep st (l.foldl (dijLC_site N p r NH ee) st) := by
  intro l
  induction l with
  | nil =>
    intro st _ h
    exact ⟨h, DStep.reflD st⟩
  | cons a t ih =>
    intro st hl h
    obtain ⟨h1, h2⟩ := dijLC_site_main N p r NH ee st a hN
      (hl a (List.mem_cons_self a t)) h
    obtain ⟨h3, h4⟩ := ih _ (fun x hx => hl x (List.mem_cons_of_mem a hx)) h1
    exact ⟨h3, DStep.transD _ _ _ h2 h4⟩

theorem dijLC_run_inv (ee : Bool) (N : ℕ) (p : ℚ) (r : ℕ → ℚ) (hN : N < 64) :
    DijDrv N (hypercube_dijkstra_LC_run ee N p r) := by
  have hinit : DijDrv N ⟨⟨setup_queue (intpower 2 N), fun _ => false,
      fun _ => UMAX, fun _ => UMAX, 0, 0, false⟩, 0, 0, 0, 0, false, false⟩ := by
    refine ⟨rfl, rfl, rfl, ?_, le_refl 0, Nat.zero_le _, ?_, rfl⟩
    · intro v hv
      exact absurd rfl hv
    · rw [countVisited_false]
  have h2 := dijLC_fold_main N p r (intpower 2 N) ee hN
    (List.range (intpower 2 N)) _
    (fun x hx => by
      have h3 := List.mem_range.mp hx
      show x < Nat.pow 2 N
      exact h3) hinit
  exact h2.1

theorem setM_pair_ne (H : ℕ → ℕ → ℕ) (u v x a b : ℕ)
    (h : setM (setM H u v x) v u x a b ≠ H a b) :
    (a = u ∧ b = v) ∨ (a = v ∧ b = u) := by
  by_cases h1 : a = v ∧ b = u
  · exact Or.inr h1
  · rw [setM_other _ _ _ _ _ _ h1] at h
    by_cases h2 : a = u ∧ b = v
    · exact Or.inl h2
    · rw [setM_other _ _ _ _ _ _ h2] at h
      exact absurd rfl h

theorem grow_nbrs_H (p : ℚ) (r : ℕ → ℚ) (u : ℕ) :
    ∀ (l : List ℕ) (st : GrowSt) (a b : ℕ),
      (grow_nbrs p r u l st).H a b ≠ st.H a b →
      (a = u ∧ st.visited b = false) ∨ (b = u ∧ st.visited a = false) := by
  intro l
  induction l with
  | nil =>
    intro st a b hab
    exact absurd rfl hab
  | cons i t ih =>
    intro st a b hab
    cases hv : st.visited (u ^^^ 1 <<< i) with
    | true =>
      rw [grow_nbrs_visited p r u i t st hv] at hab
      exact ih st a b hab
    | false =>
      by_cases hd : r st.k < p
      · by_cases hcap : st.s.sites.length < st.s.length
        · rw [grow_nbrs_push p r u i t st hv hd hcap] at hab
          by_cases hmid : (grow_nbrs p r u t { st with s := ⟨(u ^^^ 1 <<< i) :: st.s.sites, st.s.length⟩, k := st.k + 1, H := setM (setM st.H u (u ^^^ 1 <<< i) 1) (u ^^^ 1 <<< i) u 1 }).H a b = setM (setM st.H u (u ^^^ 1 <<< i) 1) (u ^^^ 1 <<< i) u 1 a b
          · rw [hmid] at hab
            rcases setM_pair_ne st.H u (u ^^^ 1 <<< i) 1 a b hab with ⟨ha, hb⟩ | ⟨ha, hb⟩
            · exact Or.inl ⟨ha, hb ▸ hv⟩
            · exact Or.inr ⟨hb, ha ▸ hv⟩
          · rcases ih _ a b hmid with ⟨ha, hb⟩ | ⟨ha, hb⟩
            · exact Or.inl ⟨ha, hb⟩
            · exact Or.inr ⟨ha, hb⟩
        · rw [grow_nbrs_overflow p r u i t st hv hd (by omega)] at hab
          exact absurd rfl hab
      · rw [grow_nbrs_nodraw p r u i t st hv hd] at hab
        by_cases hmid : (grow_nbrs p r u t { st with k := st.k + 1, H := setM (setM st.H u (u ^^^ 1 <<< i) 0) (u ^^^ 1 <<< i) u 0 }).H a b = setM (setM st.H u (u ^^^ 1 <<< i) 0) (u ^^^ 1 <<< i) u 0 a b
        · rw [hmid] at hab
          rcases setM_pair_ne st.H u (u ^^^ 1 <<< i) 0 a b hab with ⟨ha, hb⟩ | ⟨ha, hb⟩
          · exact Or.inl ⟨ha, hb ▸ hv⟩
          · exact Or.inr ⟨hb, ha ▸ hv⟩
        · rcases ih _ a b hmid with ⟨ha, hb⟩ | ⟨ha, hb⟩
          · exact Or.inl ⟨ha, hb⟩
          · exact Or.inr ⟨ha, hb⟩

/-- Frame facts and drain property of the `grow_H_cluster` while loop:
visitedness is monotone, labels change only at sites the run visits (to the
cluster index `c`), labels and matrix rows of previously visited sites are
frozen, the stack capacity is preserved, `size` counts the fresh visits, and
with enough fuel the run aborts or drains the stack having visited every
initially stacked site. -/
theorem grow_loop_main (N : ℕ) (p : ℚ) (r : ℕ → ℚ) (lab : Bool) (c : ℕ) :
    ∀ (fuel : ℕ) (st : GrowSt), (∀ v ∈ st.s.sites, v < Nat.pow 2 N) →
      (∀ w, st.visited w = true → (grow_loop N p r lab c fuel st).visited w = true) ∧
      (∀ w, (grow_loop N p r lab c fuel st).labels w ≠ st.labels w →
        (grow_loop N p r lab c fuel st).visited w = true ∧ lab = true ∧
        (grow_loop N p r lab c fuel st).labels w = c) ∧
      (∀ w, st.visited w = true →
        (grow_loop N p r lab c fuel st).labels w = st.labels w) ∧
      (∀ a b, (grow_loop N p r lab c fuel st).H a b ≠ st.H a b →
        st.visited a = false ∧ st.visited b = false) ∧
      (grow_loop N p r lab c fuel st).s.length = st.s.length ∧
      (grow_loop N p r lab c fuel st).size + countVisited (Nat.pow 2 N) st.visited =
        st.size + countVisited (Nat.pow 2 N) (grow_loop N p r lab c fuel st).visited ∧
      ((N + 1) * (Nat.pow 2 N - countVisited (Nat.pow 2 N) st.visited) +
          st.s.sites.length + 1 ≤ fuel →
        (grow_loop N p r lab c fuel st).aborted = true ∨
        ((grow_loop N p r lab c fuel st).s.sites = [] ∧
          ∀ v ∈ st.s.sites, (grow_loop N p r lab c fuel st).visited v = true)) ∧
      (∀ w, (grow_loop N p r lab c fuel st).visited w = true →
        st.visited w = false → lab = true →
        (grow_loop N p r lab c fuel st).labels w = c) := by
  intro fuel
  induction fuel with
  | zero =>
    intro st _
    rw [grow_loop_zero]
    exact ⟨fun _ h => h, fun _ h => absurd rfl h, fun _ _ => rfl,
      fun _ _ h => absurd rfl h, rfl, rfl, fun hm => absurd hm (by omega),
      fun w h1 h2 _ => (absurd h1 (by rw [h2]; exact Bool.false_ne_true))⟩
  | succ n ih =>
    intro st hlt
    by_cases hab : st.aborted = true
    · rw [grow_loop_aborted N p r lab c (n + 1) st hab]
      exact ⟨fun _ h => h, fun _ h => absurd rfl h, fun _ _ => rfl,
        fun _ _ h => absurd rfl h, rfl, rfl, fun _ => Or.inl hab,
        fun w h1 h2 _ => (absurd h1 (by rw [h2]; exact Bool.false_ne_true))⟩
    · have hab2 : st.aborted = false := by
        cases he : st.aborted
        · rfl
        · exact absurd he hab
      cases hs : st.s.sites with
      | nil =>
        rw [grow_loop_empty_stack N p r lab c (n + 1) st hs]
        refine ⟨fun _ h => h, fun _ h => absurd rfl h, fun _ _ => rfl,
          fun _ _ h => absurd rfl h, rfl, rfl, fun _ => Or.inr ⟨hs, ?_⟩,
          fun w h1 h2 _ => (absurd h1 (by rw [h2]; exact Bool.false_ne_true))⟩
        intro v hv
        cases hv
      | cons u t =>
        have hu : u < Nat.pow 2 N := hlt u (by rw [hs]; exact List.mem_cons_self u t)
        have hst : st.s.sites.length = t.length + 1 := by
          rw [hs]
          rfl
        by_cases hv : st.visited u = true
        · rw [grow_loop_discard N p r lab c n u t st hab2 hs hv]
          obtain ⟨v1, v2, v3, v4, v5, v6, v7, v8⟩ := ih { st with s := ⟨t, st.s.length⟩ }
            (fun v hv2 => hlt v (by rw [hs]; exact List.mem_cons_of_mem u hv2))
          refine ⟨v1, v2, v3, v4, v5, v6, ?_, v8⟩
          intro hm
          have hlen2 : (u :: t).length = t.length + 1 := List.length_cons u t
          rcases v7 (by
            show (N + 1) * (Nat.pow 2 N - countVisited (Nat.pow 2 N) st.visited) +
              t.length + 1 ≤ n
            omega) with h8 | ⟨h8, h9⟩
          · exact Or.inl h8
          · refine Or.inr ⟨h8, ?_⟩
            intro v hv2
            rcases List.mem_cons.mp hv2 with rfl | hv3
            · exact v1 v hv
            · exact h9 v hv3
        · have hv2 : st.visited u = false := by
            cases he : st.visited u
            · rfl
            · exact absurd he hv
          rw [grow_loop_fresh N p r lab c n u t st hab2 hs hv2]
          obtain ⟨e1, e2, e3, e4, e5, news, e6, e7, e8⟩ :=
            grow_nbrs_spec p r u (List.range N)
              { st with s := ⟨t, st.s.length⟩, visited := updN st.visited u true,
                        labels := if lab then updN st.labels u c else st.labels,
                        size := st.size + 1 }
          have hltM : ∀ v ∈ (grow_nbrs p r u (List.range N)
              { st with s := ⟨t, st.s.length⟩, visited := updN st.visited u true,
                        labels := if lab then updN st.labels u c else st.labels,
                        size := st.size + 1 }).s.sites, v < Nat.pow 2 N := by
            intro v hv3
            rw [e6] at hv3
            rcases List.mem_append.mp hv3 with h5 | h5
            · obtain ⟨j, hj, he⟩ := e8 v h5
              exact he ▸ shiftXor_lt u j N hu (List.mem_range.mp hj)
            · exact hlt v (by rw [hs]; exact List.mem_cons_of_mem u h5)
          obtain ⟨v1, v2, v3, v4, v5, v6, v7, v8⟩ := ih _ hltM
          have hMvis : (grow_nbrs p r u (List.range N)
              { st with s := ⟨t, st.s.length⟩, visited := updN st.visited u true,
                        labels := if lab then updN st.labels u c else st.labels,
                        size := st.size + 1 }).visited = updN st.visited u true := by
            rw [e1]
          have hMlab : (grow_nbrs p r u (List.range N)
              { st with s := ⟨t, st.s.length⟩, visited := updN st.visited u true,
                        labels := if lab then updN st.labels u c else st.labels,
                        size := st.size + 1 }).labels =
              (if lab then updN st.labels u c else st.labels) := by
            rw [e2]
          have hMsz : (grow_nbrs p r u (List.range N)
              { st with s := ⟨t, st.s.length⟩, visited := updN st.visited u true,
                        labels := if lab then updN st.labels u c else st.labels,
                        size := st.size + 1 }).size = st.size + 1 := by
            rw [e3]
          refine ⟨?_, ?_, ?_, ?_, ?_, ?_, ?_, ?_⟩
          · intro w hw
            apply v1
            rw [hMvis]
            by_cases hwu : w = u
            · rw [hwu, updN_same]
            · rw [updN_other _ _ _ _ hwu]
              exact hw
          · intro w hw
            by_cases hmid : (grow_loop N p r lab c n (grow_nbrs p r u (List.range N)
                { st with s := ⟨t, st.s.length⟩, visited := updN st.visited u true,
                          labels := if lab then updN st.labels u c else st.labels,
                          size := st.size + 1 })).labels w =
                (grow_nbrs p r u (List.range N)
                  { st with s := ⟨t, st.s.length⟩, visited := updN st.visited u true,
                            labels := if lab then updN st.labels u c else st.labels,
                            size := st.size + 1 }).labels w
            · rw [hmid, hMlab] at hw
              rw [hmid, hMlab]
              cases lab
              · simp only [Bool.false_eq_true, if_false] at hw
                exact absurd rfl hw
              · simp only [if_true] at hw ⊢
                by_cases hwu : w = u
                · subst hwu
                  refine ⟨?_, by trivial, by rw [updN_same]⟩
                  apply v1
                  rw [hMvis, updN_same]
                · rw [updN_other _ _ _ _ hwu] at hw
                  exact absurd rfl hw
            · exact v2 w hmid
          · intro w hw
            have hwu : w ≠ u := by
              intro he
              rw [he, hv2] at hw
              cases hw
            have h5 := v3 w (by
              rw [hMvis]
              rw [updN_other _ _ _ _ hwu]
              exact hw)
            rw [h5, hMlab]
            cases lab
            · rfl
            · simp only [if_true]
              exact updN_other _ _ _ _ hwu
          · intro a b hw
            by_cases hmid : (grow_loop N p r lab c n (grow_nbrs p r u (List.range N)
                { st with s := ⟨t, st.s.length⟩, visited := updN st.visited u true,
                          labels := if lab then updN st.labels u c else st.labels,
                          size := st.size + 1 })).H a b =
                (grow_nbrs p r u (List.range N)
                  { st with s := ⟨t, st.s.length⟩, visited := updN st.visited u true,
                            labels := if lab then updN st.labels u c else st.labels,
                            size := st.size + 1 }).H a b
            · rw [hmid] at hw
              rcases grow_nbrs_H p r u (List.range N) _ a b hw with ⟨ha, hb⟩ | ⟨ha, hb⟩
              · dsimp only at hb
                refine ⟨?_, ?_⟩
                · rw [ha]
                  exact hv2
                · have hbu : b ≠ u := by
                    intro he
                    rw [he, updN_same] at hb
                    cases hb
                  rw [updN_other _ _ _ _ hbu] at hb
                  exact hb
              · dsimp only at hb
                refine ⟨?_, ?_⟩
                · have hau : a ≠ u := by
                    intro he
                    rw [he, updN_same] at hb
                    cases hb
                  rw [updN_other _ _ _ _ hau] at hb
                  exact hb
                · rw [ha]
                  exact hv2
            · have h5 := v4 a b hmid
              rw [hMvis] at h5
              have ha2 : a ≠ u := by
                intro he
                rw [he, updN_same] at h5
                cases h5.1
              have hb2 : b ≠ u := by
                intro he
                rw [he, updN_same] at h5
                cases h5.2
              rw [updN_other _ _ _ _ ha2, updN_other _ _ _ _ hb2] at h5
              exact h5
          · rw [v5, e5]
          · have b2 : countVisited (Nat.pow 2 N) (grow_nbrs p r u (List.range N)
                { st with s := ⟨t, st.s.length⟩, visited := updN st.visited u true,
                          labels := if lab then updN st.labels u c else st.labels,
                          size := st.size + 1 }).visited =
                countVisited (Nat.pow 2 N) st.visited + 1 := by
              rw [hMvis]
              exact countVisited_updN_true (Nat.pow 2 N) u st.visited hu hv2
            omega
          · intro hm
            have hcount : countVisited (Nat.pow 2 N) (updN st.visited u true) =
                countVisited (Nat.pow 2 N) st.visited + 1 :=
              countVisited_updN_true (Nat.pow 2 N) u st.visited hu hv2
            have hcd : countVisited (Nat.pow 2 N) st.visited < Nat.pow 2 N :=
              countVisited_lt (Nat.pow 2 N) u st.visited hu hv2
            have hcount2 : countVisited (Nat.pow 2 N) ((grow_nbrs p r u (List.range N)
                { st with s := ⟨t, st.s.length⟩, visited := updN st.visited u true,
                          labels := if lab then updN st.labels u c else st.labels,
                          size := st.size + 1 }).visited) =
                countVisited (Nat.pow 2 N) st.visited + 1 := by
              rw [hMvis]
              exact hcount
            have hq1 : (grow_nbrs p r u (List.range N)
                { st with s := ⟨t, st.s.length⟩, visited := updN st.visited u true,
                          labels := if lab then updN st.labels u c else st.labels,
                          size := st.size + 1 }).s.sites.length =
                news.length + t.length := by
              rw [e6, List.length_append]
            have e9 : news.length ≤ N := by
              have h9 := List.length_range N
              omega
            have hkey : (N + 1) * (Nat.pow 2 N - countVisited (Nat.pow 2 N) st.visited) =
                (N + 1) * (Nat.pow 2 N - (countVisited (Nat.pow 2 N) st.visited + 1)) +
                  (N + 1) := by
              have h9 : Nat.pow 2 N - countVisited (Nat.pow 2 N) st.visited =
                  (Nat.pow 2 N - (countVisited (Nat.pow 2 N) st.visited + 1)) + 1 := by
                omega
              rw [h9, Nat.mul_add, Nat.mul_one]
            have hlen2 : (u :: t).length = t.length + 1 := List.length_cons u t
            rcases v7 (by rw [hcount2, hq1]; omega) with h8 | ⟨h8, h9⟩
            · exact Or.inl h8
            · refine Or.inr ⟨h8, ?_⟩
              intro v hv3
              rcases List.mem_cons.mp hv3 with rfl | hv4
              · apply v1
                rw [hMvis, updN_same]
              · apply h9
                rw [e6]
                apply List.mem_append.mpr
                exact Or.inr hv4
          · intro w h1 h2 hlab
            by_cases hwu : w = u
            · by_cases hmid : (grow_loop N p r lab c n (grow_nbrs p r u (List.range N) { st with s := ⟨t, st.s.length⟩, visited := updN st.visited u true, labels := if lab then updN st.labels u c else st.labels, size := st.size + 1 })).labels w = (grow_nbrs p r u (List.range N) { st with s := ⟨t, st.s.length⟩, visited := updN st.visited u true, labels := if lab then updN st.labels u c else st.labels, size := st.size + 1 }).labels w
              · rw [hmid, hMlab, hlab]
                simp only [if_true]
                rw [hwu]
                exact updN_same _ _ _
              · exact (v2 w hmid).2.2
            · exact v8 w h1 (by
                rw [hMvis]
                rw [updN_other _ _ _ _ hwu]
                exact h2) hlab

/-- Everything the LC driver needs to know about one `grow_H_cluster` call
entered with an empty stack of capacity `2^N` and an unvisited seed. -/
theorem grow_seed_run (N : ℕ) (p : ℚ) (r : ℕ → ℚ) (lab : Bool) (c : ℕ)
    (s : stack) (vis : ℕ → Bool) (lbs : ℕ → ℕ) (H : ℕ → ℕ → ℕ) (site k0 : ℕ)
    (errF : Bool) (hss : s.sites = []) (hlen : s.length = Nat.pow 2 N)
    (hsite : site < Nat.pow 2 N) :
    (∀ w, vis w = true → (grow_H_cluster N p r lab c s vis lbs H site k0 errF).visited w = true) ∧
    (∀ w, (grow_H_cluster N p r lab c s vis lbs H site k0 errF).labels w ≠ lbs w →
      (grow_H_cluster N p r lab c s vis lbs H site k0 errF).visited w = true ∧ lab = true ∧ (grow_H_cluster N p r lab c s vis lbs H site k0 errF).labels w = c) ∧
    (∀ w, vis w = true → (grow_H_cluster N p r lab c s vis lbs H site k0 errF).labels w = lbs w) ∧
    (∀ a b, (grow_H_cluster N p r lab c s vis lbs H site k0 errF).H a b ≠ H a b → vis a = false ∧ vis b = false) ∧
    (grow_H_cluster N p r lab c s vis lbs H site k0 errF).s.length = Nat.pow 2 N ∧
    (grow_H_cluster N p r lab c s vis lbs H site k0 errF).size + countVisited (Nat.pow 2 N) vis =
      countVisited (Nat.pow 2 N) (grow_H_cluster N p r lab c s vis lbs H site k0 errF).visited ∧
    ((grow_H_cluster N p r lab c s vis lbs H site k0 errF).aborted = true ∨
      ((grow_H_cluster N p r lab c s vis lbs H site k0 errF).s.sites = [] ∧ (grow_H_cluster N p r lab c s vis lbs H site k0 errF).visited site = true)) ∧
    (vis site = false → (grow_H_cluster N p r lab c s vis lbs H site k0 errF).aborted = false →
      countVisited (Nat.pow 2 N) vis + 1 ≤ countVisited (Nat.pow 2 N) (grow_H_cluster N p r lab c s vis lbs H site k0 errF).visited) ∧
    (∀ w, (grow_H_cluster N p r lab c s vis lbs H site k0 errF).visited w = true → vis w = false → lab = true →
      (grow_H_cluster N p r lab c s vis lbs H site k0 errF).labels w = c) := by
  obtain ⟨sites, len⟩ := s
  simp only at hss hlen
  subst hss
  subst hlen
  have hrun : grow_H_cluster N p r lab c ⟨[], Nat.pow 2 N⟩ vis lbs H site k0 errF =
      grow_loop N p r lab c (dfsFuel N)
        ⟨⟨[site], Nat.pow 2 N⟩, vis, lbs, H, 0, k0, errF, false⟩ := by
    show (if (([] : List ℕ).length ≠ 0) then _ else _) = _
    rw [if_neg (by simp)]
    have hpush : push (⟨[], Nat.pow 2 N⟩ : stack) site =
        (⟨[site], Nat.pow 2 N⟩, 0) := by
      show (if Nat.pow 2 N ≤ ([] : List ℕ).length then _ else _) = _
      rw [if_neg (by simp [pow2_pos N])]
    show grow_loop N p r lab c (dfsFuel N)
      ⟨(push (⟨[], Nat.pow 2 N⟩ : stack) site).1, vis, lbs, H, 0, k0, errF, false⟩ = _
    rw [hpush]
  rw [hrun]
  obtain ⟨v1, v2, v3, v4, v5, v6, v7, v8⟩ := grow_loop_main N p r lab c (dfsFuel N)
    (⟨⟨[site], Nat.pow 2 N⟩, vis, lbs, H, 0, k0, errF, false⟩ : GrowSt)
    (fun v hv => by
      have h9 : v = site := List.mem_singleton.mp hv
      rw [h9]
      exact hsite)
  have hfuel : (N + 1) * (Nat.pow 2 N - countVisited (Nat.pow 2 N) vis) +
      ([site] : List ℕ).length + 1 ≤ dfsFuel N := by
    have h9 : Nat.pow 2 N - countVisited (Nat.pow 2 N) vis ≤ Nat.pow 2 N :=
      Nat.sub_le _ _
    have h10 : (N + 1) * (Nat.pow 2 N - countVisited (Nat.pow 2 N) vis) ≤
        (N + 1) * Nat.pow 2 N := Nat.mul_le_mul_left (N + 1) h9
    have h11 : dfsFuel N = (N + 1) * Nat.pow 2 N + 2 := rfl
    simp only [List.length_singleton]
    omega
  refine ⟨v1, v2, v3, v4, v5, ?_, ?_, ?_, fun w h1 h2 h3 => v8 w h1 h2 h3⟩
  · have h9 := v6
    have e0 : countVisited (Nat.pow 2 N)
        ((⟨⟨[site], Nat.pow 2 N⟩, vis, lbs, H, 0, k0, errF, false⟩ : GrowSt)).visited =
        countVisited (Nat.pow 2 N) vis := rfl
    have e1 : ((⟨⟨[site], Nat.pow 2 N⟩, vis, lbs, H, 0, k0, errF, false⟩ : GrowSt)).size
        = 0 := rfl
    omega
  · rcases v7 hfuel with h8 | ⟨h8, h9⟩
    · exact Or.inl h8
    · exact Or.inr ⟨h8, h9 site (List.mem_singleton.mpr rfl)⟩
  · intro hvs hnab
    rcases v7 hfuel with h8 | ⟨h8, h9⟩
    · rw [h8] at hnab
      cases hnab
    · have h10 := h9 site (List.mem_singleton.mpr rfl)
      exact countVisited_mono_strict (Nat.pow 2 N) vis _ site
        (fun w hw => v1 w hw) hsite hvs h10
theorem pow2_lt_UMAX (N : ℕ) (hN : N < 64) : Nat.pow 2 N < UMAX := by
  have h1 : Nat.pow 2 N ≤ Nat.pow 2 63 := Nat.pow_le_pow_right (by omega) (by omega)
  have h2 : Nat.pow 2 63 < UMAX := by decide
  omega

/-- Mid-growth shape of the nonzero entries of the matrix being built by a
labelling `grow_H_cluster` run with cluster index `c`: either both endpoints
are already labelled with the same cluster, or one endpoint is labelled `c`
and the other is a pending (unvisited, stacked) site of the current cluster. -/
def GCInv (c : ℕ) (st : GrowSt) : Prop :=
  ∀ a b, st.H a b ≠ 0 →
    (st.labels a ≠ UMAX ∧ st.labels b ≠ UMAX ∧ st.labels a = st.labels b) ∨
    (st.labels a ≠ UMAX ∧ st.labels a = c ∧ st.visited b = false ∧ b ∈ st.s.sites) ∨
    (st.labels b ≠ UMAX ∧ st.labels b = c ∧ st.visited a = false ∧ a ∈ st.s.sites)

theorem setM_pair_val (H : ℕ → ℕ → ℕ) (u v x a b : ℕ) :
    ((a = u ∧ b = v) ∧ setM (setM H u v x) v u x a b = x) ∨
    ((a = v ∧ b = u) ∧ setM (setM H u v x) v u x a b = x) ∨
    (setM (setM H u v x) v u x a b = H a b) := by
  by_cases h1 : a = v ∧ b = u
  · refine Or.inr (Or.inl ⟨h1, ?_⟩)
    rw [setM_read, if_pos h1]
  · by_cases h2 : a = u ∧ b = v
    · refine Or.inl ⟨h2, ?_⟩
      rw [setM_read, if_neg h1, setM_read, if_pos h2]
    · refine Or.inr (Or.inr ?_)
      rw [setM_read, if_neg h1, setM_read, if_neg h2]

theorem grow_nbrs_GC (p : ℚ) (r : ℕ → ℚ) (u c : ℕ) :
    ∀ (l : List ℕ) (st : GrowSt), st.labels u ≠ UMAX → st.labels u = c →
      GCInv c st → GCInv c (grow_nbrs p r u l st) := by
  intro l
  induction l with
  | nil =>
    intro st _ _ hgc
    exact hgc
  | cons i t ih =>
    intro st hlu hluc hgc
    cases hv : st.visited (u ^^^ 1 <<< i) with
    | true =>
      rw [grow_nbrs_visited p r u i t st hv]
      exact ih st hlu hluc hgc
    | false =>
      by_cases hd : r st.k < p
      · by_cases hcap : st.s.sites.length < st.s.length
        · rw [grow_nbrs_push p r u i t st hv hd hcap]
          refine ih _ hlu hluc ?_
          intro a b hab
          dsimp only at hab ⊢
          rcases setM_pair_val st.H u (u ^^^ 1 <<< i) 1 a b with
            ⟨⟨ha, hb⟩, he⟩ | ⟨⟨ha, hb⟩, he⟩ | he
          · refine Or.inr (Or.inl ?_)
            rw [ha, hb]
            exact ⟨hlu, hluc, hv, List.mem_cons_self _ _⟩
          · refine Or.inr (Or.inr ?_)
            rw [ha, hb]
            exact ⟨hlu, hluc, hv, List.mem_cons_self _ _⟩
          · rw [he] at hab
            rcases hgc a b hab with h1 | ⟨h1, h2, h3, h4⟩ | ⟨h1, h2, h3, h4⟩
            · exact Or.inl h1
            · exact Or.inr (Or.inl ⟨h1, h2, h3, List.mem_cons_of_mem _ h4⟩)
            · exact Or.inr (Or.inr ⟨h1, h2, h3, List.mem_cons_of_mem _ h4⟩)
        · rw [grow_nbrs_overflow p r u i t st hv hd (by omega)]
          intro a b hab
          exact hgc a b hab
      · rw [grow_nbrs_nodraw p r u i t st hv hd]
        refine ih _ hlu hluc ?_
        intro a b hab
        dsimp only at hab ⊢
        rcases setM_pair_val st.H u (u ^^^ 1 <<< i) 0 a b with
          ⟨⟨ha, hb⟩, he⟩ | ⟨⟨ha, hb⟩, he⟩ | he
        · rw [he] at hab
          exact absurd rfl hab
        · rw [he] at hab
          exact absurd rfl hab
        · rw [he] at hab
          exact hgc a b hab

theorem grow_loop_GC (N : ℕ) (p : ℚ) (r : ℕ → ℚ) (c : ℕ) :
    ∀ (fuel : ℕ) (st : GrowSt), c ≠ UMAX →
      GCInv c st → (∀ v, st.labels v ≠ UMAX → st.visited v = true) →
      GCInv c (grow_loop N p r true c fuel st) ∧
      (∀ v, (grow_loop N p r true c fuel st).labels v ≠ UMAX →
        (grow_loop N p r true c fuel st).visited v = true) := by
  intro fuel
  induction fuel with
  | zero =>
    intro st _ hgc hlv
    rw [grow_loop_zero]
    exact ⟨hgc, hlv⟩
  | succ n ih =>
    intro st hc hgc hlv
    by_cases hab : st.aborted = true
    · rw [grow_loop_aborted N p r true c (n + 1) st hab]
      exact ⟨hgc, hlv⟩
    · have hab2 : st.aborted = false := by
        cases he : st.aborted
        · rfl
        · exact absurd he hab
      cases hs : st.s.sites with
      | nil =>
        rw [grow_loop_empty_stack N p r true c (n + 1) st hs]
        exact ⟨hgc, hlv⟩
      | cons u t =>
        by_cases hv : st.visited u = true
        · rw [grow_loop_discard N p r true c n u t st hab2 hs hv]
          refine ih _ hc ?_ hlv
          intro a b hab3
          dsimp only at hab3 ⊢
          rcases hgc a b hab3 with h1 | ⟨h1, h2, h3, h4⟩ | ⟨h1, h2, h3, h4⟩
          · exact Or.inl h1
          · refine Or.inr (Or.inl ⟨h1, h2, h3, ?_⟩)
            rw [hs] at h4
            rcases List.mem_cons.mp h4 with rfl | h5
            · rw [hv] at h3
              cases h3
            · exact h5
          · refine Or.inr (Or.inr ⟨h1, h2, h3, ?_⟩)
            rw [hs] at h4
            rcases List.mem_cons.mp h4 with rfl | h5
            · rw [hv] at h3
              cases h3
            · exact h5
        · have hv2 : st.visited u = false := by
            cases he : st.visited u
            · rfl
            · exact absurd he hv
          rw [grow_loop_fresh N p r true c n u t st hab2 hs hv2]
          have hnu : ∀ a, st.labels a ≠ UMAX → a ≠ u := by
            intro a h1 he
            have h5 := hlv a h1
            rw [he] at h5
            rw [hv2] at h5
            cases h5
          have hgcM : GCInv c { st with s := ⟨t, st.s.length⟩, visited := updN st.visited u true, labels := if true then updN st.labels u c else st.labels, size := st.size + 1 } := by
            intro a b hab3
            dsimp only at hab3 ⊢
            simp only [if_true]
            rcases hgc a b hab3 with ⟨h1, h2, h3⟩ | ⟨h1, h2, h3, h4⟩ | ⟨h1, h2, h3, h4⟩
            · have hau := hnu a h1
              have hbu := hnu b h2
              refine Or.inl ⟨?_, ?_, ?_⟩
              · rw [updN_other _ _ _ _ hau]
                exact h1
              · rw [updN_other _ _ _ _ hbu]
                exact h2
              · rw [updN_other _ _ _ _ hau, updN_other _ _ _ _ hbu]
                exact h3
            · have hau := hnu a h1
              by_cases hbu : b = u
              · refine Or.inl ⟨?_, ?_, ?_⟩
                · rw [updN_other _ _ _ _ hau]
                  exact h1
                · rw [hbu, updN_same]
                  exact hc
                · rw [updN_other _ _ _ _ hau, hbu, updN_same]
                  exact h2
              · refine Or.inr (Or.inl ⟨?_, ?_, ?_, ?_⟩)
                · rw [updN_other _ _ _ _ hau]
                  exact h1
                · rw [updN_other _ _ _ _ hau]
                  exact h2
                · rw [updN_other _ _ _ _ hbu]
                  exact h3
                · rw [hs] at h4
                  rcases List.mem_cons.mp h4 with he | h5
                  · exact absurd he hbu
                  · exact h5
            · have hbu := hnu b h1
              by_cases hau : a = u
              · refine Or.inl ⟨?_, ?_, ?_⟩
                · rw [hau, updN_same]
                  exact hc
                · rw [updN_other _ _ _ _ hbu]
                  exact h1
                · rw [updN_other _ _ _ _ hbu, hau, updN_same]
                  exact h2.symm
              · refine Or.inr (Or.inr ⟨?_, ?_, ?_, ?_⟩)
                · rw [updN_other _ _ _ _ hbu]
                  exact h1
                · rw [updN_other _ _ _ _ hbu]
                  exact h2
                · rw [updN_other _ _ _ _ hau]
                  exact h3
                · rw [hs] at h4
                  rcases List.mem_cons.mp h4 with he | h5
                  · exact absurd he hau
                  · exact h5
          have hlvM : ∀ v, ({ st with s := ⟨t, st.s.length⟩, visited := updN st.visited u true, labels := if true then updN st.labels u c else st.labels, size := st.size + 1 } : GrowSt).labels v ≠ UMAX →
              ({ st with s := ⟨t, st.s.length⟩, visited := updN st.visited u true, labels := if true then updN st.labels u c else st.labels, size := st.size + 1 } : GrowSt).visited v = true := by
            intro v h1
            dsimp only at h1 ⊢
            simp only [if_true] at h1
            by_cases hvu : v = u
            · rw [hvu, updN_same]
            · rw [updN_other _ _ _ _ hvu] at h1
              rw [updN_other _ _ _ _ hvu]
              exact hlv v h1
          have hlu : ({ st with s := ⟨t, st.s.length⟩, visited := updN st.visited u true, labels := if true then updN st.labels u c else st.labels, size := st.size + 1 } : GrowSt).labels u ≠ UMAX := by
            dsimp only
            simp only [if_true]
            rw [updN_same]
            exact hc
          have hluc : ({ st with s := ⟨t, st.s.length⟩, visited := updN st.visited u true, labels := if true then updN st.labels u c else st.labels, size := st.size + 1 } : GrowSt).labels u = c := by
            dsimp only
            simp only [if_true]
            exact updN_same _ _ _
          obtain ⟨e1, e2, e3, e4, e5, news, e6, e7, e8⟩ :=
            grow_nbrs_spec p r u (List.range N) { st with s := ⟨t, st.s.length⟩, visited := updN st.visited u true, labels := if true then updN st.labels u c else st.labels, size := st.size + 1 }
          have hgcN := grow_nbrs_GC p r u c (List.range N) { st with s := ⟨t, st.s.length⟩, visited := updN st.visited u true, labels := if true then updN st.labels u c else st.labels, size := st.size + 1 } hlu hluc hgcM
          have hlvN : ∀ v, (grow_nbrs p r u (List.range N) { st with s := ⟨t, st.s.length⟩, visited := updN st.visited u true, labels := if true then updN st.labels u c else st.labels, size := st.size + 1 }).labels v ≠ UMAX →
              (grow_nbrs p r u (List.range N) { st with s := ⟨t, st.s.length⟩, visited := updN st.visited u true, labels := if true then updN st.labels u c else st.labels, size := st.size + 1 }).visited v = true := by
            intro v h1
            rw [e2] at h1
            rw [e1]
            exact hlvM v h1
          exact ih _ hc hgcN hlvN
/-- A completed labelling growth keeps the cross-cluster-zero property: every
nonzero matrix entry joins two sites carrying the same (assigned) label. -/
theorem grow_seed_GC (N : ℕ) (p : ℚ) (r : ℕ → ℚ) (c : ℕ) (s : stack)
    (vis : ℕ → Bool) (lbs : ℕ → ℕ) (H : ℕ → ℕ → ℕ) (site k0 : ℕ) (errF : Bool)
    (hss : s.sites = []) (hlen : s.length = Nat.pow 2 N)
    (hsite : site < Nat.pow 2 N) (hc : c ≠ UMAX)
    (hcross : ∀ a b, H a b ≠ 0 → lbs a ≠ UMAX ∧ lbs b ≠ UMAX ∧ lbs a = lbs b)
    (hlabs : ∀ v, lbs v ≠ UMAX → vis v = true) :
    (grow_H_cluster N p r true c s vis lbs H site k0 errF).aborted = false →
    ∀ a b, (grow_H_cluster N p r true c s vis lbs H site k0 errF).H a b ≠ 0 →
      (grow_H_cluster N p r true c s vis lbs H site k0 errF).labels a ≠ UMAX ∧
      (grow_H_cluster N p r true c s vis lbs H site k0 errF).labels b ≠ UMAX ∧
      (grow_H_cluster N p r true c s vis lbs H site k0 errF).labels a =
        (grow_H_cluster N p r true c s vis lbs H site k0 errF).labels b := by
  obtain ⟨sites, len⟩ := s
  simp only at hss hlen
  subst hss
  subst hlen
  have hrun : grow_H_cluster N p r true c ⟨[], Nat.pow 2 N⟩ vis lbs H site k0 errF =
      grow_loop N p r true c (dfsFuel N)
        ⟨⟨[site], Nat.pow 2 N⟩, vis, lbs, H, 0, k0, errF, false⟩ := by
    show (if (([] : List ℕ).length ≠ 0) then _ else _) = _
    rw [if_neg (by simp)]
    have hpush : push (⟨[], Nat.pow 2 N⟩ : stack) site =
        (⟨[site], Nat.pow 2 N⟩, 0) := by
      show (if Nat.pow 2 N ≤ ([] : List ℕ).length then _ else _) = _
      rw [if_neg (by simp [pow2_pos N])]
    show grow_loop N p r true c (dfsFuel N)
      ⟨(push (⟨[], Nat.pow 2 N⟩ : stack) site).1, vis, lbs, H, 0, k0, errF, false⟩ = _
    rw [hpush]
  rw [hrun]
  intro hnab a b hab
  have hgc0 : GCInv c (⟨⟨[site], Nat.pow 2 N⟩, vis, lbs, H, 0, k0, errF, false⟩ : GrowSt) := by
    intro a2 b2 hab2
    exact Or.inl (hcross a2 b2 hab2)
  obtain ⟨hgcF, hlvF⟩ := grow_loop_GC N p r c (dfsFuel N)
    (⟨⟨[site], Nat.pow 2 N⟩, vis, lbs, H, 0, k0, errF, false⟩ : GrowSt) hc hgc0
    (fun v hv => hlabs v hv)
  obtain ⟨v1, v2, v3, v4, v5, v6, v7, v8⟩ := grow_loop_main N p r true c (dfsFuel N)
    (⟨⟨[site], Nat.pow 2 N⟩, vis, lbs, H, 0, k0, errF, false⟩ : GrowSt)
    (fun v hv => by
      have h9 : v = site := List.mem_singleton.mp hv
      rw [h9]
      exact hsite)
  have hfuel : (N + 1) * (Nat.pow 2 N - countVisited (Nat.pow 2 N)
      ((⟨⟨[site], Nat.pow 2 N⟩, vis, lbs, H, 0, k0, errF, false⟩ : GrowSt)).visited) +
      ((⟨⟨[site], Nat.pow 2 N⟩, vis, lbs, H, 0, k0, errF, false⟩ : GrowSt)).s.sites.length
      + 1 ≤ dfsFuel N := by
    show (N + 1) * (Nat.pow 2 N - countVisited (Nat.pow 2 N) vis) +
      ([site] : List ℕ).length + 1 ≤ dfsFuel N
    have h9 : Nat.pow 2 N - countVisited (Nat.pow 2 N) vis ≤ Nat.pow 2 N :=
      Nat.sub_le _ _
    have h10 : (N + 1) * (Nat.pow 2 N - countVisited (Nat.pow 2 N) vis) ≤
        (N + 1) * Nat.pow 2 N := Nat.mul_le_mul_left (N + 1) h9
    have h11 : dfsFuel N = (N + 1) * Nat.pow 2 N + 2 := rfl
    simp only [List.length_singleton]
    omega
  rcases v7 hfuel with h8 | ⟨h8, h9⟩
  · rw [h8] at hnab
    cases hnab
  · rcases hgcF a b hab with h1 | ⟨h1, h2, h3, h4⟩ | ⟨h1, h2, h3, h4⟩
    · exact h1
    · rw [h8] at h4
      cases h4
    · rw [h8] at h4
      cases h4

/-- Invariant of the `hypercube_H_LC` site loop. -/
structure GrowDrv (N : ℕ) (st : LCHSt) : Prop where
  labs : ∀ v, st.g.labels v ≠ UMAX → st.g.visited v = true
  licx : st.largest_cluster_index ≤ st.cluster_index
  cxcnt : st.cluster_index ≤ countVisited (Nat.pow 2 N) st.g.visited
  tot : st.halted = false → st.total_size = countVisited (Nat.pow 2 N) st.g.visited
  sfacts : st.halted = false → st.g.s.sites = [] ∧ st.g.s.length = Nat.pow 2 N
  gab : st.halted = false → st.g.aborted = false
  labs2 : ∀ v, st.g.visited v = true → st.g.labels v ≠ UMAX
  cross : st.g.aborted = false → ∀ a b, st.g.H a b ≠ 0 →
    st.g.labels a ≠ UMAX ∧ st.g.labels b ≠ UMAX ∧
    st.g.labels a = st.g.labels b

/-- Composable frame facts of the `hypercube_H_LC` site loop. -/
structure GStep (st st2 : LCHSt) : Prop where
  vmono : ∀ w, st.g.visited w = true → st2.g.visited w = true
  lfro : ∀ w, st.g.visited w = true → st2.g.labels w = st.g.labels w
  hchg : ∀ a b, st2.g.H a b ≠ st.g.H a b →
    st.g.visited a = false ∧ st.g.visited b = false
  cxmono : st.cluster_index ≤ st2.cluster_index

theorem GStep.reflG (st : LCHSt) : GStep st st :=
  ⟨fun _ h => h, fun _ _ => rfl, fun _ _ h => absurd rfl h, le_refl _⟩

theorem GStep.transG (st1 st2 st3 : LCHSt) (h1 : GStep st1 st2)
    (h2 : GStep st2 st3) : GStep st1 st3 := by
  refine ⟨?_, ?_, ?_, le_trans h1.cxmono h2.cxmono⟩
  · intro w hw
    exact h2.vmono w (h1.vmono w hw)
  · intro w hw
    rw [h2.lfro w (h1.vmono w hw), h1.lfro w hw]
  · intro a b hab
    by_cases hmid : st3.g.H a b = st2.g.H a b
    · rw [hmid] at hab
      exact h1.hchg a b hab
    · have h5 := h2.hchg a b hmid
      constructor
      · cases he : st1.g.visited a
        · rfl
        · rw [h1.vmono a he] at h5
          cases h5.1
      · cases he : st1.g.visited b
        · rfl
        · rw [h1.vmono b he] at h5
          cases h5.2

theorem growLC_site_main (N : ℕ) (p : ℚ) (r : ℕ → ℚ) (NH : ℕ) (ee : Bool)
    (st : LCHSt) (site : ℕ) (hN : N < 64) (hsite : site < Nat.pow 2 N)
    (h : GrowDrv N st) :
    GrowDrv N (growLC_site N p r NH ee st site) ∧
    GStep st (growLC_site N p r NH ee st site) := by
  by_cases hh : st.halted = true
  · unfold growLC_site
    rw [if_pos hh]
    exact ⟨h, GStep.reflG st⟩
  · have hh2 : st.halted = false := by
      cases he : st.halted
      · rfl
      · exact absurd he hh
    by_cases hv : st.g.visited site = true
    · unfold growLC_site
      rw [if_neg hh, if_pos hv]
      exact ⟨h, GStep.reflG st⟩
    · have hv2 : st.g.visited site = false := by
        cases he : st.g.visited site
        · rfl
        · exact absurd he hv
      obtain ⟨hse, hslen⟩ := h.sfacts hh2
      obtain ⟨f1, f2, f3, f4, f5, f6, f7, f8, f9⟩ :=
        grow_seed_run N p r true st.cluster_index st.g.s st.g.visited
          st.g.labels st.g.H site st.g.k st.g.error_flag hse hslen hsite
      have hlabs : ∀ v, (grow_H_cluster N p r true st.cluster_index st.g.s st.g.visited st.g.labels st.g.H site st.g.k st.g.error_flag).labels v ≠ UMAX → (grow_H_cluster N p r true st.cluster_index st.g.s st.g.visited st.g.labels st.g.H site st.g.k st.g.error_flag).visited v = true := by
        intro v hlv
        by_cases hch : (grow_H_cluster N p r true st.cluster_index st.g.s st.g.visited st.g.labels st.g.H site st.g.k st.g.error_flag).labels v = st.g.labels v
        · rw [hch] at hlv
          exact f1 v (h.labs v hlv)
        · exact (f2 v hch).1
      have hcmono : countVisited (Nat.pow 2 N) st.g.visited ≤
          countVisited (Nat.pow 2 N) (grow_H_cluster N p r true st.cluster_index st.g.s st.g.visited st.g.labels st.g.H site st.g.k st.g.error_flag).visited :=
        countVisited_mono (Nat.pow 2 N) _ _ f1
      have hcxne : st.cluster_index ≠ UMAX := by
        have h1 := h.cxcnt
        have h2 := countVisited_le (Nat.pow 2 N) st.g.visited
        have h3 := pow2_lt_UMAX N hN
        omega
      have hlabs2 : ∀ v, (grow_H_cluster N p r true st.cluster_index st.g.s st.g.visited st.g.labels st.g.H site st.g.k st.g.error_flag).visited v = true → (grow_H_cluster N p r true st.cluster_index st.g.s st.g.visited st.g.labels st.g.H site st.g.k st.g.error_flag).labels v ≠ UMAX := by
        intro v hv3
        by_cases hvo : st.g.visited v = true
        · rw [f3 v hvo]
          exact h.labs2 v hvo
        · have hvo2 : st.g.visited v = false := by
            cases he : st.g.visited v
            · rfl
            · exact absurd he hvo
          rw [f9 v hv3 hvo2 rfl]
          exact hcxne
      have hcross1 := grow_seed_GC N p r st.cluster_index st.g.s st.g.visited
        st.g.labels st.g.H site st.g.k st.g.error_flag hse hslen hsite hcxne
        (h.cross (h.gab hh2)) h.labs
      unfold growLC_site
      rw [if_neg hh, if_neg hv]
      cases hga : (grow_H_cluster N p r true st.cluster_index st.g.s st.g.visited st.g.labels st.g.H site st.g.k st.g.error_flag).aborted with
      | true =>
        rw [if_pos hga]
        refine ⟨⟨hlabs, h.licx, ?_, ?_, ?_, ?_, hlabs2, ?_⟩,
          ⟨f1, f3, f4, le_refl _⟩⟩
        · exact le_trans h.cxcnt hcmono
        · intro hhal
          exact Bool.noConfusion hhal
        · intro hhal
          exact Bool.noConfusion hhal
        · intro hhal
          exact Bool.noConfusion hhal
        · intro hab2
          rw [hga] at hab2
          exact Bool.noConfusion hab2
      | false =>
        rw [if_neg (by rw [hga]; exact Bool.false_ne_true)]
        have hstrict := f8 hv2 hga
        have hcx : st.cluster_index + 1 ≤ countVisited (Nat.pow 2 N) (grow_H_cluster N p r true st.cluster_index st.g.s st.g.visited st.g.labels st.g.H site st.g.k st.g.error_flag).visited := by
          have h9 := h.cxcnt
          omega
        have htot2 : st.total_size + (grow_H_cluster N p r true st.cluster_index st.g.s st.g.visited st.g.labels st.g.H site st.g.k st.g.error_flag).size =
            countVisited (Nat.pow 2 N) (grow_H_cluster N p r true st.cluster_index st.g.s st.g.visited st.g.labels st.g.H site st.g.k st.g.error_flag).visited := by
          have h9 := h.tot hh2
          omega
        rcases f7 with h8 | ⟨hge, hgv⟩
        · rw [h8] at hga
          cases hga
        dsimp only
        constructor
        · split
          · split
            · exact ⟨hlabs, Nat.le_succ _, hcx, fun hhal => Bool.noConfusion hhal,
                fun hhal => Bool.noConfusion hhal,
                fun hhal => Bool.noConfusion hhal, hlabs2,
                fun _ => hcross1 hga⟩
            · exact ⟨hlabs, Nat.le_succ _, hcx, fun _ => htot2,
                fun _ => ⟨hge, f5⟩, fun _ => hga, hlabs2,
                fun _ => hcross1 hga⟩
          · split
            · exact ⟨hlabs, le_trans h.licx (Nat.le_succ _), hcx,
                fun hhal => Bool.noConfusion hhal, fun hhal => Bool.noConfusion hhal,
                fun hhal => Bool.noConfusion hhal, hlabs2,
                fun _ => hcross1 hga⟩
            · exact ⟨hlabs, le_trans h.licx (Nat.le_succ _), hcx,
                fun _ => htot2, fun _ => ⟨hge, f5⟩, fun _ => hga, hlabs2,
                fun _ => hcross1 hga⟩
        · split
          · split
            · exact ⟨f1, f3, f4, Nat.le_succ _⟩
            · exact ⟨f1, f3, f4, Nat.le_succ _⟩
          · split
            · exact ⟨f1, f3, f4, Nat.le_succ _⟩
            · exact ⟨f1, f3, f4, Nat.le_succ _⟩

theorem growLC_fold_main (N : ℕ) (p : ℚ) (r : ℕ → ℚ) (NH : ℕ) (ee : Bool)
    (hN : N < 64) :
    ∀ (l : List ℕ) (st : LCHSt), (∀ x ∈ l, x < Nat.pow 2 N) → GrowDrv N st →
      GrowDrv N (l.foldl (growLC_site N p r NH ee) st) ∧
      GStep st (l.foldl (growLC_site N p r NH ee) st) := by
  intro l
  induction l with
  | nil =>
    intro st _ h
    exact ⟨h, GStep.reflG st⟩
  | cons a t ih =>
    intro st hl h
    obtain ⟨h1, h2⟩ := growLC_site_main N p r NH ee st a hN
      (hl a (List.mem_cons_self a t)) h
    obtain ⟨h3, h4⟩ := ih _ (fun x hx => hl x (List.mem_cons_of_mem a hx)) h1
    exact ⟨h3, GStep.transG _ _ _ h2 h4⟩

theorem growLC_run_inv (ee : Bool) (N : ℕ) (p : ℚ) (r : ℕ → ℚ) (hN : N < 64) :
    GrowDrv N (hypercube_H_LC_run ee N p r) := by
  have hinit : GrowDrv N ⟨⟨setup_stack (intpower 2 N), fun _ => false,
      fun _ => UMAX, fun _ _ => 0, 0, 0, false, false⟩, 0, 0, 0, 0, false⟩ := by
    refine ⟨?_, le_refl 0, Nat.zero_le _, ?_, ?_, fun _ => rfl, ?_, ?_⟩
    · intro v hv
      exact absurd rfl hv
    · intro h9
      rw [countVisited_false]
    · intro h9
      exact ⟨rfl, rfl⟩
    · intro v hv
      exact Bool.noConfusion hv
    · intro _ a b hab
      exact absurd rfl hab
  have h2 := growLC_fold_main N p r (intpower 2 N) ee hN
    (List.range (intpower 2 N)) _
    (fun x hx => by
      have h3 := List.mem_range.mp hx
      show x < Nat.pow 2 N
      exact h3) hinit
  exact h2.1

/-- Claim C9: in both largest-cluster drivers every label entry starts at the
unassigned sentinel `ULONG_MAX` and is written only when some traversal visits
its site; consequently a site never reached keeps the sentinel, is not
attributed to cluster index 0 nor to the largest cluster, and fails the
copy-out guard `labels[i] == largest_cluster_index`. -/
theorem C9_sentinel_labels (ee : Bool) (N : ℕ) (p : ℚ) (r : ℕ → ℚ)
    (hN : N < 64) (v : ℕ) :
    ((hypercube_dijkstra_LC_run ee N p r).d.visited v = false →
      (hypercube_dijkstra_LC_run ee N p r).d.labels v = UMAX ∧
      (hypercube_dijkstra_LC_run ee N p r).d.labels v ≠ 0 ∧
      (hypercube_dijkstra_LC_run ee N p r).d.labels v ≠
        (hypercube_dijkstra_LC_run ee N p r).largest_cluster_index ∧
      ((hypercube_dijkstra_LC_run ee N p r).d.labels v ==
        (hypercube_dijkstra_LC_run ee N p r).largest_cluster_index) = false) ∧
    ((hypercube_H_LC_run ee N p r).g.visited v = false →
      (hypercube_H_LC_run ee N p r).g.labels v = UMAX ∧
      (hypercube_H_LC_run ee N p r).g.labels v ≠ 0 ∧
      (hypercube_H_LC_run ee N p r).g.labels v ≠
        (hypercube_H_LC_run ee N p r).largest_cluster_index) := by
  have hd := dijLC_run_inv ee N p r hN
  have hg := growLC_run_inv ee N p r hN
  have hUM : Nat.pow 2 N < UMAX := pow2_lt_UMAX N hN
  have hp1 : 0 < Nat.pow 2 N := pow2_pos N
  constructor
  · intro hv
    have hl : (hypercube_dijkstra_LC_run ee N p r).d.labels v = UMAX := by
      by_contra hne
      rw [hd.labs v hne] at hv
      cases hv
    have hli : (hypercube_dijkstra_LC_run ee N p r).largest_cluster_index <
        UMAX := by
      have h1 := hd.licx
      have h2 := hd.cxcnt
      have h3 := countVisited_le (Nat.pow 2 N)
        (hypercube_dijkstra_LC_run ee N p r).d.visited
      omega
    refine ⟨hl, ?_, ?_, ?_⟩
    · rw [hl]
      omega
    · rw [hl]
      omega
    · rw [hl]
      exact beq_eq_false_iff_ne.mpr (by omega)
  · intro hv
    have hl : (hypercube_H_LC_run ee N p r).g.labels v = UMAX := by
      by_contra hne
      rw [hg.labs v hne] at hv
      cases hv
    have hli : (hypercube_H_LC_run ee N p r).largest_cluster_index < UMAX := by
      have h1 := hg.licx
      have h2 := hg.cxcnt
      have h3 := countVisited_le (Nat.pow 2 N)
        (hypercube_H_LC_run ee N p r).g.visited
      omega
    refine ⟨hl, ?_, ?_⟩
    · rw [hl]
      omega
    · rw [hl]
      omega

theorem C9_sentinel_labels_witness : 2 < 64 ∧
    (((hypercube_dijkstra_LC_run true 2 half (fun _ => half)).d.visited 5 = false →
      (hypercube_dijkstra_LC_run true 2 half (fun _ => half)).d.labels 5 = UMAX ∧
      (hypercube_dijkstra_LC_run true 2 half (fun _ => half)).d.labels 5 ≠ 0 ∧
      (hypercube_dijkstra_LC_run true 2 half (fun _ => half)).d.labels 5 ≠
        (hypercube_dijkstra_LC_run true 2 half (fun _ => half)).largest_cluster_index ∧
      ((hypercube_dijkstra_LC_run true 2 half (fun _ => half)).d.labels 5 ==
        (hypercube_dijkstra_LC_run true 2 half (fun _ => half)).largest_cluster_index) = false) ∧
    ((hypercube_H_LC_run true 2 half (fun _ => half)).g.visited 5 = false →
      (hypercube_H_LC_run true 2 half (fun _ => half)).g.labels 5 = UMAX ∧
      (hypercube_H_LC_run true 2 half (fun _ => half)).g.labels 5 ≠ 0 ∧
      (hypercube_H_LC_run true 2 half (fun _ => half)).g.labels 5 ≠
        (hypercube_H_LC_run true 2 half (fun _ => half)).largest_cluster_index)) :=
  ⟨by decide, C9_sentinel_labels true 2 half (fun _ => half) (by decide) 5⟩
/-! ### Claim C3: symmetry of the constructed matrices -/

theorem setM_pair_sym (H : ℕ → ℕ → ℕ) (u v x : ℕ)
    (hsym : ∀ a b, H a b = H b a) :
    ∀ a b, setM (setM H u v x) v u x a b = setM (setM H u v x) v u x b a := by
  intro a b
  rw [setM_read, setM_read, setM_read, setM_read]
  split_ifs with h1 h2 h3 h4 h5 h6 <;>
    first
    | rfl
    | exact hsym a b
    | (exfalso; tauto)

theorem H_row_sym (p : ℚ) (r : ℕ → ℚ) (row : ℕ) :
    ∀ (l : List ℕ) (Hk : (ℕ → ℕ → ℕ) × ℕ), (∀ a b, Hk.1 a b = Hk.1 b a) →
      ∀ a b, (H_row p r row l Hk).1 a b = (H_row p r row l Hk).1 b a := by
  intro l
  induction l with
  | nil =>
    intro Hk h
    exact h
  | cons i t ih =>
    intro Hk h
    obtain ⟨H, k⟩ := Hk
    simp only [H_row]
    exact ih _ (setM_pair_sym H row (row ^^^ 1 <<< i) _ h)

theorem H_rows_sym (p : ℚ) (r : ℕ → ℚ) (N : ℕ) :
    ∀ (l : List ℕ) (Hk : (ℕ → ℕ → ℕ) × ℕ), (∀ a b, Hk.1 a b = Hk.1 b a) →
      ∀ a b, (H_rows p r N l Hk).1 a b = (H_rows p r N l Hk).1 b a := by
  intro l
  induction l with
  | nil =>
    intro Hk h
    exact h
  | cons row t ih =>
    intro Hk h
    exact ih _ (H_row_sym p r row (List.range N) Hk h)

theorem grow_nbrs_sym (p : ℚ) (r : ℕ → ℚ) (u : ℕ) :
    ∀ (l : List ℕ) (st : GrowSt), (∀ a b, st.H a b = st.H b a) →
      ∀ a b, (grow_nbrs p r u l st).H a b = (grow_nbrs p r u l st).H b a := by
  intro l
  induction l with
  | nil =>
    intro st h
    exact h
  | cons i t ih =>
    intro st h
    cases hv : st.visited (u ^^^ 1 <<< i) with
    | true =>
      rw [grow_nbrs_visited p r u i t st hv]
      exact ih st h
    | false =>
      by_cases hd : r st.k < p
      · by_cases hcap : st.s.sites.length < st.s.length
        · rw [grow_nbrs_push p r u i t st hv hd hcap]
          exact ih _ (setM_pair_sym st.H u (u ^^^ 1 <<< i) 1 h)
        · rw [grow_nbrs_overflow p r u i t st hv hd (by omega)]
          exact h
      · rw [grow_nbrs_nodraw p r u i t st hv hd]
        exact ih _ (setM_pair_sym st.H u (u ^^^ 1 <<< i) 0 h)

theorem grow_loop_sym (N : ℕ) (p : ℚ) (r : ℕ → ℚ) (lab : Bool) (c : ℕ) :
    ∀ (fuel : ℕ) (st : GrowSt), (∀ a b, st.H a b = st.H b a) →
      ∀ a b, (grow_loop N p r lab c fuel st).H a b =
        (grow_loop N p r lab c fuel st).H b a := by
  intro fuel
  induction fuel with
  | zero =>
    intro st h
    exact h
  | succ n ih =>
    intro st h
    by_cases hab : st.aborted = true
    · rw [grow_loop_aborted N p r lab c (n + 1) st hab]
      exact h
    · have hab2 : st.aborted = false := by
        cases he : st.aborted
        · rfl
        · exact absurd he hab
      cases hs : st.s.sites with
      | nil =>
        rw [grow_loop_empty_stack N p r lab c (n + 1) st hs]
        exact h
      | cons u t =>
        by_cases hv : st.visited u = true
        · rw [grow_loop_discard N p r lab c n u t st hab2 hs hv]
          exact ih _ h
        · have hv2 : st.visited u = false := by
            cases he : st.visited u
            · rfl
            · exact absurd he hv
          rw [grow_loop_fresh N p r lab c n u t st hab2 hs hv2]
          exact ih _ (grow_nbrs_sym p r u (List.range N) _ h)

theorem grow_H_cluster_sym (N : ℕ) (p : ℚ) (r : ℕ → ℚ) (lab : Bool) (c : ℕ)
    (s : stack) (vis : ℕ → Bool) (lbs : ℕ → ℕ) (H : ℕ → ℕ → ℕ) (site k0 : ℕ)
    (errF : Bool) (h : ∀ a b, H a b = H b a) :
    ∀ a b, (grow_H_cluster N p r lab c s vis lbs H site k0 errF).H a b =
      (grow_H_cluster N p r lab c s vis lbs H site k0 errF).H b a := by
  unfold grow_H_cluster
  by_cases hne : s.sites.length ≠ 0
  · rw [if_pos hne]
    exact h
  · rw [if_neg hne]
    exact grow_loop_sym N p r lab c (dfsFuel N) _ h

theorem growLC_site_sym (N : ℕ) (p : ℚ) (r : ℕ → ℚ) (NH : ℕ) (ee : Bool)
    (st : LCHSt) (site : ℕ) (h : ∀ a b, st.g.H a b = st.g.H b a) :
    ∀ a b, (growLC_site N p r NH ee st site).g.H a b =
      (growLC_site N p r NH ee st site).g.H b a := by
  unfold growLC_site
  by_cases hh : st.halted = true
  · rw [if_pos hh]
    exact h
  · rw [if_neg hh]
    by_cases hv : st.g.visited site = true
    · rw [if_pos hv]
      exact h
    · rw [if_neg hv]
      dsimp only
      have h2 := grow_H_cluster_sym N p r true st.cluster_index st.g.s
        st.g.visited st.g.labels st.g.H site st.g.k st.g.error_flag h
      split
      · exact h2
      · split
        · split
          · exact h2
          · exact h2
        · split
          · exact h2
          · exact h2

theorem growLC_fold_sym (N : ℕ) (p : ℚ) (r : ℕ → ℚ) (NH : ℕ) (ee : Bool) :
    ∀ (l : List ℕ) (st : LCHSt), (∀ a b, st.g.H a b = st.g.H b a) →
      ∀ a b, (l.foldl (growLC_site N p r NH ee) st).g.H a b =
        (l.foldl (growLC_site N p r NH ee) st).g.H b a := by
  intro l
  induction l with
  | nil =>
    intro st h
    exact h
  | cons a t ih =>
    intro st h
    exact ih _ (growLC_site_sym N p r NH ee st a h)


theorem setM_self (H : ℕ → ℕ → ℕ) (u v : ℕ) : setM H u v (H u v) = H := by
  funext a b
  rw [setM_read]
  by_cases h1 : a = u ∧ b = v
  · rw [if_pos h1, h1.1, h1.2]
  · rw [if_neg h1]

theorem H_LC_copy_inner_spec (i : ℕ) :
    ∀ (l : List ℕ) (H0 L0 : ℕ → ℕ → ℕ),
      (H_LC_copy_inner i l (H0, L0)).1 = H0 ∧
      (∀ a b, (H_LC_copy_inner i l (H0, L0)).2 a b =
        if b = i ∧ a ∈ l then H0 i a else L0 a b) := by
  intro l
  induction l with
  | nil =>
    intro H0 L0
    refine ⟨rfl, ?_⟩
    intro a b
    rw [if_neg (by simp)]
    rfl
  | cons kk rest ih =>
    intro H0 L0
    have hs : H_LC_copy_inner i (kk :: rest) (H0, L0) =
        H_LC_copy_inner i rest (H0, setM L0 kk i (H0 i kk)) := by
      simp only [H_LC_copy_inner]
      rw [setM_self]
    rw [hs]
    obtain ⟨ih1, ih2⟩ := ih H0 (setM L0 kk i (H0 i kk))
    refine ⟨ih1, ?_⟩
    intro a b
    rw [ih2 a b]
    by_cases hb : b = i
    · by_cases har : a ∈ rest
      · rw [if_pos ⟨hb, har⟩, if_pos ⟨hb, List.mem_cons_of_mem kk har⟩]
      · rw [if_neg (fun hc => har hc.2)]
        by_cases hak : a = kk
        · rw [if_pos ⟨hb, by rw [hak]; exact List.mem_cons_self kk rest⟩]
          rw [setM_read, if_pos ⟨hak, hb⟩]
          rw [hak]
        · rw [if_neg (fun hc => (List.mem_cons.mp hc.2).elim
            (fun he => hak he) (fun he => har he))]
          rw [setM_read, if_neg (fun hc => hak hc.1)]
    · rw [if_neg (fun hc => hb hc.1), if_neg (fun hc => hb hc.1)]
      rw [setM_read, if_neg (fun hc => hb hc.2)]

theorem H_LC_copy_spec (NH L : ℕ) (labels : ℕ → ℕ) :
    ∀ (l : List ℕ) (H0 L0 : ℕ → ℕ → ℕ),
      (H_LC_copy NH L labels l (H0, L0)).1 = H0 ∧
      (∀ a b, (H_LC_copy NH L labels l (H0, L0)).2 a b =
        if labels b = L ∧ b ∈ l ∧ a ∈ List.range NH then H0 b a else L0 a b) := by
  intro l
  induction l with
  | nil =>
    intro H0 L0
    refine ⟨rfl, ?_⟩
    intro a b
    rw [if_neg (by simp)]
    rfl
  | cons i rest ih =>
    intro H0 L0
    have hs : H_LC_copy NH L labels (i :: rest) (H0, L0) =
        H_LC_copy NH L labels rest
          (if labels i = L then H_LC_copy_inner i (List.range NH) (H0, L0)
            else (H0, L0)) := rfl
    rw [hs]
    by_cases hl : labels i = L
    · rw [if_pos hl]
      obtain ⟨is1, is2⟩ := H_LC_copy_inner_spec i (List.range NH) H0 L0
      have hpair : H_LC_copy_inner i (List.range NH) (H0, L0) =
          (H0, (H_LC_copy_inner i (List.range NH) (H0, L0)).2) := by
        rw [Prod.ext_iff]
        exact ⟨is1, rfl⟩
      rw [hpair]
      obtain ⟨ih1, ih2⟩ := ih H0 ((H_LC_copy_inner i (List.range NH) (H0, L0)).2)
      refine ⟨ih1, ?_⟩
      intro a b
      rw [ih2 a b]
      by_cases hc1 : labels b = L ∧ b ∈ rest ∧ a ∈ List.range NH
      · rw [if_pos hc1, if_pos ⟨hc1.1, List.mem_cons_of_mem i hc1.2.1, hc1.2.2⟩]
      · rw [if_neg hc1, is2 a b]
        by_cases hc2 : b = i ∧ a ∈ List.range NH
        · rw [if_pos hc2,
            if_pos (⟨(by rw [hc2.1]; exact hl), (by rw [hc2.1]; exact List.mem_cons_self i rest),
              hc2.2⟩ : labels b = L ∧ b ∈ i :: rest ∧ a ∈ List.range NH)]
          rw [hc2.1]
        · rw [if_neg hc2]
          rw [if_neg (fun hc3 => (List.mem_cons.mp hc3.2.1).elim
            (fun he => hc2 ⟨he, hc3.2.2⟩)
            (fun he => hc1 ⟨hc3.1, he, hc3.2.2⟩))]
    · rw [if_neg hl]
      obtain ⟨ih1, ih2⟩ := ih H0 L0
      refine ⟨ih1, ?_⟩
      intro a b
      rw [ih2 a b]
      by_cases hc1 : labels b = L ∧ b ∈ rest ∧ a ∈ List.range NH
      · rw [if_pos hc1, if_pos ⟨hc1.1, List.mem_cons_of_mem i hc1.2.1, hc1.2.2⟩]
      · rw [if_neg hc1]
        rw [if_neg (fun hc3 => (List.mem_cons.mp hc3.2.1).elim
          (fun he => hl ((congrArg labels he).symm.trans hc3.1))
          (fun he => hc1 ⟨hc3.1, he, hc3.2.2⟩))]
/-- Claim C3: every adjacency matrix the program constructs is symmetric: the
full random matrix of `hypercube_H`, the single-cluster matrix of
`hypercube_H_SC`, the working matrix of the `hypercube_H_LC` site loop (for
either early-exit behaviour), and the restricted largest-cluster copy that
`hypercube_H_LC` returns. -/
theorem C3_symmetric (N : ℕ) (p : ℚ) (r : ℕ → ℚ) (hN : N < 64) (a b : ℕ) :
    hypercube_H N p r a b = hypercube_H N p r b a ∧
    (∀ M sz, hypercube_H_SC N p r = some (M, sz) → M a b = M b a) ∧
    (∀ ee, (hypercube_H_LC_run ee N p r).g.H a b =
      (hypercube_H_LC_run ee N p r).g.H b a) ∧
    (∀ M sz, hypercube_H_LC N p r = some (M, sz) → M a b = M b a) := by
  have hrunsym : ∀ ee, ∀ x y, (hypercube_H_LC_run ee N p r).g.H x y =
      (hypercube_H_LC_run ee N p r).g.H y x := by
    intro ee
    exact growLC_fold_sym N p r (intpower 2 N) ee (List.range (intpower 2 N))
      ⟨⟨setup_stack (intpower 2 N), fun _ => false, fun _ => UMAX, fun _ _ => 0,
        0, 0, false, false⟩, 0, 0, 0, 0, false⟩ (fun _ _ => rfl)
  refine ⟨?_, ?_, fun ee => hrunsym ee a b, ?_⟩
  · exact H_rows_sym p r N (List.range (intpower 2 N)) (fun _ _ => 0, 0)
      (fun _ _ => rfl) a b
  · intro M sz hM
    unfold hypercube_H_SC at hM
    cases hga : (grow_H_cluster N p r false 0 (setup_stack (intpower 2 N))
        (fun _ => false) (fun _ => 0) (fun _ _ => 0) 0 0 false).aborted with
    | true =>
      rw [if_pos hga] at hM
      cases hM
    | false =>
      rw [if_neg (by rw [hga]; exact Bool.false_ne_true)] at hM
      have hM2 : (grow_H_cluster N p r false 0 (setup_stack (intpower 2 N))
          (fun _ => false) (fun _ => 0) (fun _ _ => 0) 0 0 false).H = M := by
        have h9 := Option.some.inj hM
        exact congrArg Prod.fst h9
      rw [← hM2]
      exact grow_H_cluster_sym N p r false 0 (setup_stack (intpower 2 N))
        (fun _ => false) (fun _ => 0) (fun _ _ => 0) 0 0 false
        (fun _ _ => rfl) a b
  · intro M sz hM
    unfold hypercube_H_LC at hM
    cases hga : (hypercube_H_LC_run true N p r).g.aborted with
    | true =>
      rw [if_pos hga] at hM
      cases hM
    | false =>
      rw [if_neg (by rw [hga]; exact Bool.false_ne_true)] at hM
      have hM2 : (H_LC_copy (intpower 2 N)
          (hypercube_H_LC_run true N p r).largest_cluster_index
          (hypercube_H_LC_run true N p r).g.labels
          (List.range (intpower 2 N))
          ((hypercube_H_LC_run true N p r).g.H, fun _ _ => 0)).2 = M := by
        have h9 := Option.some.inj hM
        exact congrArg Prod.fst h9
      rw [← hM2]
      obtain ⟨cs1, cs2⟩ := H_LC_copy_spec (intpower 2 N)
        (hypercube_H_LC_run true N p r).largest_cluster_index
        (hypercube_H_LC_run true N p r).g.labels
        (List.range (intpower 2 N))
        (hypercube_H_LC_run true N p r).g.H (fun _ _ => 0)
      rw [cs2 a b, cs2 b a]
      have hdrv := growLC_run_inv true N p r hN
      have hcross := hdrv.cross hga
      by_cases hcb : (hypercube_H_LC_run true N p r).g.labels b =
          (hypercube_H_LC_run true N p r).largest_cluster_index ∧
          b ∈ List.range (intpower 2 N) ∧ a ∈ List.range (intpower 2 N)
      · rw [if_pos hcb]
        by_cases hca : (hypercube_H_LC_run true N p r).g.labels a =
            (hypercube_H_LC_run true N p r).largest_cluster_index ∧
            a ∈ List.range (intpower 2 N) ∧ b ∈ List.range (intpower 2 N)
        · rw [if_pos hca]
          exact hrunsym true b a
        · rw [if_neg hca]
          by_contra hne
          have h5 := hcross b a hne
          exact hca ⟨h5.2.2.symm.trans hcb.1, hcb.2.2, hcb.2.1⟩
      · rw [if_neg hcb]
        by_cases hca : (hypercube_H_LC_run true N p r).g.labels a =
            (hypercube_H_LC_run true N p r).largest_cluster_index ∧
            a ∈ List.range (intpower 2 N) ∧ b ∈ List.range (intpower 2 N)
        · rw [if_pos hca]
          by_contra hne
          have hne2 : (hypercube_H_LC_run true N p r).g.H a b ≠ 0 := by
            intro he
            apply hne
            rw [he]
          have h5 := hcross a b hne2
          exact hcb ⟨h5.2.2.symm.trans hca.1, hca.2.2, hca.2.1⟩
        · rw [if_neg hca]

theorem C3_symmetric_witness : 2 < 64 ∧
    (hypercube_H 2 half (fun _ => half) 0 1 = hypercube_H 2 half (fun _ => half) 1 0 ∧
    (∀ M sz, hypercube_H_SC 2 half (fun _ => half) = some (M, sz) → M 0 1 = M 1 0) ∧
    (∀ ee, (hypercube_H_LC_run ee 2 half (fun _ => half)).g.H 0 1 =
      (hypercube_H_LC_run ee 2 half (fun _ => half)).g.H 1 0) ∧
    (∀ M sz, hypercube_H_LC 2 half (fun _ => half) = some (M, sz) → M 0 1 = M 1 0)) :=
  ⟨by decide, C3_symmetric 2 half (fun _ => half) (by decide) 0 1⟩
/-! ### Claim C1: early exit against exhaustive enumeration -/

/-- Relation between the halted early-exit driver state `e` and the still
running exhaustive driver state `sx` of `hypercube_dijkstra_LC`: the recorded
largest cluster (index, size, member set and distances) is already final, no
remaining cluster can beat it, and all later clusters get strictly larger
indices. -/
structure DRelCore (N : ℕ) (e sx : LCDSt) : Prop where
  xeq1 : sx.largest_cluster_index = e.largest_cluster_index
  xeq2 : sx.largest_cluster_size = e.largest_cluster_size
  labeq : ∀ v, sx.d.labels v = e.largest_cluster_index ↔
    e.d.labels v = e.largest_cluster_index
  disteq : ∀ v, e.d.labels v = e.largest_cluster_index →
    sx.d.distances v = e.d.distances v
  hlt : Nat.pow 2 N ≤ e.largest_cluster_size +
    countVisited (Nat.pow 2 N) sx.d.visited
  hlci : e.largest_cluster_index < sx.cluster_index

/-- The early-exit run either coincides with the exhaustive run or has halted
with its final answer already fixed. -/
def DSim (N : ℕ) (e sx : LCDSt) : Prop :=
  e = sx ∨ (e.halted = true ∧ DRelCore N e sx)

theorem dijLC_sim_step (N : ℕ) (p : ℚ) (r : ℕ → ℚ) (NH : ℕ) (hN : N < 64)
    (hNH : NH = Nat.pow 2 N) (e sx : LCDSt) (site : ℕ)
    (hsite : site < Nat.pow 2 N) (he : DijDrv N e) (hx : DijDrv N sx)
    (hsim : DSim N e sx) :
    DSim N (dijLC_site N p r NH true e site)
      (dijLC_site N p r NH false sx site) := by
  rcases hsim with rfl | ⟨hhal, hrel⟩
  · by_cases hh : e.halted = true
    · unfold dijLC_site
      simp only [if_pos hh]
      exact Or.inl rfl
    · by_cases hv : e.d.visited site = true
      · unfold dijLC_site
        simp only [if_neg hh, if_pos hv]
        exact Or.inl rfl
      · have hv2 : e.d.visited site = false := by
          cases hev : e.d.visited site
          · rfl
          · exact absurd hev hv
        obtain ⟨f1, f2, f3, f4, f5, f6, f6b, f7, f8, f9, f10⟩ :=
          dijkstra_seed_run N p r true e.cluster_index e.d.q e.d.visited
            (updN e.d.distances site 0) e.d.labels site e.d.k hN he.qs he.qlen
            hsite (updN_same _ _ _) hv2
        have htot2 : e.total_size + (dijkstra N p r true e.cluster_index e.d.q e.d.visited (updN e.d.distances site 0) e.d.labels site e.d.k).number_visited =
            countVisited (Nat.pow 2 N) (dijkstra N p r true e.cluster_index e.d.q e.d.visited (updN e.d.distances site 0) e.d.labels site e.d.k).visited := by
          have h9 := he.tot
          omega
        unfold dijLC_site
        simp only [if_neg hh, if_neg hv]
        simp only [f1, Bool.false_eq_true, false_and, if_false,
          eq_self_iff_true, true_and]
        by_cases hcond : NH - (e.total_size + (dijkstra N p r true e.cluster_index e.d.q e.d.visited (updN e.d.distances site 0) e.d.labels site e.d.k).number_visited) ≤
            (if e.largest_cluster_size < (dijkstra N p r true e.cluster_index e.d.q e.d.visited (updN e.d.distances site 0) e.d.labels site e.d.k).number_visited
              then (dijkstra N p r true e.cluster_index e.d.q e.d.visited (updN e.d.distances site 0) e.d.labels site e.d.k).number_visited else e.largest_cluster_size)
        · rw [if_pos hcond]
          refine Or.inr ⟨rfl, ?_⟩
          refine ⟨rfl, rfl, fun v => Iff.rfl, fun v _ => rfl, ?_, ?_⟩
          · dsimp only
            omega
          · dsimp only
            split
            · omega
            · have h9 := he.licx
              omega
        · rw [if_neg hcond]
          exact Or.inl rfl
  · have hXe : dijLC_site N p r NH true e site = e := by
      unfold dijLC_site
      rw [if_pos hhal]
    rw [hXe]
    by_cases hxh : sx.halted = true
    · have hYe : dijLC_site N p r NH false sx site = sx := by
        unfold dijLC_site
        rw [if_pos hxh]
      rw [hYe]
      exact Or.inr ⟨hhal, hrel⟩
    · by_cases hv : sx.d.visited site = true
      · have hYe : dijLC_site N p r NH false sx site = sx := by
          unfold dijLC_site
          rw [if_neg hxh, if_pos hv]
        rw [hYe]
        exact Or.inr ⟨hhal, hrel⟩
      · have hv2 : sx.d.visited site = false := by
          cases hev : sx.d.visited site
          · rfl
          · exact absurd hev hv
        obtain ⟨f1, f2, f3, f4, f5, f6, f6b, f7, f8, f9, f10⟩ :=
          dijkstra_seed_run N p r true sx.cluster_index sx.d.q sx.d.visited
            (updN sx.d.distances site 0) sx.d.labels site sx.d.k hN hx.qs hx.qlen
            hsite (updN_same _ _ _) hv2
        have hLU : e.largest_cluster_index < UMAX := by
          have h1 := hrel.hlci
          have h2 := hx.cxcnt
          have h3 := countVisited_le (Nat.pow 2 N) sx.d.visited
          have h4 := pow2_lt_UMAX N hN
          omega
        have hbig : ¬(sx.largest_cluster_size < (dijkstra N p r true sx.cluster_index sx.d.q sx.d.visited (updN sx.d.distances site 0) sx.d.labels site sx.d.k).number_visited) := by
          have h1 := f8
          have h2 := countVisited_le (Nat.pow 2 N) (dijkstra N p r true sx.cluster_index sx.d.q sx.d.visited (updN sx.d.distances site 0) sx.d.labels site sx.d.k).visited
          have h3 := hrel.hlt
          have h4 := hrel.xeq2
          omega
        unfold dijLC_site
        rw [if_neg hxh, if_neg hv]
        dsimp only
        simp only [f1, Bool.false_eq_true, false_and, if_false, if_neg hbig]
        refine Or.inr ⟨hhal, ?_⟩
        refine ⟨?_, ?_, ?_, ?_, ?_, ?_⟩
        · dsimp only
          exact hrel.xeq1
        · dsimp only
          exact hrel.xeq2
        · intro v
          dsimp only
          constructor
          · intro h1
            by_cases hch : (dijkstra N p r true sx.cluster_index sx.d.q sx.d.visited (updN sx.d.distances site 0) sx.d.labels site sx.d.k).labels v = sx.d.labels v
            · rw [hch] at h1
              exact (hrel.labeq v).mp h1
            · exfalso
              have h5 := (f5 v hch).2.1
              rw [h5] at h1
              have h6 := hrel.hlci
              omega
          · intro h1
            have h2 := (hrel.labeq v).mpr h1
            have h3 : sx.d.labels v ≠ UMAX := by
              rw [h2]
              omega
            have h4 := hx.labs v h3
            rw [f6b v h4]
            exact h2
        · intro v h1
          dsimp only
          have h2 := (hrel.labeq v).mpr h1
          have h3 : sx.d.labels v ≠ UMAX := by
            rw [h2]
            omega
          have h4 := hx.labs v h3
          have h5 := f9 v h4
          rw [h5]
          have h6 : v ≠ site := by
            intro hveq
            rw [hveq] at h4
            rw [hv2] at h4
            cases h4
          rw [updN_other _ _ _ _ h6]
          exact hrel.disteq v h1
        · dsimp only
          have h1 := countVisited_mono (Nat.pow 2 N) _ _ f4
          have h2 := hrel.hlt
          omega
        · dsimp only
          have h1 := hrel.hlci
          omega

theorem dijLC_sim_fold (N : ℕ) (p : ℚ) (r : ℕ → ℚ) (NH : ℕ) (hN : N < 64)
    (hNH : NH = Nat.pow 2 N) :
    ∀ (l : List ℕ) (e sx : LCDSt), (∀ x ∈ l, x < Nat.pow 2 N) →
      DijDrv N e → DijDrv N sx → DSim N e sx →
      DSim N (l.foldl (dijLC_site N p r NH true) e)
        (l.foldl (dijLC_site N p r NH false) sx) := by
  intro l
  induction l with
  | nil =>
    intro e sx _ _ _ hsim
    exact hsim
  | cons a t ih =>
    intro e sx hl he hx hsim
    exact ih _ _ (fun x hx2 => hl x (List.mem_cons_of_mem a hx2))
      (dijLC_site_main N p r NH true e a hN (hl a (List.mem_cons_self a t)) he).1
      (dijLC_site_main N p r NH false sx a hN (hl a (List.mem_cons_self a t)) hx).1
      (dijLC_sim_step N p r NH hN hNH e sx a (hl a (List.mem_cons_self a t))
        he hx hsim)
/-- `hypercube_H_LC` analogue of `DRelCore`: the halted early-exit state
against the still running exhaustive state. -/
structure GRelCore (N : ℕ) (e sx : LCHSt) : Prop where
  eab : e.g.aborted = false
  xeq1 : sx.largest_cluster_index = e.largest_cluster_index
  xeq2 : sx.largest_cluster_size = e.largest_cluster_size
  labeq : ∀ v, sx.g.labels v = e.largest_cluster_index ↔
    e.g.labels v = e.largest_cluster_index
  Heq : ∀ i kk, e.g.labels i = e.largest_cluster_index →
    sx.g.H i kk = e.g.H i kk
  hlt : Nat.pow 2 N ≤ e.largest_cluster_size +
    countVisited (Nat.pow 2 N) sx.g.visited
  hlci : e.largest_cluster_index < sx.cluster_index

/-- The early-exit `hypercube_H_LC` run either coincides with the exhaustive
run or has halted with its final answer already fixed. -/
def GSim (N : ℕ) (e sx : LCHSt) : Prop :=
  e = sx ∨ (e.halted = true ∧ GRelCore N e sx)

theorem growLC_sim_step (N : ℕ) (p : ℚ) (r : ℕ → ℚ) (NH : ℕ) (hN : N < 64)
    (hNH : NH = Nat.pow 2 N) (e sx : LCHSt) (site : ℕ)
    (hsite : site < Nat.pow 2 N) (he : GrowDrv N e) (hx : GrowDrv N sx)
    (hsim : GSim N e sx) :
    GSim N (growLC_site N p r NH true e site)
      (growLC_site N p r NH false sx site) := by
  rcases hsim with rfl | ⟨hhal, hrel⟩
  · by_cases hh : e.halted = true
    · unfold growLC_site
      simp only [if_pos hh]
      exact Or.inl rfl
    · by_cases hv : e.g.visited site = true
      · unfold growLC_site
        simp only [if_neg hh, if_pos hv]
        exact Or.inl rfl
      · have hh2 : e.halted = false := by
          cases hev : e.halted
          · rfl
          · exact absurd hev hh
        have hv2 : e.g.visited site = false := by
          cases hev : e.g.visited site
          · rfl
          · exact absurd hev hv
        obtain ⟨hse, hslen⟩ := he.sfacts hh2
        obtain ⟨f1, f2, f3, f4, f5, f6, f7, f8, f9⟩ :=
          grow_seed_run N p r true e.cluster_index e.g.s e.g.visited
            e.g.labels e.g.H site e.g.k e.g.error_flag hse hslen hsite
        unfold growLC_site
        simp only [if_neg hh, if_neg hv]
        by_cases hga : (grow_H_cluster N p r true e.cluster_index e.g.s e.g.visited e.g.labels e.g.H site e.g.k e.g.error_flag).aborted = true
        · simp only [if_pos hga]
          exact Or.inl rfl
        · have hga2 : (grow_H_cluster N p r true e.cluster_index e.g.s e.g.visited e.g.labels e.g.H site e.g.k e.g.error_flag).aborted = false := by
            cases hev : (grow_H_cluster N p r true e.cluster_index e.g.s e.g.visited e.g.labels e.g.H site e.g.k e.g.error_flag).aborted
            · rfl
            · exact absurd hev hga
          simp only [if_neg hga]
          simp only [Bool.false_eq_true, false_and, if_false,
            eq_self_iff_true, true_and]
          have htot2 : e.total_size + (grow_H_cluster N p r true e.cluster_index e.g.s e.g.visited e.g.labels e.g.H site e.g.k e.g.error_flag).size =
              countVisited (Nat.pow 2 N) (grow_H_cluster N p r true e.cluster_index e.g.s e.g.visited e.g.labels e.g.H site e.g.k e.g.error_flag).visited := by
            have h9 := he.tot hh2
            omega
          by_cases hcond : NH - (e.total_size + (grow_H_cluster N p r true e.cluster_index e.g.s e.g.visited e.g.labels e.g.H site e.g.k e.g.error_flag).size) ≤
              (if e.largest_cluster_size < (grow_H_cluster N p r true e.cluster_index e.g.s e.g.visited e.g.labels e.g.H site e.g.k e.g.error_flag).size
                then (grow_H_cluster N p r true e.cluster_index e.g.s e.g.visited e.g.labels e.g.H site e.g.k e.g.error_flag).size else e.largest_cluster_size)
          · rw [if_pos hcond]
            refine Or.inr ⟨rfl, ?_⟩
            refine ⟨hga2, rfl, rfl, fun v => Iff.rfl, fun i kk _ => rfl, ?_, ?_⟩
            · dsimp only
              omega
            · dsimp only
              split
              · omega
              · have h9 := he.licx
                omega
          · rw [if_neg hcond]
            exact Or.inl rfl
  · have hXe : growLC_site N p r NH true e site = e := by
      unfold growLC_site
      rw [if_pos hhal]
    rw [hXe]
    by_cases hxh : sx.halted = true
    · have hYe : growLC_site N p r NH false sx site = sx := by
        unfold growLC_site
        rw [if_pos hxh]
      rw [hYe]
      exact Or.inr ⟨hhal, hrel⟩
    · by_cases hv : sx.g.visited site = true
      · have hYe : growLC_site N p r NH false sx site = sx := by
          unfold growLC_site
          rw [if_neg hxh, if_pos hv]
        rw [hYe]
        exact Or.inr ⟨hhal, hrel⟩
      · have hxh2 : sx.halted = false := by
          cases hev : sx.halted
          · rfl
          · exact absurd hev hxh
        have hv2 : sx.g.visited site = false := by
          cases hev : sx.g.visited site
          · rfl
          · exact absurd hev hv
        obtain ⟨hse, hslen⟩ := hx.sfacts hxh2
        obtain ⟨f1, f2, f3, f4, f5, f6, f7, f8, f9⟩ :=
          grow_seed_run N p r true sx.cluster_index sx.g.s sx.g.visited
            sx.g.labels sx.g.H site sx.g.k sx.g.error_flag hse hslen hsite
        have hLU : e.largest_cluster_index < UMAX := by
          have h1 := hrel.hlci
          have h2 := hx.cxcnt
          have h3 := countVisited_le (Nat.pow 2 N) sx.g.visited
          have h4 := pow2_lt_UMAX N hN
          omega
        have hcore : GRelCore N e { sx with
            g := (grow_H_cluster N p r true sx.cluster_index sx.g.s sx.g.visited sx.g.labels sx.g.H site sx.g.k sx.g.error_flag),
            largest_cluster_index := sx.largest_cluster_index,
            largest_cluster_size := sx.largest_cluster_size,
            cluster_index := sx.cluster_index + 1,
            total_size := sx.total_size + (grow_H_cluster N p r true sx.cluster_index sx.g.s sx.g.visited sx.g.labels sx.g.H site sx.g.k sx.g.error_flag).size } := by
          refine ⟨hrel.eab, hrel.xeq1, hrel.xeq2, ?_, ?_, ?_, ?_⟩
          · intro v
            dsimp only
            constructor
            · intro h1
              by_cases hch : (grow_H_cluster N p r true sx.cluster_index sx.g.s sx.g.visited sx.g.labels sx.g.H site sx.g.k sx.g.error_flag).labels v = sx.g.labels v
              · rw [hch] at h1
                exact (hrel.labeq v).mp h1
              · exfalso
                have h5 := (f2 v hch).2.2
                rw [h5] at h1
                have h6 := hrel.hlci
                omega
            · intro h1
              have h2 := (hrel.labeq v).mpr h1
              have h3 : sx.g.labels v ≠ UMAX := by
                rw [h2]
                omega
              have h4 := hx.labs v h3
              rw [f3 v h4]
              exact h2
          · intro i kk h1
            dsimp only
            have h2 := (hrel.labeq i).mpr h1
            have h3 : sx.g.labels i ≠ UMAX := by
              rw [h2]
              omega
            have h4 := hx.labs i h3
            by_cases hch : (grow_H_cluster N p r true sx.cluster_index sx.g.s sx.g.visited sx.g.labels sx.g.H site sx.g.k sx.g.error_flag).H i kk = sx.g.H i kk
            · rw [hch]
              exact hrel.Heq i kk h1
            · exfalso
              have h5 := (f4 i kk hch).1
              rw [h4] at h5
              cases h5
          · dsimp only
            have h1 := countVisited_mono (Nat.pow 2 N) _ _ f1
            have h2 := hrel.hlt
            omega
          · dsimp only
            have h1 := hrel.hlci
            omega
        have hcoreab : GRelCore N e { sx with g := (grow_H_cluster N p r true sx.cluster_index sx.g.s sx.g.visited sx.g.labels sx.g.H site sx.g.k sx.g.error_flag), halted := true } := by
          refine ⟨hrel.eab, hrel.xeq1, hrel.xeq2, ?_, ?_, ?_, ?_⟩
          · exact hcore.labeq
          · exact hcore.Heq
          · exact hcore.hlt
          · dsimp only
            exact hrel.hlci
        unfold growLC_site
        rw [if_neg hxh, if_neg hv]
        dsimp only
        by_cases hga : (grow_H_cluster N p r true sx.cluster_index sx.g.s sx.g.visited sx.g.labels sx.g.H site sx.g.k sx.g.error_flag).aborted = true
        · simp only [if_pos hga]
          exact Or.inr ⟨hhal, hcoreab⟩
        · simp only [if_neg hga]
          have hbig : ¬(sx.largest_cluster_size < (grow_H_cluster N p r true sx.cluster_index sx.g.s sx.g.visited sx.g.labels sx.g.H site sx.g.k sx.g.error_flag).size) := by
            have h1 := f6
            have h2 := countVisited_le (Nat.pow 2 N) (grow_H_cluster N p r true sx.cluster_index sx.g.s sx.g.visited sx.g.labels sx.g.H site sx.g.k sx.g.error_flag).visited
            have h3 := hrel.hlt
            have h4 := hrel.xeq2
            omega
          simp only [Bool.false_eq_true, false_and, if_false, if_neg hbig]
          exact Or.inr ⟨hhal, hcore⟩

theorem growLC_sim_fold (N : ℕ) (p : ℚ) (r : ℕ → ℚ) (NH : ℕ) (hN : N < 64)
    (hNH : NH = Nat.pow 2 N) :
    ∀ (l : List ℕ) (e sx : LCHSt), (∀ x ∈ l, x < Nat.pow 2 N) →
      GrowDrv N e → GrowDrv N sx → GSim N e sx →
      GSim N (l.foldl (growLC_site N p r NH true) e)
        (l.foldl (growLC_site N p r NH false) sx) := by
  intro l
  induction l with
  | nil =>
    intro e sx _ _ _ hsim
    exact hsim
  | cons a t ih =>
    intro e sx hl he hx hsim
    exact ih _ _ (fun x hx2 => hl x (List.mem_cons_of_mem a hx2))
      (growLC_site_main N p r NH true e a hN (hl a (List.mem_cons_self a t)) he).1
      (growLC_site_main N p r NH false sx a hN (hl a (List.mem_cons_self a t)) hx).1
      (growLC_sim_step N p r NH hN hNH e sx a (hl a (List.mem_cons_self a t))
        he hx hsim)
theorem dijLC_sim_runs (N : ℕ) (p : ℚ) (r : ℕ → ℚ) (hN : N < 64) :
    DSim N (hypercube_dijkstra_LC_run true N p r) (hypercube_dijkstra_LC_run false N p r) := by
  have hinit : DijDrv N ⟨⟨setup_queue (intpower 2 N), fun _ => false,
      fun _ => UMAX, fun _ => UMAX, 0, 0, false⟩, 0, 0, 0, 0, false, false⟩ := by
    refine ⟨rfl, rfl, rfl, ?_, le_refl 0, Nat.zero_le _, ?_, rfl⟩
    · intro v hv
      exact absurd rfl hv
    · rw [countVisited_false]
  exact dijLC_sim_fold N p r (intpower 2 N) hN rfl (List.range (intpower 2 N))
    _ _ (fun x hx => by
      have h3 := List.mem_range.mp hx
      show x < Nat.pow 2 N
      exact h3) hinit hinit (Or.inl rfl)

theorem growLC_sim_runs (N : ℕ) (p : ℚ) (r : ℕ → ℚ) (hN : N < 64) :
    GSim N (hypercube_H_LC_run true N p r) (hypercube_H_LC_run false N p r) := by
  have hinit : GrowDrv N ⟨⟨setup_stack (intpower 2 N), fun _ => false,
      fun _ => UMAX, fun _ _ => 0, 0, 0, false, false⟩, 0, 0, 0, 0, false⟩ := by
    refine ⟨?_, le_refl 0, Nat.zero_le _, ?_, ?_, fun _ => rfl, ?_, ?_⟩
    · intro v hv
      exact absurd rfl hv
    · intro h9
      rw [countVisited_false]
    · intro h9
      exact ⟨rfl, rfl⟩
    · intro v hv
      exact Bool.noConfusion hv
    · intro _ a b hab
      exact absurd rfl hab
  exact growLC_sim_fold N p r (intpower 2 N) hN rfl (List.range (intpower 2 N))
    _ _ (fun x hx => by
      have h3 := List.mem_range.mp hx
      show x < Nat.pow 2 N
      exact h3) hinit hinit (Or.inl rfl)

/-- Claim C1 (amended): for every `N < 64`, `p` and draw stream, the
early-exit `hypercube_dijkstra_LC` driver selects exactly the largest cluster
of the exhaustive no-early-exit enumeration - same size, same member set and
same restricted distance output, which is what the function returns; the
early-exit `hypercube_H_LC` driver agrees in the same way with the exhaustive
enumeration whenever the exhaustive enumeration does not abort on a stack
overflow (the unconditional statement is refuted by
`C1_early_exit_counterexample`). -/
theorem C1_early_exit_selection (N : ℕ) (p : ℚ) (r : ℕ → ℚ) (hN : N < 64) :
    ((hypercube_dijkstra_LC_run true N p r).largest_cluster_size = (hypercube_dijkstra_LC_run false N p r).largest_cluster_size ∧
    (∀ v, (hypercube_dijkstra_LC_run true N p r).d.labels v = (hypercube_dijkstra_LC_run true N p r).largest_cluster_index ↔
      (hypercube_dijkstra_LC_run false N p r).d.labels v = (hypercube_dijkstra_LC_run false N p r).largest_cluster_index) ∧
    hypercube_dijkstra_LC N p r = some
      (LC_finite_distances (intpower 2 N) (hypercube_dijkstra_LC_run false N p r), (hypercube_dijkstra_LC_run false N p r).largest_cluster_size)) ∧
    ((hypercube_H_LC_run false N p r).g.aborted = false →
      (hypercube_H_LC_run true N p r).g.aborted = false ∧
      (hypercube_H_LC_run true N p r).largest_cluster_size = (hypercube_H_LC_run false N p r).largest_cluster_size ∧
      (∀ v, (hypercube_H_LC_run true N p r).g.labels v = (hypercube_H_LC_run true N p r).largest_cluster_index ↔
        (hypercube_H_LC_run false N p r).g.labels v = (hypercube_H_LC_run false N p r).largest_cluster_index) ∧
      (∀ a b,
        (H_LC_copy (intpower 2 N) (hypercube_H_LC_run true N p r).largest_cluster_index (hypercube_H_LC_run true N p r).g.labels
          (List.range (intpower 2 N)) ((hypercube_H_LC_run true N p r).g.H, fun _ _ => 0)).2 a b =
        (H_LC_copy (intpower 2 N) (hypercube_H_LC_run false N p r).largest_cluster_index (hypercube_H_LC_run false N p r).g.labels
          (List.range (intpower 2 N)) ((hypercube_H_LC_run false N p r).g.H, fun _ _ => 0)).2 a b)) := by
  have habt : (hypercube_dijkstra_LC_run true N p r).aborted = false := (dijLC_run_inv true N p r hN).nab
  constructor
  · have key : (hypercube_dijkstra_LC_run true N p r).largest_cluster_size = (hypercube_dijkstra_LC_run false N p r).largest_cluster_size ∧
        (∀ v, (hypercube_dijkstra_LC_run true N p r).d.labels v = (hypercube_dijkstra_LC_run true N p r).largest_cluster_index ↔
          (hypercube_dijkstra_LC_run false N p r).d.labels v = (hypercube_dijkstra_LC_run false N p r).largest_cluster_index) ∧
        LC_finite_distances (intpower 2 N) (hypercube_dijkstra_LC_run true N p r) =
          LC_finite_distances (intpower 2 N) (hypercube_dijkstra_LC_run false N p r) := by
      rcases dijLC_sim_runs N p r hN with heq | ⟨hhal, hrel⟩
      · rw [heq]
        exact ⟨rfl, fun v => Iff.rfl, rfl⟩
      · refine ⟨hrel.xeq2.symm, ?_, ?_⟩
        · intro v
          rw [hrel.xeq1]
          exact (hrel.labeq v).symm
        · unfold LC_finite_distances
          have hfeq : (List.range (intpower 2 N)).filter
              (fun i => (hypercube_dijkstra_LC_run true N p r).d.labels i == (hypercube_dijkstra_LC_run true N p r).largest_cluster_index) =
              (List.range (intpower 2 N)).filter
              (fun i => (hypercube_dijkstra_LC_run false N p r).d.labels i == (hypercube_dijkstra_LC_run false N p r).largest_cluster_index) := by
            apply List.filter_congr
            intro x hxm
            rw [hrel.xeq1]
            by_cases hl2 : (hypercube_dijkstra_LC_run true N p r).d.labels x = (hypercube_dijkstra_LC_run true N p r).largest_cluster_index
            · rw [beq_iff_eq.mpr hl2, beq_iff_eq.mpr ((hrel.labeq x).mpr hl2)]
            · rw [beq_eq_false_iff_ne.mpr hl2,
                beq_eq_false_iff_ne.mpr (fun hc => hl2 ((hrel.labeq x).mp hc))]
          rw [hfeq]
          apply List.map_congr_left
          intro a ha
          have h1 := (List.mem_filter.mp ha).2
          rw [hrel.xeq1] at h1
          have h3 := beq_iff_eq.mp h1
          have h4 := (hrel.labeq a).mp h3
          exact (hrel.disteq a h4).symm
    refine ⟨key.1, key.2.1, ?_⟩
    show (if (hypercube_dijkstra_LC_run true N p r).aborted = true then none
      else some (LC_finite_distances (intpower 2 N) (hypercube_dijkstra_LC_run true N p r),
        (hypercube_dijkstra_LC_run true N p r).largest_cluster_size)) = _
    rw [habt, if_neg Bool.false_ne_true, key.2.2, key.1]
  · intro hnab
    rcases growLC_sim_runs N p r hN with heq | ⟨hhal, hrel⟩
    · rw [heq]
      exact ⟨hnab, rfl, fun v => Iff.rfl, fun a b => rfl⟩
    · refine ⟨hrel.eab, hrel.xeq2.symm, ?_, ?_⟩
      · intro v
        rw [hrel.xeq1]
        exact (hrel.labeq v).symm
      · intro a b
        obtain ⟨csT1, csT⟩ := H_LC_copy_spec (intpower 2 N)
          (hypercube_H_LC_run true N p r).largest_cluster_index (hypercube_H_LC_run true N p r).g.labels
          (List.range (intpower 2 N)) (hypercube_H_LC_run true N p r).g.H (fun _ _ => 0)
        obtain ⟨csF1, csF⟩ := H_LC_copy_spec (intpower 2 N)
          (hypercube_H_LC_run false N p r).largest_cluster_index (hypercube_H_LC_run false N p r).g.labels
          (List.range (intpower 2 N)) (hypercube_H_LC_run false N p r).g.H (fun _ _ => 0)
        rw [csT a b, csF a b]
        rw [hrel.xeq1]
        by_cases hce : (hypercube_H_LC_run true N p r).g.labels b = (hypercube_H_LC_run true N p r).largest_cluster_index ∧
            b ∈ List.range (intpower 2 N) ∧ a ∈ List.range (intpower 2 N)
        · rw [if_pos hce, if_pos (⟨(hrel.labeq b).mpr hce.1, hce.2⟩ :
            (hypercube_H_LC_run false N p r).g.labels b = (hypercube_H_LC_run true N p r).largest_cluster_index ∧
            b ∈ List.range (intpower 2 N) ∧ a ∈ List.range (intpower 2 N))]
          exact (hrel.Heq b a hce.1).symm
        · rw [if_neg hce, if_neg (fun hc => hce ⟨(hrel.labeq b).mp hc.1, hc.2⟩)]

set_option maxRecDepth 1000000 in
/-- Counterexample to claim C1 as stated: on the 7-dimensional hypercube with
`p = 1/2` and the valid draw stream `c1r`, the early-exit `hypercube_H_LC`
site loop completes (no abort, largest cluster of 64 sites), while the
exhaustive enumeration of all clusters without early exit overflows its
capacity-128 stack in a later growth and aborts, so the two runs do not
produce the same selection. -/
theorem C1_early_exit_counterexample :
    RngValid c1r ∧
    (hypercube_H_LC_run true 7 half c1r).g.aborted = false ∧
    (hypercube_H_LC_run true 7 half c1r).largest_cluster_size = 64 ∧
    (hypercube_H_LC_run false 7 half c1r).g.aborted = true := by
  refine ⟨?_, by decide, by decide, by decide⟩
  intro k
  unfold c1r
  by_cases hb : C1BITS.testBit k
  · rw [if_pos hb]
    exact ⟨by decide, by decide⟩
  · rw [if_neg hb]
    exact ⟨by decide, by decide⟩

theorem C1_early_exit_selection_witness : 1 < 64 ∧
    (((hypercube_dijkstra_LC_run true 1 half (fun _ => half)).largest_cluster_size = (hypercube_dijkstra_LC_run false 1 half (fun _ => half)).largest_cluster_size ∧
    (∀ v, (hypercube_dijkstra_LC_run true 1 half (fun _ => half)).d.labels v = (hypercube_dijkstra_LC_run true 1 half (fun _ => half)).largest_cluster_index ↔
      (hypercube_dijkstra_LC_run false 1 half (fun _ => half)).d.labels v = (hypercube_dijkstra_LC_run false 1 half (fun _ => half)).largest_cluster_index) ∧
    hypercube_dijkstra_LC 1 half (fun _ => half) = some
      (LC_finite_distances (intpower 2 1) (hypercube_dijkstra_LC_run false 1 half (fun _ => half)), (hypercube_dijkstra_LC_run false 1 half (fun _ => half)).largest_cluster_size)) ∧
    ((hypercube_H_LC_run false 1 half (fun _ => half)).g.aborted = false →
      (hypercube_H_LC_run true 1 half (fun _ => half)).g.aborted = false ∧
      (hypercube_H_LC_run true 1 half (fun _ => half)).largest_cluster_size = (hypercube_H_LC_run false 1 half (fun _ => half)).largest_cluster_size ∧
      (∀ v, (hypercube_H_LC_run true 1 half (fun _ => half)).g.labels v = (hypercube_H_LC_run true 1 half (fun _ => half)).largest_cluster_index ↔
        (hypercube_H_LC_run false 1 half (fun _ => half)).g.labels v = (hypercube_H_LC_run false 1 half (fun _ => half)).largest_cluster_index) ∧
      (∀ a b,
        (H_LC_copy (intpower 2 1) (hypercube_H_LC_run true 1 half (fun _ => half)).largest_cluster_index (hypercube_H_LC_run true 1 half (fun _ => half)).g.labels
          (List.range (intpower 2 1)) ((hypercube_H_LC_run true 1 half (fun _ => half)).g.H, fun _ _ => 0)).2 a b =
        (H_LC_copy (intpower 2 1) (hypercube_H_LC_run false 1 half (fun _ => half)).largest_cluster_index (hypercube_H_LC_run false 1 half (fun _ => half)).g.labels
          (List.range (intpower 2 1)) ((hypercube_H_LC_run false 1 half (fun _ => half)).g.H, fun _ _ => 0)).2 a b))) :=
  ⟨by decide, C1_early_exit_selection 1 half (fun _ => half) (by decide)⟩
end HG
